import Mathlib

/-!
# Hierarchical state machine engine and its event ring buffer

A shallow embedding of `ring_buff.c` and `fsm.c`.

* Pointers into the ring-buffer storage are byte addresses (`Nat`); the storage
  is a map from the byte address of a slot to the record stored there.
* A `fsm_state_t*` is an `Option Nat`: `none` is `NULL`, `some i` is
  `&states[i]` of the application's states array.
* A callback is opaque application code.  What the engine can observe of it is
  that it ran (recorded in the ghost field `trace`) and whether it called
  `fsm_terminate`.
* Loops whose termination depends on the configuration take a fuel argument,
  the number of loop iterations they may perform; `none` means that the fuel
  ran out (or that a `NULL` pointer was dereferenced).
* Integer widths follow the LP64 data model: `ptrdiff_t` is 64 bits wide,
  `int32_t`/`uint32_t` are 32 bits wide.
-/

namespace Fsm

/-! ## Definitions: ring_buff.c -/

/-- Mirror of `struct ringbuff`; `buf`, `p_read`, `p_write` are byte addresses. -/
structure ringbuff where
  buf : Nat
  len : Nat
  data_size : Nat
  p_read : Nat
  p_write : Nat
deriving DecidableEq, Repr

/-- The C expression `(uint8_t *)rb->buf + rb->data_size * rb->len`; the product
is computed in `uint32_t`. -/
def ringbuff_end (rb : ringbuff) : Nat :=
  rb.buf + (rb.data_size * rb.len) % 2 ^ 32

/-- The effect of `memcpy(p, data, data_size)` on the storage. -/
def mem_write {α : Type} (mem : Nat → α) (p : Nat) (v : α) : Nat → α :=
  fun a => if a = p then v else mem a

/-- Model of `ringbuff_init`: `none` when `assert(rb && buf && len)` fails. -/
def ringbuff_init (buf len data_size : Nat) : Option (Int × ringbuff) :=
  if buf = 0 ∨ len = 0 then none
  else some (0, { buf := buf, len := len, data_size := data_size, p_read := buf, p_write := buf })

/-- Model of `ringbuff_get rb data`: the return code, the updated ring buffer and
the updated contents of `*data`. -/
def ringbuff_get {α : Type} (rb : ringbuff) (mem : Nat → α) (data : α) : Int × ringbuff × α :=
  if rb.p_write ≠ rb.p_read then
    let p_read := rb.p_read + rb.data_size
    (0, { rb with p_read := if p_read ≥ ringbuff_end rb then rb.buf else p_read }, mem rb.p_read)
  else
    (-1, rb, data)

/-- Model of `ringbuff_put rb data`: the return code, the updated ring buffer and
the updated storage. -/
def ringbuff_put {α : Type} (rb : ringbuff) (mem : Nat → α) (data : α) :
    Int × ringbuff × (Nat → α) :=
  let mem1 := mem_write mem rb.p_write data
  let p_write := rb.p_write + rb.data_size
  let rb1 : ringbuff := { rb with p_write := if p_write ≥ ringbuff_end rb then rb.buf else p_write }
  if rb1.p_write = rb1.p_read then
    let p_read := rb1.p_read + rb1.data_size
    (0, { rb1 with p_read := if p_read ≥ ringbuff_end rb1 then rb1.buf else p_read }, mem1)
  else
    (0, rb1, mem1)

/-- Conversion of an integer to `int32_t` (two's complement wrap). -/
def to_int32 (x : Int) : Int :=
  (x + 2 ^ 31) % 2 ^ 32 - 2 ^ 31

/-- Model of `ringbuff_num`.  The pointer difference is a `ptrdiff_t`, divided
(truncating) by `data_size` and stored in an `int32_t`; `rb->len - len` is
computed in `uint32_t` and stored back in the `int32_t`; the result is returned
as `uint32_t`. -/
def ringbuff_num (rb : ringbuff) : Nat :=
  let len : Int := to_int32 (Int.tdiv ((rb.p_write : Int) - (rb.p_read : Int)) (rb.data_size : Int))
  let len : Int := if len < 0 then to_int32 (((rb.len : Int) - len) % 2 ^ 32) else len
  (len % 2 ^ 32).toNat

/-- Model of `ringbuff_flush`. -/
def ringbuff_flush (rb : ringbuff) : Nat × ringbuff :=
  (0, { rb with p_read := rb.p_write })

/-- The ring buffer after putting the values of a list, first to last. -/
def ringbuff_put_list {α : Type} : List α → ringbuff → (Nat → α) → ringbuff × (Nat → α)
  | [], rb, mem => (rb, mem)
  | v :: vs, rb, mem => ringbuff_put_list vs (ringbuff_put rb mem v).2.1 (ringbuff_put rb mem v).2.2

/-- Repeated `ringbuff_get` until it fails: the records of the successful calls,
in order, and the ring buffer after the failing call.  `none` when more than
`n` calls succeed. -/
def ringbuff_get_all {α : Type} (mem : Nat → α) (dflt : α) : Nat → ringbuff → Option (List α × ringbuff)
  | 0, rb => if (ringbuff_get rb mem dflt).1 = 0 then none else some ([], rb)
  | n + 1, rb =>
    if (ringbuff_get rb mem dflt).1 = 0 then
      (ringbuff_get_all mem dflt n (ringbuff_get rb mem dflt).2.1).map
        (fun r => ((ringbuff_get rb mem dflt).2.2 :: r.1, r.2))
    else some ([], rb)

/-! ## Definitions: fsm.h -/

/-- The macro `FSM_MAX_EVENTS`. -/
def FSM_MAX_EVENTS : Nat := 64

/-- The macro `MAX_HIERARCHY_DEPTH`. -/
def MAX_HIERARCHY_DEPTH : Nat := 8

/-- A `fsm_state_t*`: `none` is `NULL`, `some i` is `&states[i]`. -/
abbrev state_ptr := Option Nat

/-- What the engine observes of an action callback besides the call itself:
whether it calls `fsm_terminate (self, v)`. -/
structure fsm_callback where
  terminate : Option Int
deriving DecidableEq, Repr

/-- Mirror of `struct fsm_state_t`. -/
structure fsm_state_t where
  state_id : Int
  parent : state_ptr
  default_substate : state_ptr
  entry_action : Option fsm_callback
  exit_action : Option fsm_callback
  run_action : Option fsm_callback
deriving DecidableEq, Repr

/-- The zero-initialised state record (`[0] = {0}` of `FSM_STATES_INIT`). -/
def zero_state : fsm_state_t :=
  { state_id := 0, parent := none, default_substate := none,
    entry_action := none, exit_action := none, run_action := none }

/-- The application's states array. -/
abbrev state_graph := List fsm_state_t

/-- Read of `states[i]`. -/
def deref (g : state_graph) (i : Nat) : fsm_state_t := g.getD i zero_state

/-- Mirror of `fsm_transition_t`. -/
structure fsm_transition_t where
  source_state : state_ptr
  event : Int
  target_state : state_ptr
deriving DecidableEq, Repr

/-- Mirror of `struct fsm_events_t`; the payload pointer is an opaque address. -/
structure fsm_events_t where
  event : Int
  data : Nat
deriving DecidableEq, Repr

/-- The value of `sizeof (struct fsm_events_t)`. -/
def sizeof_fsm_events_t : Nat := 16

/-- Mirror of `enum fsm_action_e`. -/
inductive fsm_action_e where
  | ACTION_ENTRY
  | ACTION_RUN
  | ACTION_EXIT
deriving DecidableEq, Repr

/-- One executed callback: which action, of which state, with which payload. -/
structure action_call where
  kind : fsm_action_e
  state : Nat
  data : Nat
deriving DecidableEq, Repr

/-- Mirror of `struct fsm_t` with the bit fields of `struct internal_ctx` spelled
out.  `events_buff_addr` is the address of the member `events_buff`, and
`events_buff` its contents by byte address.  `trace` is a ghost field: the
callbacks executed so far, oldest first. -/
structure fsm_t where
  transitions : List fsm_transition_t
  event_queue : ringbuff
  events_buff_addr : Nat
  events_buff : Nat → fsm_events_t
  current_state : state_ptr
  current_data : Nat
  terminate_val : Int
  terminate : Bool
  is_exit : Bool
  handled : Bool
  trace : List action_call

/-! ## Definitions: fsm.c -/

/-- Model of `fsm_terminate`. -/
def fsm_terminate (fsm : fsm_t) (val : Int) : fsm_t :=
  { fsm with terminate := true, terminate_val := val }

/-- The statement `if (s->action) s->action (fsm, data);`. -/
def call_action (kind : fsm_action_e) (s : Nat) (cb : Option fsm_callback) (data : Nat)
    (fsm : fsm_t) : fsm_t :=
  match cb with
  | none => fsm
  | some c =>
    match c.terminate with
    | none => { fsm with trace := fsm.trace ++ [⟨kind, s, data⟩] }
    | some v => fsm_terminate { fsm with trace := fsm.trace ++ [⟨kind, s, data⟩] } v

/-- The loop `while (state_target->default_substate) state_target = ...;` of
`enter_state`. -/
def resolve_default (g : state_graph) : Nat → Nat → Option Nat
  | 0, s =>
    match (deref g s).default_substate with
    | none => some s
    | some _ => none
  | n + 1, s =>
    match (deref g s).default_substate with
    | none => some s
    | some d => resolve_default g n d

/-- The path-building loop of `enter_state`; the first argument is the number
of free entries of `state_path`. -/
def build_path (g : state_graph) (lca : state_ptr) : Nat → state_ptr → List Nat
  | 0, _ => []
  | _ + 1, none => []
  | n + 1, some x => if some x = lca then [] else x :: build_path g lca n (deref g x).parent

/-- The entry actions of a list of states, first to last. -/
def run_entry_actions (g : state_graph) (data : Nat) : List Nat → fsm_t → fsm_t
  | [], fsm => fsm
  | s :: rest, fsm =>
    run_entry_actions g data rest (call_action .ACTION_ENTRY s (deref g s).entry_action data fsm)

/-- Model of `enter_state`. -/
def enter_state (g : state_graph) (fuel : Nat) (fsm : fsm_t) (lca target : state_ptr)
    (data : Nat) : Option fsm_t :=
  match target with
  | none => none
  | some t =>
    (resolve_default g fuel t).map fun leaf =>
      { run_entry_actions g data (build_path g lca MAX_HIERARCHY_DEPTH (some leaf)).reverse fsm
          with current_state := some leaf }

/-- The loop of `exit_state`, started at `s`. -/
def exit_state_loop (g : state_graph) (state : state_ptr) (data : Nat) :
    Nat → state_ptr → fsm_t → Option fsm_t
  | _, none, fsm => some fsm
  | 0, some x, fsm => if some x = state then some fsm else none
  | n + 1, some x, fsm =>
    if some x = state then some fsm
    else exit_state_loop g state data n (deref g x).parent
      (call_action .ACTION_EXIT x (deref g x).exit_action data fsm)

/-- Model of `exit_state`. -/
def exit_state (g : state_graph) (fuel : Nat) (fsm : fsm_t) (state : state_ptr) (data : Nat) :
    Option fsm_t :=
  exit_state_loop g state data fuel fsm.current_state fsm

/-- The loop of `find_lca` with cursors `a` and `b`. -/
def find_lca_loop (g : state_graph) (s1 s2 : state_ptr) : Nat → state_ptr → state_ptr → Option state_ptr
  | 0, a, b => if a = b then some a else none
  | n + 1, a, b =>
    if a = b then some a
    else
      match a, b with
      | none, _ => find_lca_loop g s1 s2 n s2 b
      | some _, none => find_lca_loop g s1 s2 n a s1
      | some x, some y => find_lca_loop g s1 s2 n (deref g x).parent (deref g y).parent

/-- Model of `find_lca`. -/
def find_lca (g : state_graph) (fuel : Nat) (s1 s2 : state_ptr) : Option state_ptr :=
  find_lca_loop g s1 s2 fuel s1 s2

/-- Model of `fsm_init`. -/
def fsm_init (g : state_graph) (fuel : Nat) (fsm : fsm_t) (transitions : List fsm_transition_t)
    (initial_state : state_ptr) (initial_data : Nat) : Option fsm_t :=
  (ringbuff_init fsm.events_buff_addr FSM_MAX_EVENTS sizeof_fsm_events_t).bind fun r =>
    enter_state g fuel
      { fsm with
        transitions := transitions, terminate_val := 0, terminate := false, is_exit := false,
        current_data := initial_data, event_queue := r.2 }
      initial_state initial_state initial_data

/-- Model of `fsm_dispatch`. -/
def fsm_dispatch (fsm : fsm_t) (event : Int) (data : Nat) : fsm_t :=
  { fsm with
    event_queue := (ringbuff_put fsm.event_queue fsm.events_buff ⟨event, data⟩).2.1,
    events_buff := (ringbuff_put fsm.event_queue fsm.events_buff ⟨event, data⟩).2.2 }

/-- The `for` loop over the transition table in `fsm_process_events`, for the
walk cursor `current`.  The flag of the result says whether the function
returned from inside the loop. -/
def scan_transitions (g : state_graph) (fuel : Nat) (ev : fsm_events_t) (current : Nat) :
    List fsm_transition_t → fsm_t → Option (Bool × fsm_t)
  | [], fsm => some (false, fsm)
  | tr :: rest, fsm =>
    if tr.source_state = some current ∧ tr.event = ev.event then
      (find_lca g fuel fsm.current_state tr.target_state).bind fun lca =>
      (exit_state g fuel fsm lca ev.data).bind fun fsm1 =>
      (enter_state g fuel fsm1 lca tr.target_state ev.data).bind fun fsm2 =>
        if fsm2.terminate then some (true, fsm2)
        else scan_transitions g fuel ev current rest { fsm2 with handled := true }
    else scan_transitions g fuel ev current rest fsm

/-- The loop `while (internal->handled == 0 && current != NULL)` of
`fsm_process_events`. -/
def walk_ancestors (g : state_graph) (fuel : Nat) (ev : fsm_events_t) :
    Nat → state_ptr → fsm_t → Option (Bool × fsm_t)
  | _, none, fsm => some (false, fsm)
  | 0, some _, fsm => if fsm.handled then some (false, fsm) else none
  | n + 1, some c, fsm =>
    if fsm.handled then some (false, fsm)
    else
      (scan_transitions g fuel ev c fsm.transitions fsm).bind fun r =>
        if r.1 then some (true, r.2) else walk_ancestors g fuel ev n (deref g c).parent r.2

/-- The body of the event loop of `fsm_process_events` for one dequeued record:
`some v` in the first component when the function returns `v` from inside
the body, `none` when the loop goes on. -/
def fsm_process_event (g : state_graph) (fuel : Nat) (ev : fsm_events_t) (fsm : fsm_t) :
    Option (Option Int × fsm_t) :=
  (walk_ancestors g fuel ev fuel fsm.current_state { fsm with handled := false }).bind fun r =>
    if r.1 then some (some r.2.terminate_val, r.2)
    else if r.2.terminate then some (some r.2.terminate_val, r.2)
    else some (none, r.2)

/-- The event loop of `fsm_process_events`; `current_event` is the local
variable that `ringbuff_get` fills. -/
def fsm_process_events_loop (g : state_graph) (fuel : Nat) :
    Nat → fsm_events_t → fsm_t → Option (Int × fsm_t)
  | 0, current_event, fsm =>
    if (ringbuff_get fsm.event_queue fsm.events_buff current_event).1 = 0 then none
    else some (0, fsm)
  | n + 1, current_event, fsm =>
    if (ringbuff_get fsm.event_queue fsm.events_buff current_event).1 = 0 then
      (fsm_process_event g fuel (ringbuff_get fsm.event_queue fsm.events_buff current_event).2.2
        { fsm with
          event_queue := (ringbuff_get fsm.event_queue fsm.events_buff current_event).2.1 }).bind
        fun r =>
          match r.1 with
          | some v => some (v, r.2)
          | none =>
            fsm_process_events_loop g fuel n
              (ringbuff_get fsm.event_queue fsm.events_buff current_event).2.2 r.2
    else some (0, fsm)

/-- Model of `fsm_process_events`; the local `current_event` starts
uninitialised, here as the zero record. -/
def fsm_process_events (g : state_graph) (fuel : Nat) (fsm : fsm_t) : Option (Int × fsm_t) :=
  fsm_process_events_loop g fuel fuel ⟨0, 0⟩ fsm

/-- Model of `fsm_run`. -/
def fsm_run (g : state_graph) (fuel : Nat) (fsm : fsm_t) : Option (Int × fsm_t) :=
  if fsm.terminate then some (fsm.terminate_val, fsm)
  else
    (fsm_process_events g fuel fsm).bind fun r =>
      match r.2.current_state with
      | none => none
      | some c => some (0, call_action .ACTION_RUN c (deref g c).run_action r.2.current_data r.2)

/-- Model of `fsm_state_get`. -/
def fsm_state_get (g : state_graph) (fsm : fsm_t) : Option Int :=
  fsm.current_state.map fun c => (deref g c).state_id

/-- Model of `fsm_has_pending_events`. -/
def fsm_has_pending_events (fsm : fsm_t) : Int :=
  if ringbuff_num fsm.event_queue > 0 then 1 else 0

/-- Model of `fsm_flush_events`. -/
def fsm_flush_events (fsm : fsm_t) : fsm_t :=
  { fsm with event_queue := (ringbuff_flush fsm.event_queue).2 }

/-! ## Definitions: example/fsm_music.c -/

/-- The callbacks of the example only print. -/
def print_only : Option fsm_callback := some { terminate := none }

/-- The expansion of `FSM_CREATE_STATE` (the `_name` argument selects the array). -/
def FSM_CREATE_STATE (id parent sub : Nat) (entry run exit_ : Option fsm_callback) : fsm_state_t :=
  { state_id := id,
    parent := if parent = 0 then none else some parent,
    default_substate := if sub = 0 then none else some sub,
    entry_action := entry, exit_action := exit_, run_action := run }

/-- The expansion of `FSM_TRANSITION_CREATE`. -/
def FSM_TRANSITION_CREATE (source_id : Nat) (event : Int) (target_id : Nat) : fsm_transition_t :=
  { source_state := some source_id, event := event, target_state := some target_id }

def ST_ROOT : Nat := 1
def ST_OFF : Nat := 2
def ST_ON : Nat := 3
def ST_PLAYING : Nat := 4
def ST_NORMAL : Nat := 5
def ST_SHUFFLE : Nat := 6
def ST_REPEAT : Nat := 7
def ST_PAUSED : Nat := 8
def ST_MENU : Nat := 9
def ST_VOLUME_ADJUST : Nat := 10
def ST_PLAYLIST_SELECT : Nat := 11
def ST_LOW_BATTERY : Nat := 12

def EV_POWER : Int := 0
def EV_PLAY : Int := 1
def EV_PAUSE : Int := 2
def EV_STOP : Int := 3
def EV_NEXT : Int := 4
def EV_PREV : Int := 5
def EV_MODE_CHANGE : Int := 6
def EV_MENU : Int := 7
def EV_VOLUME_UP : Int := 8
def EV_VOLUME_DOWN : Int := 9
def EV_SELECT : Int := 10
def EV_BACK : Int := 11
def EV_LOW_BATTERY : Int := 12
def EV_CHARGE : Int := 13

/-- The array `music_player_states`. -/
def music_player_states : state_graph :=
  [ zero_state,
    FSM_CREATE_STATE ST_ROOT 0 ST_OFF print_only print_only none,
    FSM_CREATE_STATE ST_OFF ST_ROOT 0 print_only print_only none,
    FSM_CREATE_STATE ST_ON ST_ROOT ST_PAUSED print_only print_only none,
    FSM_CREATE_STATE ST_PLAYING ST_ON ST_NORMAL print_only print_only none,
    FSM_CREATE_STATE ST_NORMAL ST_PLAYING 0 print_only print_only none,
    FSM_CREATE_STATE ST_SHUFFLE ST_PLAYING 0 print_only print_only none,
    FSM_CREATE_STATE ST_REPEAT ST_PLAYING 0 print_only print_only none,
    FSM_CREATE_STATE ST_PAUSED ST_ON 0 print_only print_only none,
    FSM_CREATE_STATE ST_MENU ST_ON 0 print_only print_only none,
    FSM_CREATE_STATE ST_VOLUME_ADJUST ST_MENU 0 print_only print_only none,
    FSM_CREATE_STATE ST_PLAYLIST_SELECT ST_MENU 0 print_only print_only none,
    FSM_CREATE_STATE ST_LOW_BATTERY ST_ROOT 0 print_only print_only none ]

/-- The array `music_player_transitions`, its zero entry `[0] = {0}` included. -/
def music_player_transitions : List fsm_transition_t :=
  [ { source_state := none, event := 0, target_state := none },
    FSM_TRANSITION_CREATE ST_OFF EV_POWER ST_ON,
    FSM_TRANSITION_CREATE ST_ON EV_POWER ST_OFF,
    FSM_TRANSITION_CREATE ST_PAUSED EV_PLAY ST_PLAYING,
    FSM_TRANSITION_CREATE ST_PLAYING EV_PAUSE ST_PAUSED,
    FSM_TRANSITION_CREATE ST_PLAYING EV_STOP ST_PAUSED,
    FSM_TRANSITION_CREATE ST_NORMAL EV_MODE_CHANGE ST_SHUFFLE,
    FSM_TRANSITION_CREATE ST_SHUFFLE EV_MODE_CHANGE ST_REPEAT,
    FSM_TRANSITION_CREATE ST_REPEAT EV_MODE_CHANGE ST_NORMAL,
    FSM_TRANSITION_CREATE ST_ON EV_MENU ST_MENU,
    FSM_TRANSITION_CREATE ST_MENU EV_BACK ST_ON,
    FSM_TRANSITION_CREATE ST_MENU EV_VOLUME_UP ST_VOLUME_ADJUST,
    FSM_TRANSITION_CREATE ST_MENU EV_VOLUME_DOWN ST_VOLUME_ADJUST,
    FSM_TRANSITION_CREATE ST_VOLUME_ADJUST EV_BACK ST_MENU,
    FSM_TRANSITION_CREATE ST_MENU EV_SELECT ST_PLAYLIST_SELECT,
    FSM_TRANSITION_CREATE ST_PLAYLIST_SELECT EV_BACK ST_MENU,
    FSM_TRANSITION_CREATE ST_ROOT EV_LOW_BATTERY ST_LOW_BATTERY,
    FSM_TRANSITION_CREATE ST_LOW_BATTERY EV_CHARGE ST_ON ]

/-- An `fsm_t` object before `fsm_init`, placed so that `events_buff` is at
address 4096. -/
def fresh_fsm : fsm_t :=
  { transitions := [], event_queue := ⟨0, 0, 0, 0, 0⟩, events_buff_addr := 4096,
    events_buff := fun _ => ⟨0, 0⟩, current_state := none, current_data := 0,
    terminate_val := 0, terminate := false, is_exit := false, handled := false, trace := [] }

/-! ## Definitions: specification-side notions -/

/-- Representation invariant of the ring buffer.  `vs` lists every record put
since initialisation, `r` is the number of records already consumed or
overwritten; the cursors are the slots `r % len` and `vs.length % len`, and the
slots of the records `r, ..., vs.length - 1` hold those records. -/
def rb_rep {α : Type} (rb : ringbuff) (mem : Nat → α) (vs : List α) (r : Nat) : Prop :=
  1 ≤ rb.data_size ∧ 1 ≤ rb.len ∧ rb.data_size * rb.len < 2 ^ 32 ∧
  r ≤ vs.length ∧ vs.length < r + rb.len ∧
  rb.p_read = rb.buf + (r % rb.len) * rb.data_size ∧
  rb.p_write = rb.buf + (vs.length % rb.len) * rb.data_size ∧
  ∀ m, r ≤ m → m < vs.length → vs[m]? = some (mem (rb.buf + (m % rb.len) * rb.data_size))

/-- What a client observes after `ringbuff_init buf len 1` followed by a put of
every value of `vs`: the value of `ringbuff_num`, and the records that the
following successful `ringbuff_get` calls deliver. -/
def observe_after_puts (len : Nat) (vs : List Nat) : Option (Nat × Option (List Nat)) :=
  (ringbuff_init 100 len 1).map fun r =>
    (ringbuff_num (ringbuff_put_list vs r.2 (fun _ => 0)).1,
      (ringbuff_get_all (ringbuff_put_list vs r.2 (fun _ => 0)).2 0 len
        (ringbuff_put_list vs r.2 (fun _ => 0)).1).map Prod.fst)

/-- A ring buffer of four one-byte slots after three puts, two gets and one
more put: the write cursor has wrapped behind the read cursor. -/
def wrapped_ringbuff : Option (ringbuff × (Nat → Nat)) :=
  (ringbuff_init 100 4 1).map fun r =>
    let s1 := ringbuff_put_list [1, 2, 3] r.2 (fun _ => 0)
    let g1 := ringbuff_get s1.1 s1.2 0
    let g2 := ringbuff_get g1.2.1 s1.2 0
    ringbuff_put_list [7] g2.2.1 s1.2

/-- The parent of the state a pointer refers to; `NULL` has none. -/
def parent_ptr (g : state_graph) (p : state_ptr) : state_ptr :=
  p.bind fun s => (deref g s).parent

/-- The pointer reached from `p` by `k` steps along the `parent` links. -/
def up (g : state_graph) : Nat → state_ptr → state_ptr
  | 0, p => p
  | k + 1, p => up g k (parent_ptr g p)

/-- State `a` is `s` itself or an ancestor of `s`. -/
def is_ancestor_or_self (g : state_graph) (a s : Nat) : Prop :=
  ∃ k, up g k (some s) = some a

/-- The ancestor chain of `p` has exactly `n` states: `n` steps along the
`parent` links reach `NULL`, fewer do not. -/
def has_depth (g : state_graph) (p : state_ptr) (n : Nat) : Prop :=
  up g n p = none ∧ ∀ k, k < n → up g k p ≠ none

/-- The pointer `p` is what a least-common-ancestor computation has to deliver
for the states `s1` and `s2`: it lies on both ancestor chains (`NULL` ends
every chain) and every common ancestor-or-self of `s1` and `s2` is an
ancestor-or-self of it (so `p` is `NULL` only if there is none). -/
def is_lca (g : state_graph) (s1 s2 : Nat) (p : state_ptr) : Prop :=
  (∃ i, up g i (some s1) = p) ∧ (∃ j, up g j (some s2) = p) ∧
  ∀ c, is_ancestor_or_self g c s1 → is_ancestor_or_self g c s2 → ∃ t, up g t p = some c

/-- The state tree is well formed with depth bound `D`: every ancestor chain
ends after at most `D` states (the parent links are acyclic), and the default
substate of a state is one of its proper descendants. -/
def well_formed (g : state_graph) (D : Nat) : Prop :=
  (∀ s, s < g.length → up g D (some s) = none) ∧
  (∀ s, s < g.length → ∀ d ∈ (deref g s).default_substate,
    ∃ k, k < D ∧ up g (k + 1) (some d) = some s)

/-- State `l` is reached from `s` by following `default_substate` until a state
without default substate. -/
inductive default_leaf (g : state_graph) : Nat → Nat → Prop
  | leaf (s : Nat) : (deref g s).default_substate = none → default_leaf g s s
  | step (s d l : Nat) :
    (deref g s).default_substate = some d → default_leaf g d l → default_leaf g s l

/-- The first `k` states of the ancestor chain of `p`, nearest first. -/
def chain (g : state_graph) : Nat → state_ptr → List Nat
  | 0, _ => []
  | _ + 1, none => []
  | k + 1, some s => s :: chain g k (deref g s).parent

/-- The exit callbacks that exist on the states of `l`, as calls with payload
`data`, in the order of `l`. -/
def exit_calls (g : state_graph) (data : Nat) (l : List Nat) : List action_call :=
  l.filterMap fun s =>
    if (deref g s).exit_action.isSome then some ⟨.ACTION_EXIT, s, data⟩ else none

/-- The entry callbacks that exist on the states of `l`, as calls with payload
`data`, in the order of `l`. -/
def entry_calls (g : state_graph) (data : Nat) (l : List Nat) : List action_call :=
  l.filterMap fun s =>
    if (deref g s).entry_action.isSome then some ⟨.ACTION_ENTRY, s, data⟩ else none

/-- The call of the run callback of state `s` with payload `data`, if the state
has one. -/
def run_calls (g : state_graph) (data : Nat) (s : Nat) : List action_call :=
  if (deref g s).run_action.isSome then [⟨.ACTION_RUN, s, data⟩] else []

/-- On the ancestor chain of `c`, the state `s` (the `j`-th ancestor) is the
nearest one that is the source of an edge for event `e`. -/
def nearest_source (g : state_graph) (trs : List fsm_transition_t) (c : Nat) (e : Int)
    (j s : Nat) : Prop :=
  up g j (some c) = some s ∧
  (∃ tr ∈ trs, tr.source_state = some s ∧ tr.event = e) ∧
  ∀ i, i < j → ∀ tr ∈ trs, ¬ (tr.source_state = up g i (some c) ∧ tr.event = e)

/-- The edges of the table with source `s` and event `e`, in table order. -/
def edges_of (trs : List fsm_transition_t) (s : Nat) (e : Int) : List fsm_transition_t :=
  trs.filter fun tr => decide (tr.source_state = some s ∧ tr.event = e)

/-- The event queue is usable and holds no unread record: cursors equal and on
a slot boundary inside the storage, which has at least two slots. -/
def queue_idle (q : ringbuff) : Prop :=
  1 ≤ q.data_size ∧ 2 ≤ q.len ∧ q.data_size * q.len < 2 ^ 32 ∧ q.p_read = q.p_write ∧
  ∃ i, i < q.len ∧ q.p_read = q.buf + i * q.data_size

/-- The engine with its event queue and queue storage replaced. -/
def set_queue (q : ringbuff) (mem : Nat → fsm_events_t) (fsm : fsm_t) : fsm_t :=
  { fsm with event_queue := q, events_buff := mem }

instance well_formed_decidable (g : state_graph) (D : Nat) : Decidable (well_formed g D) := by
  unfold well_formed; exact inferInstance

instance nearest_source_decidable (g : state_graph) (trs : List fsm_transition_t) (c : Nat)
    (e : Int) (j s : Nat) : Decidable (nearest_source g trs c e j s) := by
  unfold nearest_source; exact inferInstance

instance queue_idle_decidable (q : ringbuff) : Decidable (queue_idle q) := by
  unfold queue_idle; exact inferInstance

/-- The fields that processing an event never writes are the same in `f` and
`f1`: the transition table, the event queue and its storage, and
`current_data`. -/
def same_config (f f1 : fsm_t) : Prop :=
  f1.transitions = f.transitions ∧ f1.event_queue = f.event_queue ∧
  f1.events_buff_addr = f.events_buff_addr ∧ f1.events_buff = f.events_buff ∧
  f1.current_data = f.current_data

/-- No state among the first `d` of the ancestor chain of `c` is the source of
an edge for event `e`. -/
def no_edge_on_chain (g : state_graph) (trs : List fsm_transition_t) (c : Nat) (e : Int)
    (d : Nat) : Prop :=
  ∀ i, i < d → ∀ x ∈ up g i (some c), ∀ tr ∈ trs, ¬ (tr.source_state = some x ∧ tr.event = e)

instance no_edge_on_chain_decidable (g : state_graph) (trs : List fsm_transition_t) (c : Nat)
    (e : Int) (d : Nat) : Decidable (no_edge_on_chain g trs c e d) := by
  unfold no_edge_on_chain; exact inferInstance

/-- A chart of three nested states `1 -> 2 -> 3`, each the default substate of
the one before, all with entry, run and exit callbacks. -/
def nested_states : state_graph :=
  [ zero_state,
    FSM_CREATE_STATE 1 0 2 print_only print_only print_only,
    FSM_CREATE_STATE 2 1 3 print_only print_only print_only,
    FSM_CREATE_STATE 3 2 0 print_only print_only print_only ]

/-- The media-player engine as `fsm_init` leaves it, but with current state
`c`. -/
def music_player_in (c : Nat) : fsm_t :=
  { fresh_fsm with
    transitions := music_player_transitions,
    event_queue := ⟨4096, 64, 16, 4096, 4096⟩,
    current_state := some c }

/-- An engine on the chart `nested_states`, in the innermost state `3`, whose
table has the single edge `1 --5--> 1`. -/
def nested_in : fsm_t :=
  { fresh_fsm with
    transitions := [FSM_TRANSITION_CREATE 1 5 1],
    event_queue := ⟨4096, 64, 16, 4096, 4096⟩,
    current_state := some 3 }

/-- From `f` to `f1` the trace only grew, and by no call of a run action. -/
def appends_no_run (f f1 : fsm_t) : Prop :=
  ∃ tail, f1.trace = f.trace ++ tail ∧ ∀ a ∈ tail, a.kind ≠ fsm_action_e.ACTION_RUN

/-- The media-player engine in state `c` after handled events that left the
trace `tr`. -/
def music_player_after (c : Nat) (tr : List action_call) : fsm_t :=
  { music_player_in c with handled := true, trace := tr }

/-- The media player in `OFF` with two dispatched, unprocessed events. -/
def music_player_pending : fsm_t :=
  fsm_dispatch (fsm_dispatch (music_player_in ST_OFF) EV_POWER 0) EV_PLAY 7

/-- A call of the engine's interface by the application. -/
inductive fsm_call where
  | run
  | dispatch (event : Int) (data : Nat)
deriving DecidableEq, Repr

/-- A sequence of interface calls, first to last: for every `fsm_run` call its
return value and the value of `fsm_state_get` after it, and the engine after
the last call. -/
def fsm_calls (g : state_graph) (fuel : Nat) :
    List fsm_call → fsm_t → Option (List (Int × Option Int) × fsm_t)
  | [], fsm => some ([], fsm)
  | .run :: rest, fsm =>
    (fsm_run g fuel fsm).bind fun r =>
      (fsm_calls g fuel rest r.2).map fun x => ((r.1, fsm_state_get g r.2) :: x.1, x.2)
  | .dispatch e d :: rest, fsm => fsm_calls g fuel rest (fsm_dispatch fsm e d)

/-- The engine after the `fsm_dispatch` calls of a sequence alone. -/
def only_dispatches : List fsm_call → fsm_t → fsm_t
  | [], fsm => fsm
  | .run :: rest, fsm => only_dispatches rest fsm
  | .dispatch e d :: rest, fsm => only_dispatches rest (fsm_dispatch fsm e d)

/-- The media player in `OFF` after `fsm_terminate (fsm, 7)`. -/
def music_player_terminated : fsm_t :=
  fsm_terminate (music_player_in ST_OFF) 7

/-- A callback that calls `fsm_terminate (self, v)`. -/
def terminating (v : Int) : Option fsm_callback := some { terminate := some v }

/-- A chart with the root `1` (default substate `2`) and its three children
`2`, `3`, `4`.  Every callback only prints, except the exit action of state
`2`, which is `exit2`. -/
def flat_states (exit2 : Option fsm_callback) : state_graph :=
  [ zero_state,
    FSM_CREATE_STATE 1 0 2 print_only print_only print_only,
    FSM_CREATE_STATE 2 1 0 print_only print_only exit2,
    FSM_CREATE_STATE 3 1 0 print_only print_only print_only,
    FSM_CREATE_STATE 4 1 0 print_only print_only print_only ]

/-- An initialised engine with table `trs` and current state `c`, its queue
empty. -/
def engine_in (trs : List fsm_transition_t) (c : Nat) : fsm_t :=
  { fresh_fsm with
    transitions := trs,
    event_queue := ⟨4096, 64, 16, 4096, 4096⟩,
    current_state := some c }

/-- The calls of `main` in the example after `fsm_init`: one `fsm_run`, then
each event dispatched and run. -/
def music_player_main : List fsm_call :=
  [ .run,
    .dispatch EV_POWER 0, .run,
    .dispatch EV_PLAY 0, .run,
    .dispatch EV_MODE_CHANGE 0, .run,
    .dispatch EV_MENU 0, .run,
    .dispatch EV_VOLUME_UP 0, .run,
    .dispatch EV_BACK 0, .run,
    .dispatch EV_SELECT 0, .run,
    .dispatch EV_LOW_BATTERY 0, .run,
    .dispatch EV_CHARGE 0, .run,
    .dispatch EV_POWER 0, .run ]

/-- The shorter scenario: `POWER`, `PLAY`, `MODE_CHANGE`, `MENU`, `LOW_BATTERY`,
`CHARGE`, each dispatched and run. -/
def music_player_short : List fsm_call :=
  [ .dispatch EV_POWER 0, .run,
    .dispatch EV_PLAY 0, .run,
    .dispatch EV_MODE_CHANGE 0, .run,
    .dispatch EV_MENU 0, .run,
    .dispatch EV_LOW_BATTERY 0, .run,
    .dispatch EV_CHARGE 0, .run ]

/-- From `f` to `f1` the trace only grew, and every run action among the new
calls received the payload `d`. -/
def runs_with_data (d : Nat) (f f1 : fsm_t) : Prop :=
  ∃ tail, f1.trace = f.trace ++ tail ∧
    ∀ a ∈ tail, a.kind = fsm_action_e.ACTION_RUN → a.data = d

/-- The media player as `fsm_init` at `ROOT` with payload `11` leaves it. -/
def music_player_started : fsm_t :=
  { music_player_in ST_OFF with
    current_data := 11, trace := [⟨.ACTION_ENTRY, ST_OFF, 11⟩] }

/-- The media player of `music_player_started` after `POWER` was dispatched
with payload `42` and run. -/
def music_player_started_on : fsm_t :=
  { music_player_started with
    event_queue := ⟨4096, 64, 16, 4112, 4112⟩,
    events_buff := mem_write (fun _ => ⟨0, 0⟩) 4096 ⟨EV_POWER, 42⟩,
    current_state := some ST_PAUSED,
    handled := true,
    trace := [⟨.ACTION_ENTRY, ST_OFF, 11⟩, ⟨.ACTION_ENTRY, ST_ON, 42⟩,
      ⟨.ACTION_ENTRY, ST_PAUSED, 42⟩, ⟨.ACTION_RUN, ST_PAUSED, 11⟩] }

/-- The loop body of `fsm_process_events` applied to the records of a list,
first to last, as long as it does not return from inside: the engine after the
last record, `none` if the body returns on one of them. -/
def process_all (g : state_graph) (fuel : Nat) : List fsm_events_t → fsm_t → Option fsm_t
  | [], fsm => some fsm
  | ev :: rest, fsm =>
    (fsm_process_event g fuel ev fsm).bind fun r =>
      match r.1 with
      | some _ => none
      | none => process_all g fuel rest r.2

/-- An initialised engine with table `trs` and current state `c` after the
events `evs` were dispatched, first to last. -/
def engine_with_events (trs : List fsm_transition_t) (c : Nat) (evs : List fsm_events_t) :
    fsm_t :=
  set_queue (ringbuff_put_list evs ⟨4096, 64, 16, 4096, 4096⟩ (fun _ => ⟨0, 0⟩)).1
    (ringbuff_put_list evs ⟨4096, 64, 16, 4096, 4096⟩ (fun _ => ⟨0, 0⟩)).2 (engine_in trs c)

/-- The table `4 --6--> 2`, `2 --5--> 3`, `3 --6--> 4`. -/
def round_transitions : List fsm_transition_t :=
  [FSM_TRANSITION_CREATE 4 6 2, FSM_TRANSITION_CREATE 2 5 3, FSM_TRANSITION_CREATE 3 6 4]

/-- The engine `engine_with_events round_transitions 4 evs` after the loop body
of `fsm_process_events` handled a first record with event `6`: state `4` was
left for state `2`. -/
def round_after_first (evs : List fsm_events_t) : fsm_t :=
  { engine_with_events round_transitions 4 evs with
    current_state := some 2,
    handled := true,
    trace := [⟨.ACTION_EXIT, 4, 0⟩, ⟨.ACTION_ENTRY, 2, 0⟩] }

/-- The engine `round_after_first evs` after the loop body handled a record with
event `5` on the chart `flat_states (terminating 7)`: the exit action of state
`2` requested termination with value `7`, state `3` was entered. -/
def round_after_second (evs : List fsm_events_t) : fsm_t :=
  { engine_with_events round_transitions 4 evs with
    current_state := some 3,
    terminate := true,
    terminate_val := 7,
    handled := false,
    trace := [⟨.ACTION_EXIT, 4, 0⟩, ⟨.ACTION_ENTRY, 2, 0⟩, ⟨.ACTION_EXIT, 2, 0⟩,
      ⟨.ACTION_ENTRY, 3, 0⟩] }

/-- Every ancestor chain of the graph ends after at most `D` states: the parent
links are acyclic and the depth of the graph, counted in states from a root
(level 1) down to a leaf, is at most `D`. -/
def chains_end (g : state_graph) (D : Nat) : Prop :=
  ∀ s, s < g.length → up g D (some s) = none

instance chains_end_decidable (g : state_graph) (D : Nat) : Decidable (chains_end g D) := by
  unfold chains_end; exact inferInstance

/-- Two separate trees: the root `1` alone, and the root `2` with its child
`3`. -/
def two_trees : state_graph :=
  [ zero_state,
    FSM_CREATE_STATE 1 0 0 print_only print_only print_only,
    FSM_CREATE_STATE 2 0 3 print_only print_only print_only,
    FSM_CREATE_STATE 3 2 0 print_only print_only print_only ]

/-- One tree of three levels: the root `1` with the children `2` and `4`, and
`3` a child of `2`. -/
def side_branch : state_graph :=
  [ zero_state,
    FSM_CREATE_STATE 1 0 2 print_only print_only print_only,
    FSM_CREATE_STATE 2 1 3 print_only print_only print_only,
    FSM_CREATE_STATE 3 2 0 print_only print_only print_only,
    FSM_CREATE_STATE 4 1 0 print_only print_only print_only ]

/-- A chart of ten nested states `1 -> 2 -> ... -> 10`, each the default
substate of the one before: two levels more than `MAX_HIERARCHY_DEPTH`
below the root. -/
def deep_states : state_graph :=
  [ zero_state,
    FSM_CREATE_STATE 1 0 2 print_only print_only print_only,
    FSM_CREATE_STATE 2 1 3 print_only print_only print_only,
    FSM_CREATE_STATE 3 2 4 print_only print_only print_only,
    FSM_CREATE_STATE 4 3 5 print_only print_only print_only,
    FSM_CREATE_STATE 5 4 6 print_only print_only print_only,
    FSM_CREATE_STATE 6 5 7 print_only print_only print_only,
    FSM_CREATE_STATE 7 6 8 print_only print_only print_only,
    FSM_CREATE_STATE 8 7 9 print_only print_only print_only,
    FSM_CREATE_STATE 9 8 10 print_only print_only print_only,
    FSM_CREATE_STATE 10 9 0 print_only print_only print_only ]

/-- The ring buffers that a client can reach: `ringbuff_init` with at least one
slot and a positive record size, followed by any sequence of `ringbuff_put`,
`ringbuff_get` and `ringbuff_flush` calls, with any storage contents and any
records. -/
inductive rb_states (α : Type) : ringbuff → Prop
  | init (buf len data_size : Nat) (rb : ringbuff) :
    1 ≤ len → 1 ≤ data_size → ringbuff_init buf len data_size = some (0, rb) → rb_states α rb
  | put (rb : ringbuff) (mem : Nat → α) (v : α) :
    rb_states α rb → rb_states α (ringbuff_put rb mem v).2.1
  | get (rb : ringbuff) (mem : Nat → α) (d : α) :
    rb_states α rb → rb_states α (ringbuff_get rb mem d).2.1
  | flush (rb : ringbuff) : rb_states α rb → rb_states α (ringbuff_flush rb).2

/-- The cursor `p` points at the start of a slot of the storage of `rb`. -/
def at_slot (rb : ringbuff) (p : Nat) : Prop :=
  ∃ i, i < rb.len ∧ p = rb.buf + i * rb.data_size

/-- A ring buffer of two three-byte slots at address 100 after the puts
`1, 2, 3`. -/
def three_puts : ringbuff × (Nat → Nat) :=
  ringbuff_put_list [1, 2, 3] ⟨100, 2, 3, 100, 100⟩ (fun _ => 0)

/-- What a client observes after `ringbuff_init buf len data_size` at address
100 followed by a put of every value of `vs`: the records that the following
successful `ringbuff_get` calls deliver. -/
def gets_after_puts (len data_size : Nat) (vs : List Nat) : Option (Option (List Nat)) :=
  (ringbuff_init 100 len data_size).map fun r =>
    (ringbuff_get_all (ringbuff_put_list vs r.2 (fun _ => 0)).2 0 vs.length
      (ringbuff_put_list vs r.2 (fun _ => 0)).1).map Prod.fst

/-! # Theorems -/

/-! ## Ring buffer: cursor arithmetic -/

theorem slot_addr_inj (buf ds a b : Nat) (hds : 1 ≤ ds) :
    buf + a * ds = buf + b * ds ↔ a = b := by
  constructor
  · intro h
    have h1 : a * ds = b * ds := by omega
    exact Nat.eq_of_mul_eq_mul_right (by omega) h1
  · intro h; rw [h]

theorem mod_succ_cases (m L : Nat) (hL : 1 ≤ L) :
    (m % L + 1 = L ∧ (m + 1) % L = 0) ∨ (m % L + 1 < L ∧ (m + 1) % L = m % L + 1) := by
  have hlt : m % L < L := Nat.mod_lt _ (by omega)
  have hmod : (m + 1) % L = (m % L + 1) % L := by
    rw [Nat.add_mod, Nat.add_mod (m % L) 1, Nat.mod_mod]
  by_cases h : m % L + 1 = L
  · left
    refine ⟨h, ?_⟩
    rw [hmod, h, Nat.mod_self]
  · right
    have h2 : m % L + 1 < L := by omega
    exact ⟨h2, by rw [hmod, Nat.mod_eq_of_lt h2]⟩

theorem wrap_step (buf ds L m : Nat) (hds : 1 ≤ ds) (hL : 1 ≤ L) (hov : ds * L < 2 ^ 32) :
    (if buf + (m % L) * ds + ds ≥ buf + (ds * L) % 2 ^ 32 then buf
      else buf + (m % L) * ds + ds) = buf + ((m + 1) % L) * ds := by
  rw [Nat.mod_eq_of_lt hov]
  rcases mod_succ_cases m L hL with ⟨h1, h2⟩ | ⟨h1, h2⟩
  · have h3 : (m % L) * ds + ds = ds * L := by
      have : (m % L + 1) * ds = L * ds := by rw [h1]
      rw [Nat.add_mul, Nat.one_mul] at this
      rw [this, Nat.mul_comm]
    rw [h2, if_pos (by omega)]; simp
  · have h3 : (m % L) * ds + ds < ds * L := by
      have : (m % L + 1) * ds < L * ds := Nat.mul_lt_mul_of_pos_right h1 (by omega)
      rw [Nat.add_mul, Nat.one_mul] at this
      rw [Nat.mul_comm ds L]; exact this
    rw [h2, if_neg (by omega), Nat.add_mul, Nat.one_mul, Nat.add_assoc]

theorem mod_ne_of_close (a b L : Nat) (hab : a < b) (hL : b < a + L) : a % L ≠ b % L := by
  intro h
  have hd : L ∣ b - a := (Nat.modEq_iff_dvd' (Nat.le_of_lt hab)).1 h
  have hpos : 0 < b - a := by omega
  have := Nat.le_of_dvd hpos hd
  omega

theorem mod_eq_of_full (a b L : Nat) (h : b = a + L) : b % L = a % L := by
  rw [h, Nat.add_mod_right]

/-! ## Ring buffer: the operations on the representation -/

theorem rb_rep_init {α : Type} (buf len ds : Nat) (mem : Nat → α) (hds : 1 ≤ ds) (hlen : 1 ≤ len)
    (hov : ds * len < 2 ^ 32) :
    rb_rep { buf := buf, len := len, data_size := ds, p_read := buf, p_write := buf } mem [] 0 := by
  refine ⟨hds, hlen, hov, Nat.le_refl _, by simpa using hlen, by simp, by simp, ?_⟩
  intro m _ hm
  simp at hm

theorem ringbuff_get_empty {α : Type} (rb : ringbuff) (mem : Nat → α) (vs : List α) (r : Nat)
    (d : α) (h : rb_rep rb mem vs r) (hr : r = vs.length) :
    ringbuff_get rb mem d = (-1, rb, d) := by
  obtain ⟨_, _, _, _, _, hrd, hwr, _⟩ := h
  have : rb.p_write = rb.p_read := by rw [hrd, hwr, hr]
  simp [ringbuff_get, this]

theorem ringbuff_get_nonempty {α : Type} (rb : ringbuff) (mem : Nat → α) (vs : List α) (r : Nat)
    (h : rb_rep rb mem vs r) (hr : r < vs.length) :
    ∃ x rb1, vs[r]? = some x ∧ (∀ d, ringbuff_get rb mem d = (0, rb1, x)) ∧
      rb_rep rb1 mem vs (r + 1) := by
  obtain ⟨hds, hlen, hov, hle, hlt, hrd, hwr, hmem⟩ := h
  have hne : rb.p_write ≠ rb.p_read := by
    rw [hrd, hwr]
    intro heq
    have := (slot_addr_inj _ _ _ _ hds).1 heq
    exact mod_ne_of_close r vs.length rb.len hr hlt this.symm
  have hstep := wrap_step rb.buf rb.data_size rb.len r hds hlen hov
  refine ⟨mem rb.p_read, { rb with p_read := rb.buf + ((r + 1) % rb.len) * rb.data_size }, ?_, ?_, ?_⟩
  · rw [hrd]; exact hmem r (Nat.le_refl _) hr
  · intro d
    simp only [ringbuff_get, if_pos hne, ringbuff_end]
    rw [hrd, hstep]
  · have hlt2 : vs.length < r + 1 + rb.len := by omega
    exact ⟨hds, hlen, hov, hr, hlt2, rfl, hwr, fun m h1 h2 => hmem m (by omega) h2⟩

theorem ringbuff_put_rep {α : Type} (rb : ringbuff) (mem : Nat → α) (vs : List α) (r : Nat)
    (v : α) (h : rb_rep rb mem vs r) :
    (ringbuff_put rb mem v).1 = 0 ∧
    rb_rep (ringbuff_put rb mem v).2.1 (ringbuff_put rb mem v).2.2 (vs ++ [v])
      (if vs.length + 1 = r + rb.len then r + 1 else r) := by
  obtain ⟨hds, hlen, hov, hle, hlt, hrd, hwr, hmem⟩ := h
  have hw := wrap_step rb.buf rb.data_size rb.len vs.length hds hlen hov
  have hr := wrap_step rb.buf rb.data_size rb.len r hds hlen hov
  have hmem1 : ∀ m, r ≤ m → m < (vs ++ [v]).length →
      (vs ++ [v])[m]? = some (mem_write mem rb.p_write v (rb.buf + (m % rb.len) * rb.data_size)) := by
    intro m h1 h2
    simp only [List.length_append, List.length_singleton] at h2
    by_cases hm : m = vs.length
    · subst hm
      simp [mem_write, hwr]
    · have hm2 : m < vs.length := by omega
      have hslot : rb.buf + (m % rb.len) * rb.data_size ≠ rb.p_write := by
        rw [hwr]
        intro heq
        exact mod_ne_of_close m vs.length rb.len hm2 (by omega) ((slot_addr_inj _ _ _ _ hds).1 heq)
      simp only [mem_write, if_neg hslot]
      rw [List.getElem?_append_left hm2]
      exact hmem m h1 hm2
  by_cases hfull : vs.length + 1 = r + rb.len
  · have heq : (vs.length + 1) % rb.len = r % rb.len := mod_eq_of_full _ _ _ hfull
    simp only [ringbuff_put, ringbuff_end, hwr, hw, hrd, heq, if_true, hr, if_pos hfull]
    refine ⟨trivial, hds, hlen, hov, ?_, ?_, rfl, ?_, ?_⟩
    · simp; omega
    · simp; omega
    · simp [heq]
    · intro m h1 h2
      have := hmem1 m (by omega) h2
      rw [hwr] at this
      exact this
  · have hne : (vs.length + 1) % rb.len ≠ r % rb.len := by
      intro heq
      exact mod_ne_of_close r (vs.length + 1) rb.len (by omega) (by omega) heq.symm
    have hne2 : rb.buf + ((vs.length + 1) % rb.len) * rb.data_size ≠
        rb.buf + (r % rb.len) * rb.data_size := by
      intro heq
      exact hne ((slot_addr_inj _ _ _ _ hds).1 heq)
    simp only [ringbuff_put, ringbuff_end, hwr, hw, hrd, if_neg hne2, if_neg hfull]
    refine ⟨trivial, hds, hlen, hov, ?_, ?_, rfl, ?_, ?_⟩
    · simp; omega
    · simp; omega
    · simp
    · intro m h1 h2
      have := hmem1 m h1 h2
      rw [hwr] at this
      exact this

theorem ringbuff_put_list_rep {α : Type} (ws : List α) :
    ∀ (rb : ringbuff) (mem : Nat → α) (vs : List α) (r : Nat), rb_rep rb mem vs r →
      rb_rep (ringbuff_put_list ws rb mem).1 (ringbuff_put_list ws rb mem).2 (vs ++ ws)
        (max r (vs.length + ws.length + 1 - rb.len)) ∧
      (ringbuff_put_list ws rb mem).1.len = rb.len := by
  induction ws with
  | nil =>
    intro rb mem vs r h
    have hlt : vs.length < r + rb.len := h.2.2.2.2.1
    have hmax : max r (vs.length + 0 + 1 - rb.len) = r := by omega
    simp only [ringbuff_put_list, List.append_nil, List.length_nil, hmax]
    exact ⟨h, trivial⟩
  | cons w ws ih =>
    intro rb mem vs r h
    have hput := (ringbuff_put_rep rb mem vs r w h).2
    have hlen : (ringbuff_put rb mem w).2.1.len = rb.len := by
      unfold ringbuff_put
      dsimp only
      split_ifs <;> rfl
    have hle : r ≤ vs.length := h.2.2.2.1
    have hlt : vs.length < r + rb.len := h.2.2.2.2.1
    have ih1 := ih _ _ _ _ hput
    simp only [ringbuff_put_list]
    rw [hlen] at ih1
    refine ⟨?_, ih1.2⟩
    have hr : max (if vs.length + 1 = r + rb.len then r + 1 else r)
        ((vs ++ [w]).length + ws.length + 1 - rb.len) =
        max r (vs.length + (w :: ws).length + 1 - rb.len) := by
      simp only [List.length_append, List.length_singleton, List.length_cons, List.length_nil]
      split_ifs <;> omega
    rw [← hr]
    have happ : vs ++ w :: ws = (vs ++ [w]) ++ ws := by simp
    rw [happ]
    exact ih1.1

theorem ringbuff_get_all_rep {α : Type} (mem : Nat → α) (d : α) (vs : List α) :
    ∀ (k r : Nat) (rb : ringbuff), rb_rep rb mem vs r → vs.length - r = k → ∀ n, k ≤ n →
      ∃ rb1, ringbuff_get_all mem d n rb = some (vs.drop r, rb1) ∧ rb_rep rb1 mem vs vs.length := by
  intro k
  induction k with
  | zero =>
    intro r rb h hk n _
    have hle : r ≤ vs.length := h.2.2.2.1
    have hr : r = vs.length := by omega
    have hget := ringbuff_get_empty rb mem vs r d h hr
    have hdrop : vs.drop r = [] := by rw [hr]; simp
    refine ⟨rb, ?_, hr ▸ h⟩
    cases n <;> simp [ringbuff_get_all, hget, hdrop]
  | succ k ih =>
    intro r rb h hk n hn
    have hr : r < vs.length := by omega
    obtain ⟨x, rb1, hx, hget0, hrep⟩ := ringbuff_get_nonempty rb mem vs r h hr
    have hget := hget0 d
    obtain ⟨m, rfl⟩ : ∃ m, n = m + 1 := ⟨n - 1, by omega⟩
    obtain ⟨rb2, hall, hrep2⟩ := ih (r + 1) rb1 hrep (by omega) m (by omega)
    refine ⟨rb2, ?_, hrep2⟩
    have hdrop : vs.drop r = x :: vs.drop (r + 1) := by
      rw [List.getElem?_eq_some_iff] at hx
      obtain ⟨hlt, hx⟩ := hx
      rw [← hx]
      exact List.drop_eq_getElem_cons hlt
    simp [ringbuff_get_all, hget, hall, hdrop]

/-! ## Ring buffer: overflow -/

/-- C9 (as the code behaves): on a ring buffer initialised with `len = C`, after
`C + 1` puts of `v1 .. v(C+1)` the following successful `ringbuff_get` calls
deliver exactly `v3 .. v(C+1)` in that order, and the next call fails: a buffer
of `C` slots holds at most `C - 1` unread records, so `v1` and `v2` are gone. -/
theorem ringbuff_put_overflow_keeps_newest {α : Type} (buf C ds n : Nat) (mem : Nat → α) (d : α)
    (vs : List α) (hbuf : buf ≠ 0) (hC : 1 ≤ C) (hds : 1 ≤ ds) (hov : ds * C < 2 ^ 32)
    (hvs : vs.length = C + 1) (hn : C - 1 ≤ n) :
    ∃ rb0, ringbuff_init buf C ds = some (0, rb0) ∧
      (ringbuff_get_all (ringbuff_put_list vs rb0 mem).2 d n (ringbuff_put_list vs rb0 mem).1).map
        Prod.fst = some (vs.drop 2) ∧
      (vs.drop 2).length = C - 1 := by
  refine ⟨{ buf := buf, len := C, data_size := ds, p_read := buf, p_write := buf }, ?_, ?_, ?_⟩
  · have : ¬ (buf = 0 ∨ C = 0) := by omega
    simp [ringbuff_init, this]
  · have h0 := rb_rep_init buf C ds mem hds hC hov
    have h1 := (ringbuff_put_list_rep vs _ mem [] 0 h0).1
    have hr : max 0 (([] : List α).length + vs.length + 1 - C) = 2 := by
      simp only [List.length_nil]; omega
    simp only [hr, List.nil_append] at h1
    obtain ⟨rb1, hall, _⟩ := ringbuff_get_all_rep _ d vs (vs.length - 2) 2 _ h1 rfl n (by omega)
    rw [hall]; rfl
  · simp; omega

/-- Witness for C9: three slots, four puts. -/
theorem ringbuff_put_overflow_keeps_newest_witness :
    ∃ rb0, ringbuff_init 100 3 1 = some (0, rb0) ∧
      (ringbuff_get_all (ringbuff_put_list [1, 2, 3, 4] rb0 (fun _ => 0)).2 0 2
        (ringbuff_put_list [1, 2, 3, 4] rb0 (fun _ => 0)).1).map Prod.fst
        = some ([1, 2, 3, 4].drop 2) ∧
      ([1, 2, 3, 4].drop 2).length = 3 - 1 :=
  ringbuff_put_overflow_keeps_newest 100 3 1 2 (fun _ => 0) 0 [1, 2, 3, 4]
    (by decide) (by decide) (by decide) (by decide) (by decide) (by decide)

/-- C9 as stated fails: with capacity `C = 3` and the four values `1, 2, 3, 4`,
`ringbuff_num` returns `4` (not `3`) and the gets deliver `3, 4` (not
`2, 3, 4`). -/
theorem ringbuff_put_overflow_counterexample :
    observe_after_puts 3 [1, 2, 3, 4] = some (4, some [3, 4]) ∧
    observe_after_puts 3 [1, 2, 3, 4] ≠ some (3, some [2, 3, 4]) := by
  decide

/-- C10 fails on a wrapped buffer: with four slots, after three puts, two gets
and one put, two records are unread (two gets succeed, delivering `3, 7`) but
`ringbuff_num` returns `6`, which exceeds the buffer length. -/
theorem ringbuff_num_wrapped_wrong :
    wrapped_ringbuff.map (fun s => (s.1, ringbuff_num s.1,
        (ringbuff_get_all s.2 0 4 s.1).map Prod.fst)) =
      some (⟨100, 4, 1, 102, 100⟩, 6, some [3, 7]) := by
  decide

/-! ## Ancestor chains -/

theorem up_none (g : state_graph) (k : Nat) : up g k none = none := by
  induction k with
  | zero => rfl
  | succ k ih => simpa [up, parent_ptr] using ih

theorem up_add (g : state_graph) (j k : Nat) (p : state_ptr) :
    up g (j + k) p = up g k (up g j p) := by
  induction j generalizing p with
  | zero => simp [up]
  | succ j ih =>
    have : j + 1 + k = (j + k) + 1 := by omega
    rw [this]
    simp only [up]
    exact ih _

theorem up_succ_right (g : state_graph) (k : Nat) (p : state_ptr) :
    up g (k + 1) p = parent_ptr g (up g k p) := by
  rw [up_add g k 1 p]; rfl

theorem up_none_of_le (g : state_graph) (j k : Nat) (p : state_ptr) (h : up g j p = none)
    (hjk : j ≤ k) : up g k p = none := by
  obtain ⟨t, rfl⟩ := Nat.exists_eq_add_of_le hjk
  rw [up_add, h, up_none]

theorem has_depth_none (g : state_graph) (n : Nat) : has_depth g none n ↔ n = 0 := by
  constructor
  · intro h
    by_contra hn
    exact h.2 0 (by omega) rfl
  · rintro rfl
    exact ⟨rfl, fun k hk => absurd hk (by omega)⟩

theorem has_depth_some (g : state_graph) (s n : Nat) (h : has_depth g (some s) n) :
    ∃ m, n = m + 1 ∧ has_depth g (deref g s).parent m := by
  cases n with
  | zero => exact absurd h.1 (by simp [up])
  | succ m =>
    refine ⟨m, rfl, ?_, ?_⟩
    · exact h.1
    · intro k hk
      exact h.2 (k + 1) (by omega)

theorem has_depth_cons (g : state_graph) (s m : Nat) (h : has_depth g (deref g s).parent m) :
    has_depth g (some s) (m + 1) := by
  refine ⟨h.1, ?_⟩
  intro k hk
  cases k with
  | zero => simp [up]
  | succ k => exact h.2 k (by omega)

theorem has_depth_unique (g : state_graph) (p : state_ptr) (m n : Nat) (hm : has_depth g p m)
    (hn : has_depth g p n) : m = n := by
  rcases Nat.lt_trichotomy m n with h | h | h
  · exact absurd hm.1 (hn.2 m h)
  · exact h
  · exact absurd hn.1 (hm.2 n h)

theorem has_depth_of_up_none (g : state_graph) (d : Nat) :
    ∀ p, up g d p = none → ∃ n, n ≤ d ∧ has_depth g p n := by
  induction d with
  | zero =>
    intro p h
    have hp : p = none := h
    exact ⟨0, Nat.le_refl _, (by rw [hp]; exact (has_depth_none g 0).2 rfl)⟩
  | succ d ih =>
    intro p h
    cases p with
    | none => exact ⟨0, by omega, (has_depth_none g 0).2 rfl⟩
    | some s =>
      obtain ⟨n, hn, hd⟩ := ih (deref g s).parent h
      exact ⟨n + 1, by omega, has_depth_cons g s n hd⟩

theorem has_depth_up (g : state_graph) (p : state_ptr) (n k : Nat) (h : has_depth g p n)
    (hk : k ≤ n) : has_depth g (up g k p) (n - k) := by
  refine ⟨?_, ?_⟩
  · rw [← up_add]
    have : k + (n - k) = n := by omega
    rw [this]; exact h.1
  · intro i hi
    rw [← up_add]
    exact h.2 (k + i) (by omega)

theorem has_depth_pos (g : state_graph) (s n : Nat) (h : has_depth g (some s) n) : 1 ≤ n := by
  obtain ⟨m, rfl, _⟩ := has_depth_some g s n h
  omega

theorem up_lt_depth (g : state_graph) (p : state_ptr) (n i c : Nat) (h : has_depth g p n)
    (hc : up g i p = some c) : i < n := by
  by_contra hge
  have := up_none_of_le g n i p h.1 (by omega)
  rw [this] at hc
  cases hc

/-! ## find_lca -/

theorem find_lca_loop_eq (g : state_graph) (s1 s2 a : state_ptr) (fuel : Nat) :
    find_lca_loop g s1 s2 fuel a a = some a := by
  cases fuel <;> simp [find_lca_loop]

theorem find_lca_loop_step (g : state_graph) (s1 s2 : state_ptr) (fuel x y : Nat)
    (h : x ≠ y) :
    find_lca_loop g s1 s2 (fuel + 1) (some x) (some y) =
      find_lca_loop g s1 s2 fuel (deref g x).parent (deref g y).parent := by
  have : (some x : state_ptr) ≠ some y := by simpa using h
  simp [find_lca_loop, this]

theorem find_lca_loop_reset_a (g : state_graph) (s1 s2 : state_ptr) (fuel y : Nat) :
    find_lca_loop g s1 s2 (fuel + 1) none (some y) = find_lca_loop g s1 s2 fuel s2 (some y) := by
  simp [find_lca_loop]

theorem find_lca_loop_reset_b (g : state_graph) (s1 s2 : state_ptr) (fuel x : Nat) :
    find_lca_loop g s1 s2 (fuel + 1) (some x) none = find_lca_loop g s1 s2 fuel (some x) s1 := by
  simp [find_lca_loop]

/-- Two cursors on chains of the same length advance together until they meet. -/
theorem find_lca_loop_lockstep (g : state_graph) (s1 s2 : state_ptr) (n : Nat) :
    ∀ (a b : state_ptr) (fuel : Nat), has_depth g a n → has_depth g b n → n ≤ fuel →
      ∃ k, find_lca_loop g s1 s2 fuel a b = some (up g k a) ∧ up g k a = up g k b ∧
        ∀ i, i < k → up g i a ≠ up g i b := by
  induction n with
  | zero =>
    intro a b fuel ha hb _
    have ha0 : a = none := ha.1
    have hb0 : b = none := hb.1
    subst ha0; subst hb0
    exact ⟨0, find_lca_loop_eq g s1 s2 none fuel, rfl, fun i hi => absurd hi (by omega)⟩
  | succ n ih =>
    intro a b fuel ha hb hf
    by_cases hab : a = b
    · subst hab
      exact ⟨0, find_lca_loop_eq g s1 s2 a fuel, rfl, fun i hi => absurd hi (by omega)⟩
    · cases a with
      | none => exact absurd ((has_depth_none g _).1 ha) (by omega)
      | some x =>
        cases b with
        | none => exact absurd ((has_depth_none g _).1 hb) (by omega)
        | some y =>
          obtain ⟨m, hm, hx⟩ := has_depth_some g x _ ha
          obtain ⟨m2, hm2, hy⟩ := has_depth_some g y _ hb
          have e1 : m = n := by omega
          have e2 : m2 = n := by omega
          subst e1; subst e2
          obtain ⟨f, rfl⟩ : ∃ f, fuel = f + 1 := ⟨fuel - 1, by omega⟩
          obtain ⟨k, hk1, hk2, hk3⟩ := ih _ _ f hx hy (by omega)
          have hxy : x ≠ y := fun h => hab (by rw [h])
          refine ⟨k + 1, ?_, hk2, ?_⟩
          · rw [find_lca_loop_step g s1 s2 f x y hxy, hk1]; rfl
          · intro i hi
            cases i with
            | zero => exact hab
            | succ i => exact hk3 i (by omega)

/-- Two cursors on chains of different lengths advance together without meeting
as long as both chains last. -/
theorem find_lca_loop_skip (g : state_graph) (s1 s2 : state_ptr) (k : Nat) :
    ∀ (a b : state_ptr) (m n fuel : Nat), has_depth g a m → has_depth g b n → m ≠ n →
      k ≤ m → k ≤ n →
      find_lca_loop g s1 s2 (fuel + k) a b = find_lca_loop g s1 s2 fuel (up g k a) (up g k b) := by
  induction k with
  | zero => intro a b m n fuel _ _ _ _ _; rfl
  | succ k ih =>
    intro a b m n fuel ha hb hmn hkm hkn
    cases a with
    | none => exact absurd ((has_depth_none g _).1 ha) (by omega)
    | some x =>
      cases b with
      | none => exact absurd ((has_depth_none g _).1 hb) (by omega)
      | some y =>
        obtain ⟨m1, hm1, hx⟩ := has_depth_some g x _ ha
        obtain ⟨n1, hn1, hy⟩ := has_depth_some g y _ hb
        have hxy : x ≠ y := by
          intro h
          rw [h] at ha
          exact hmn (has_depth_unique g _ _ _ ha hb)
        have : fuel + (k + 1) = (fuel + k) + 1 := by omega
        rw [this, find_lca_loop_step g s1 s2 _ x y hxy]
        exact ih _ _ m1 n1 fuel hx hy (by omega) (by omega) (by omega)

theorem find_lca_loop_lockstep_spec (g : state_graph) (s1 s2 a b : state_ptr) (n fuel : Nat)
    (ha : has_depth g a n) (hb : has_depth g b n) (hf : n ≤ fuel) :
    ∃ p k, find_lca_loop g s1 s2 fuel a b = some p ∧ up g k a = p ∧ up g k b = p ∧
      ∀ i j c, up g i a = some c → up g j b = some c → ∃ t, up g t p = some c := by
  obtain ⟨k, hk1, hk2, hk3⟩ := find_lca_loop_lockstep g s1 s2 n a b fuel ha hb hf
  refine ⟨up g k a, k, hk1, rfl, hk2.symm, ?_⟩
  intro i j c hi hj
  have hin : i < n := up_lt_depth g a n i c ha hi
  have hjn : j < n := up_lt_depth g b n j c hb hj
  have d1 := has_depth_up g a n i ha (by omega)
  have d2 := has_depth_up g b n j hb (by omega)
  rw [hi] at d1
  rw [hj] at d2
  have hij : i = j := by
    have := has_depth_unique g _ _ _ d1 d2
    omega
  subst hij
  have hki : k ≤ i := by
    by_contra hlt
    exact hk3 i (by omega) (by rw [hi, hj])
  refine ⟨i - k, ?_⟩
  rw [← up_add]
  have : k + (i - k) = i := by omega
  rw [this]; exact hi

/-- The two-cursor walk on two states with terminating ancestor chains delivers
the least common ancestor (`NULL` if there is no common ancestor), within
`la + lb + 2` iterations for chains of `la` and `lb` states. -/
theorem find_lca_spec (g : state_graph) (x1 x2 la lb fuel : Nat)
    (h1 : has_depth g (some x1) la) (h2 : has_depth g (some x2) lb) (hf : la + lb + 2 ≤ fuel) :
    ∃ p, find_lca g fuel (some x1) (some x2) = some p ∧ is_lca g x1 x2 p := by
  have hla := has_depth_pos g x1 la h1
  have hlb := has_depth_pos g x2 lb h2
  unfold find_lca
  rcases Nat.lt_trichotomy la lb with hlt | heq | hgt
  · -- the chain of `s1` is shorter
    obtain ⟨f, rfl⟩ : ∃ f, fuel = ((((f + la) + 1) + (lb - la)) + 1) + la :=
      ⟨fuel - (la + lb + 2), by omega⟩
    rw [find_lca_loop_skip g _ _ la _ _ la lb _ h1 h2 (by omega) (by omega) (by omega)]
    rw [h1.1]
    have d2 := has_depth_up g (some x2) lb la h2 (by omega)
    obtain ⟨y, hy⟩ : ∃ y, up g la (some x2) = some y := by
      cases h : up g la (some x2) with
      | none => exact absurd h (h2.2 la hlt)
      | some y => exact ⟨y, rfl⟩
    rw [hy, find_lca_loop_reset_a]
    rw [hy] at d2
    rw [find_lca_loop_skip g _ _ (lb - la) _ _ lb (lb - la) _ h2 d2 (by omega) (by omega)
      (by omega)]
    have e1 : up g (lb - la) (some y) = none := by
      rw [← hy, ← up_add]
      have : la + (lb - la) = lb := by omega
      rw [this]; exact h2.1
    rw [e1]
    have d3 := has_depth_up g (some x2) lb (lb - la) h2 (by omega)
    have e2 : lb - (lb - la) = la := by omega
    rw [e2] at d3
    obtain ⟨z, hz⟩ : ∃ z, up g (lb - la) (some x2) = some z := by
      cases h : up g (lb - la) (some x2) with
      | none => exact absurd h (h2.2 (lb - la) (by omega))
      | some z => exact ⟨z, rfl⟩
    rw [hz, find_lca_loop_reset_b]
    rw [hz] at d3
    obtain ⟨p, k, hp, hk1, hk2, hk3⟩ :=
      find_lca_loop_lockstep_spec g (some x1) (some x2) (some z) (some x1) la (f + la) d3 h1
        (by omega)
    refine ⟨p, ?_, ⟨k, hk2⟩, ⟨(lb - la) + k, ?_⟩, ?_⟩
    · exact hp
    · rw [up_add, hz]; exact hk1
    · rintro c ⟨i, hi⟩ ⟨j, hj⟩
      have hin : i < la := up_lt_depth g _ la i c h1 hi
      have hjn : j < lb := up_lt_depth g _ lb j c h2 hj
      have c1 := has_depth_up g _ la i h1 (by omega)
      have c2 := has_depth_up g _ lb j h2 (by omega)
      rw [hi] at c1
      rw [hj] at c2
      have := has_depth_unique g _ _ _ c1 c2
      refine hk3 (j - (lb - la)) i c ?_ hi
      rw [← hz, ← up_add]
      have e : lb - la + (j - (lb - la)) = j := by omega
      rw [e]; exact hj
  · -- chains of the same length
    subst heq
    obtain ⟨p, k, hp, hk1, hk2, hk3⟩ :=
      find_lca_loop_lockstep_spec g (some x1) (some x2) (some x1) (some x2) la fuel h1 h2
        (by omega)
    exact ⟨p, hp, ⟨k, hk1⟩, ⟨k, hk2⟩, fun c ⟨i, hi⟩ ⟨j, hj⟩ => hk3 i j c hi hj⟩
  · -- the chain of `s2` is shorter
    obtain ⟨f, rfl⟩ : ∃ f, fuel = ((((f + lb) + 1) + (la - lb)) + 1) + lb :=
      ⟨fuel - (la + lb + 2), by omega⟩
    rw [find_lca_loop_skip g _ _ lb _ _ la lb _ h1 h2 (by omega) (by omega) (by omega)]
    rw [h2.1]
    have d1 := has_depth_up g (some x1) la lb h1 (by omega)
    obtain ⟨y, hy⟩ : ∃ y, up g lb (some x1) = some y := by
      cases h : up g lb (some x1) with
      | none => exact absurd h (h1.2 lb hgt)
      | some y => exact ⟨y, rfl⟩
    rw [hy, find_lca_loop_reset_b]
    rw [hy] at d1
    rw [find_lca_loop_skip g _ _ (la - lb) _ _ (la - lb) la _ d1 h1 (by omega) (by omega)
      (by omega)]
    have e1 : up g (la - lb) (some y) = none := by
      rw [← hy, ← up_add]
      have : lb + (la - lb) = la := by omega
      rw [this]; exact h1.1
    rw [e1]
    have d3 := has_depth_up g (some x1) la (la - lb) h1 (by omega)
    have e2 : la - (la - lb) = lb := by omega
    rw [e2] at d3
    obtain ⟨z, hz⟩ : ∃ z, up g (la - lb) (some x1) = some z := by
      cases h : up g (la - lb) (some x1) with
      | none => exact absurd h (h1.2 (la - lb) (by omega))
      | some z => exact ⟨z, rfl⟩
    rw [hz, find_lca_loop_reset_a]
    rw [hz] at d3
    obtain ⟨p, k, hp, hk1, hk2, hk3⟩ :=
      find_lca_loop_lockstep_spec g (some x1) (some x2) (some x2) (some z) lb (f + lb) h2 d3
        (by omega)
    refine ⟨p, hp, ⟨(la - lb) + k, ?_⟩, ⟨k, hk1⟩, ?_⟩
    · rw [up_add, hz]; exact hk2
    · rintro c ⟨i, hi⟩ ⟨j, hj⟩
      have hin : i < la := up_lt_depth g _ la i c h1 hi
      have hjn : j < lb := up_lt_depth g _ lb j c h2 hj
      have c1 := has_depth_up g _ la i h1 (by omega)
      have c2 := has_depth_up g _ lb j h2 (by omega)
      rw [hi] at c1
      rw [hj] at c2
      have := has_depth_unique g _ _ _ c1 c2
      refine hk3 j (i - (la - lb)) c hj ?_
      rw [← hz, ← up_add]
      have e : la - lb + (i - (la - lb)) = i := by omega
      rw [e]; exact hi

theorem is_lca_unique (g : state_graph) (a b la : Nat) (p q : state_ptr)
    (ha : has_depth g (some a) la) (hp : is_lca g a b p) (hq : is_lca g b a q) : p = q := by
  obtain ⟨⟨i1, hi1⟩, ⟨j1, hj1⟩, hp3⟩ := hp
  obtain ⟨⟨i2, hi2⟩, ⟨j2, hj2⟩, hq3⟩ := hq
  cases p with
  | none =>
    cases q with
    | none => rfl
    | some l2 =>
      obtain ⟨t, ht⟩ := hp3 l2 ⟨j2, hj2⟩ ⟨i2, hi2⟩
      rw [up_none] at ht
      cases ht
  | some l1 =>
    obtain ⟨t, ht⟩ := hq3 l1 ⟨j1, hj1⟩ ⟨i1, hi1⟩
    cases q with
    | none =>
      rw [up_none] at ht
      cases ht
    | some l2 =>
      obtain ⟨t2, ht2⟩ := hp3 l2 ⟨j2, hj2⟩ ⟨i2, hi2⟩
      have hi : i1 < la := up_lt_depth g _ la i1 l1 ha hi1
      have d1 := has_depth_up g _ la i1 ha (by omega)
      rw [hi1] at d1
      have h2lt : t2 < la - i1 := up_lt_depth g _ _ t2 l2 d1 ht2
      have d2 := has_depth_up g _ _ t2 d1 (by omega)
      rw [ht2] at d2
      have h3lt : t < la - i1 - t2 := up_lt_depth g _ _ t l1 d2 ht
      have d3 := has_depth_up g _ _ t d2 (by omega)
      rw [ht] at d3
      have := has_depth_unique g _ _ _ d1 d3
      have ht0 : t = 0 := by omega
      rw [ht0] at ht
      exact ht.symm

/-- C3: for two states of one tree with terminating ancestor chains (at most
`d` states each), `find_lca` returns their least common ancestor: a state that
is an ancestor-or-self of both and of which every common ancestor-or-self is an
ancestor-or-self.  Moreover `find_lca (a, a) = a`, and `find_lca (root, x)` is
the root. -/
theorem find_lca_least_common_ancestor (g : state_graph) (s1 s2 d fuel : Nat)
    (h1 : up g d (some s1) = none) (h2 : up g d (some s2) = none)
    (hroot : ∃ r, is_ancestor_or_self g r s1 ∧ is_ancestor_or_self g r s2)
    (hf : 2 * d + 2 ≤ fuel) :
    (∃ l, find_lca g fuel (some s1) (some s2) = some (some l) ∧
      is_ancestor_or_self g l s1 ∧ is_ancestor_or_self g l s2 ∧
      ∀ c, is_ancestor_or_self g c s1 → is_ancestor_or_self g c s2 →
        is_ancestor_or_self g c l) ∧
    find_lca g fuel (some s1) (some s1) = some (some s1) ∧
    ((deref g s1).parent = none → find_lca g fuel (some s1) (some s2) = some (some s1)) := by
  obtain ⟨la, hla, d1⟩ := has_depth_of_up_none g d _ h1
  obtain ⟨lb, hlb, d2⟩ := has_depth_of_up_none g d _ h2
  obtain ⟨p, hp, ⟨i, hi⟩, ⟨j, hj⟩, hp3⟩ := find_lca_spec g s1 s2 la lb fuel d1 d2 (by omega)
  obtain ⟨r, hr1, hr2⟩ := hroot
  obtain ⟨t, ht⟩ := hp3 r hr1 hr2
  cases p with
  | none =>
    rw [up_none] at ht
    cases ht
  | some l =>
    refine ⟨⟨l, hp, ⟨i, hi⟩, ⟨j, hj⟩, fun c hc1 hc2 => hp3 c hc1 hc2⟩, ?_, ?_⟩
    · exact find_lca_loop_eq g _ _ _ fuel
    · intro hpar
      rw [hp]
      cases i with
      | zero =>
        have : some s1 = some l := hi
        rw [this]
      | succ i =>
        have : up g (i + 1) (some s1) = none := by
          simp only [up, parent_ptr, Option.bind, hpar]
          exact up_none g i
        rw [this] at hi
        cases hi

/-- Witness for C3: `NORMAL` and `LOW_BATTERY` of the media-player chart, whose
ancestor chains have four and two states. -/
theorem find_lca_least_common_ancestor_witness :
    (∃ l, find_lca music_player_states 10 (some ST_NORMAL) (some ST_LOW_BATTERY) = some (some l) ∧
      is_ancestor_or_self music_player_states l ST_NORMAL ∧
      is_ancestor_or_self music_player_states l ST_LOW_BATTERY ∧
      ∀ c, is_ancestor_or_self music_player_states c ST_NORMAL →
        is_ancestor_or_self music_player_states c ST_LOW_BATTERY →
        is_ancestor_or_self music_player_states c l) ∧
    find_lca music_player_states 10 (some ST_NORMAL) (some ST_NORMAL) = some (some ST_NORMAL) ∧
    ((deref music_player_states ST_NORMAL).parent = none →
      find_lca music_player_states 10 (some ST_NORMAL) (some ST_LOW_BATTERY)
        = some (some ST_NORMAL)) :=
  find_lca_least_common_ancestor music_player_states ST_NORMAL ST_LOW_BATTERY 4 10
    (by decide) (by decide) ⟨ST_ROOT, ⟨3, by decide⟩, ⟨1, by decide⟩⟩ (by decide)

/-- C4: `find_lca` is commutative on states with terminating ancestor chains:
both argument orders return the same pointer (the same state, or both
`NULL`). -/
theorem find_lca_comm (g : state_graph) (a b d fuel : Nat)
    (ha : up g d (some a) = none) (hb : up g d (some b) = none) (hf : 2 * d + 2 ≤ fuel) :
    ∃ p, find_lca g fuel (some a) (some b) = some p ∧ find_lca g fuel (some b) (some a) = some p := by
  obtain ⟨la, hla, d1⟩ := has_depth_of_up_none g d _ ha
  obtain ⟨lb, hlb, d2⟩ := has_depth_of_up_none g d _ hb
  obtain ⟨p, hp, hp2⟩ := find_lca_spec g a b la lb fuel d1 d2 (by omega)
  obtain ⟨q, hq, hq2⟩ := find_lca_spec g b a lb la fuel d2 d1 (by omega)
  have := is_lca_unique g a b la p q d1 hp2 hq2
  subst this
  exact ⟨p, hp, hq⟩

/-- Witness for C4: `ROOT` and `PLAYLIST_SELECT` of the media-player chart. -/
theorem find_lca_comm_witness :
    ∃ p, find_lca music_player_states 10 (some ST_ROOT) (some ST_PLAYLIST_SELECT) = some p ∧
      find_lca music_player_states 10 (some ST_PLAYLIST_SELECT) (some ST_ROOT) = some p :=
  find_lca_comm music_player_states ST_ROOT ST_PLAYLIST_SELECT 4 10 (by decide) (by decide)
    (by decide)

/-! ## Callbacks, exit and entry sequences -/

theorem same_config_refl (f : fsm_t) : same_config f f := ⟨rfl, rfl, rfl, rfl, rfl⟩

theorem same_config_trans (f f1 f2 : fsm_t) (h1 : same_config f f1) (h2 : same_config f1 f2) :
    same_config f f2 := by
  obtain ⟨a1, a2, a3, a4, a5⟩ := h1
  obtain ⟨b1, b2, b3, b4, b5⟩ := h2
  exact ⟨b1.trans a1, b2.trans a2, b3.trans a3, b4.trans a4, b5.trans a5⟩

theorem call_action_spec (kind : fsm_action_e) (s : Nat) (cb : Option fsm_callback) (data : Nat)
    (fsm : fsm_t) :
    (call_action kind s cb data fsm).trace =
        fsm.trace ++ (if cb.isSome then [⟨kind, s, data⟩] else []) ∧
      same_config fsm (call_action kind s cb data fsm) ∧
      (call_action kind s cb data fsm).current_state = fsm.current_state ∧
      (call_action kind s cb data fsm).handled = fsm.handled := by
  cases cb with
  | none => simp [call_action, same_config]
  | some c =>
    cases h : c.terminate with
    | none => simp [call_action, h, same_config]
    | some v => simp [call_action, h, same_config, fsm_terminate]

theorem run_entry_actions_spec (g : state_graph) (data : Nat) (l : List Nat) :
    ∀ fsm : fsm_t,
      (run_entry_actions g data l fsm).trace = fsm.trace ++ entry_calls g data l ∧
      same_config fsm (run_entry_actions g data l fsm) ∧
      (run_entry_actions g data l fsm).handled = fsm.handled := by
  induction l with
  | nil => intro fsm; simp [run_entry_actions, entry_calls, same_config_refl]
  | cons s l ih =>
    intro fsm
    obtain ⟨h1, h2, _, h4⟩ := call_action_spec .ACTION_ENTRY s (deref g s).entry_action data fsm
    obtain ⟨i1, i2, i3⟩ := ih (call_action .ACTION_ENTRY s (deref g s).entry_action data fsm)
    refine ⟨?_, same_config_trans _ _ _ h2 i2, i3.trans h4⟩
    simp only [run_entry_actions]
    rw [i1, h1]
    cases h : (deref g s).entry_action <;> simp [entry_calls, List.filterMap_cons, h]

theorem not_lca_some (g : state_graph) (k : Nat) (p L : state_ptr) (h : up g (k + 1) p = L)
    (hne : p ≠ L) : ∃ x, p = some x := by
  cases p with
  | none =>
    have : up g (k + 1) none = none := up_none g _
    rw [this] at h
    exact absurd h hne
  | some x => exact ⟨x, rfl⟩

theorem exit_state_loop_spec (g : state_graph) (L : state_ptr) (data : Nat) (k : Nat) :
    ∀ (p : state_ptr) (fsm : fsm_t) (fuel : Nat), up g k p = L → (∀ i, i < k → up g i p ≠ L) →
      k ≤ fuel →
      ∃ f1, exit_state_loop g L data fuel p fsm = some f1 ∧
        f1.trace = fsm.trace ++ exit_calls g data (chain g k p) ∧ same_config fsm f1 ∧
        f1.current_state = fsm.current_state ∧ f1.handled = fsm.handled := by
  induction k with
  | zero =>
    intro p fsm fuel hp _ _
    have hpL : p = L := hp
    refine ⟨fsm, ?_, by simp [chain, exit_calls], same_config_refl _, rfl, rfl⟩
    cases p with
    | none => cases fuel <;> simp [exit_state_loop]
    | some x => cases fuel <;> simp [exit_state_loop, hpL]
  | succ k ih =>
    intro p fsm fuel hp hmin hf
    have hne : p ≠ L := hmin 0 (by omega)
    obtain ⟨x, rfl⟩ := not_lca_some g k p L hp hne
    obtain ⟨f, rfl⟩ : ∃ f, fuel = f + 1 := ⟨fuel - 1, by omega⟩
    obtain ⟨h1, h2, h3, h4⟩ := call_action_spec .ACTION_EXIT x (deref g x).exit_action data fsm
    obtain ⟨f1, e1, e2, e3, e4, e5⟩ :=
      ih (deref g x).parent (call_action .ACTION_EXIT x (deref g x).exit_action data fsm) f hp
        (fun i hi => hmin (i + 1) (by omega)) (by omega)
    refine ⟨f1, ?_, ?_, same_config_trans _ _ _ h2 e3, e4.trans h3, e5.trans h4⟩
    · simp only [exit_state_loop, if_neg hne]
      exact e1
    · rw [e2, h1]
      cases h : (deref g x).exit_action <;> simp [chain, exit_calls, List.filterMap_cons, h]

theorem build_path_spec (g : state_graph) (L : state_ptr) (m : Nat) :
    ∀ (p : state_ptr) (n : Nat), up g m p = L → (∀ i, i < m → up g i p ≠ L) → m ≤ n →
      build_path g L n p = chain g m p := by
  induction m with
  | zero =>
    intro p n hp _ _
    have hpL : p = L := hp
    cases n with
    | zero => simp [build_path, chain]
    | succ n =>
      cases p with
      | none => simp [build_path, chain]
      | some x => simp [build_path, chain, hpL]
  | succ m ih =>
    intro p n hp hmin hn
    have hne : p ≠ L := hmin 0 (by omega)
    obtain ⟨x, rfl⟩ := not_lca_some g m p L hp hne
    obtain ⟨n1, rfl⟩ : ∃ n1, n = n1 + 1 := ⟨n - 1, by omega⟩
    simp only [build_path, if_neg hne, chain]
    rw [ih (deref g x).parent n1 hp (fun i hi => hmin (i + 1) (by omega)) (by omega)]

theorem enter_state_spec (g : state_graph) (fuel : Nat) (fsm : fsm_t) (L : state_ptr)
    (t leaf data : Nat) (hres : resolve_default g fuel t = some leaf) :
    ∃ f1, enter_state g fuel fsm L (some t) data = some f1 ∧
      f1.trace = fsm.trace ++
        entry_calls g data (build_path g L MAX_HIERARCHY_DEPTH (some leaf)).reverse ∧
      same_config fsm f1 ∧ f1.current_state = some leaf ∧ f1.handled = fsm.handled := by
  obtain ⟨h1, h2, h3⟩ :=
    run_entry_actions_spec g data (build_path g L MAX_HIERARCHY_DEPTH (some leaf)).reverse fsm
  refine ⟨{ run_entry_actions g data (build_path g L MAX_HIERARCHY_DEPTH (some leaf)).reverse fsm
      with current_state := some leaf }, ?_, h1, h2, rfl, h3⟩
  simp only [enter_state, hres, Option.map_some']

/-! ## Default substates -/

theorem deref_out_of_range (g : state_graph) (s : Nat) (h : g.length ≤ s) :
    deref g s = zero_state := by
  unfold deref
  exact List.getD_eq_default _ _ h

theorem well_formed_up_none (g : state_graph) (D : Nat) (hwf : well_formed g D) (hD : 1 ≤ D)
    (s : Nat) : up g D (some s) = none := by
  by_cases hs : s < g.length
  · exact hwf.1 s hs
  · have h1 : up g 1 (some s) = none := by
      simp [up, parent_ptr, deref_out_of_range g s (by omega), zero_state]
    exact up_none_of_le g 1 D _ h1 hD

theorem default_leaf_unique (g : state_graph) (t l1 l2 : Nat) (h1 : default_leaf g t l1)
    (h2 : default_leaf g t l2) : l1 = l2 := by
  induction h1 with
  | leaf s hs =>
    cases h2 with
    | leaf _ _ => rfl
    | step _ d _ hd _ => rw [hs] at hd; cases hd
  | step s d l hd _ ih =>
    cases h2 with
    | leaf _ hs => rw [hs] at hd; cases hd
    | step _ d2 _ hd2 hl2 =>
      rw [hd] at hd2
      cases hd2
      exact ih hl2

theorem default_leaf_is_leaf (g : state_graph) (t l : Nat) (h : default_leaf g t l) :
    (deref g l).default_substate = none := by
  induction h with
  | leaf s hs => exact hs
  | step s d l _ _ ih => exact ih

theorem resolve_default_step (g : state_graph) (fuel s d : Nat)
    (h : (deref g s).default_substate = some d) :
    resolve_default g (fuel + 1) s = resolve_default g fuel d := by
  simp [resolve_default, h]

theorem resolve_default_leaf (g : state_graph) (fuel s : Nat)
    (h : (deref g s).default_substate = none) : resolve_default g fuel s = some s := by
  cases fuel <;> simp [resolve_default, h]

/-- In a well-formed tree the default-substate walk from any state ends, at a
descendant-or-self of that state, within `D` iterations. -/
theorem resolve_default_of_well_formed (g : state_graph) (D : Nat) (hwf : well_formed g D)
    (r : Nat) :
    ∀ t n, has_depth g (some t) n → D ≤ n + r →
      ∃ leaf, default_leaf g t leaf ∧ is_ancestor_or_self g t leaf ∧
        ∀ fuel, r ≤ fuel → resolve_default g fuel t = some leaf := by
  induction r with
  | zero =>
    intro t n hn hD
    cases hdef : (deref g t).default_substate with
    | none =>
      exact ⟨t, .leaf t hdef, ⟨0, rfl⟩, fun fuel _ => resolve_default_leaf g fuel t hdef⟩
    | some d =>
      exfalso
      have ht : t < g.length := by
        by_contra hge
        rw [deref_out_of_range g t (by omega)] at hdef
        cases hdef
      obtain ⟨k, hk, hup⟩ := hwf.2 t ht d (by simp [hdef])
      have hd : d < g.length := by
        by_contra hge
        have : up g (k + 1) (some d) = none := by
          simp only [up, parent_ptr, Option.bind, deref_out_of_range g d (by omega), zero_state]
          exact up_none g k
        rw [this] at hup
        cases hup
      obtain ⟨n1, hn1, hd1⟩ := has_depth_of_up_none g D _ (hwf.1 d hd)
      have hlt := up_lt_depth g _ n1 (k + 1) t hd1 hup
      have d2 := has_depth_up g _ n1 (k + 1) hd1 (by omega)
      rw [hup] at d2
      have := has_depth_unique g _ _ _ hn d2
      omega
  | succ r ih =>
    intro t n hn hD
    cases hdef : (deref g t).default_substate with
    | none =>
      exact ⟨t, .leaf t hdef, ⟨0, rfl⟩, fun fuel _ => resolve_default_leaf g fuel t hdef⟩
    | some d =>
      have ht : t < g.length := by
        by_contra hge
        rw [deref_out_of_range g t (by omega)] at hdef
        cases hdef
      obtain ⟨k, hk, hup⟩ := hwf.2 t ht d (by simp [hdef])
      have hd : d < g.length := by
        by_contra hge
        have : up g (k + 1) (some d) = none := by
          simp only [up, parent_ptr, Option.bind, deref_out_of_range g d (by omega), zero_state]
          exact up_none g k
        rw [this] at hup
        cases hup
      obtain ⟨n1, hn1, hd1⟩ := has_depth_of_up_none g D _ (hwf.1 d hd)
      have hlt := up_lt_depth g _ n1 (k + 1) t hd1 hup
      have d2 := has_depth_up g _ n1 (k + 1) hd1 (by omega)
      rw [hup] at d2
      have := has_depth_unique g _ _ _ hn d2
      obtain ⟨leaf, hl1, ⟨i, hi⟩, hl3⟩ := ih d n1 hd1 (by omega)
      refine ⟨leaf, .step t d leaf hdef hl1, ⟨i + (k + 1), ?_⟩, ?_⟩
      · rw [up_add, hi]; exact hup
      · intro fuel hf
        obtain ⟨f, rfl⟩ : ∃ f, fuel = f + 1 := ⟨fuel - 1, by omega⟩
        rw [resolve_default_step g f t d hdef]
        exact hl3 f (by omega)

theorem resolve_default_wf (g : state_graph) (D : Nat) (hwf : well_formed g D) (hD : 1 ≤ D)
    (t : Nat) :
    ∃ leaf, default_leaf g t leaf ∧ is_ancestor_or_self g t leaf ∧
      ∀ fuel, D ≤ fuel → resolve_default g fuel t = some leaf := by
  obtain ⟨n, _, hn⟩ := has_depth_of_up_none g D _ (well_formed_up_none g D hwf hD t)
  exact resolve_default_of_well_formed g D hwf D t n hn (by omega)

/-! ## The event queue is a frame of event processing -/

theorem call_action_set_queue (q : ringbuff) (mem : Nat → fsm_events_t) (kind : fsm_action_e)
    (s : Nat) (cb : Option fsm_callback) (data : Nat) (fsm : fsm_t) :
    call_action kind s cb data (set_queue q mem fsm) =
      set_queue q mem (call_action kind s cb data fsm) := by
  cases cb with
  | none => rfl
  | some c =>
    cases h : c.terminate <;> simp [call_action, h, set_queue, fsm_terminate]

theorem run_entry_actions_set_queue (g : state_graph) (q : ringbuff) (mem : Nat → fsm_events_t)
    (data : Nat) (l : List Nat) :
    ∀ fsm : fsm_t, run_entry_actions g data l (set_queue q mem fsm) =
      set_queue q mem (run_entry_actions g data l fsm) := by
  induction l with
  | nil => intro fsm; rfl
  | cons s l ih =>
    intro fsm
    simp only [run_entry_actions, call_action_set_queue, ih]

theorem enter_state_set_queue (g : state_graph) (q : ringbuff) (mem : Nat → fsm_events_t)
    (fuel : Nat) (fsm : fsm_t) (lca target : state_ptr) (data : Nat) :
    enter_state g fuel (set_queue q mem fsm) lca target data =
      (enter_state g fuel fsm lca target data).map (set_queue q mem) := by
  cases target with
  | none => rfl
  | some t =>
    simp only [enter_state, run_entry_actions_set_queue]
    cases resolve_default g fuel t <;> rfl

theorem exit_state_loop_set_queue (g : state_graph) (q : ringbuff) (mem : Nat → fsm_events_t)
    (state : state_ptr) (data : Nat) (fuel : Nat) :
    ∀ (s : state_ptr) (fsm : fsm_t),
      exit_state_loop g state data fuel s (set_queue q mem fsm) =
        (exit_state_loop g state data fuel s fsm).map (set_queue q mem) := by
  induction fuel with
  | zero =>
    intro s fsm
    cases s with
    | none => simp [exit_state_loop]
    | some x => simp only [exit_state_loop]; split <;> rfl
  | succ n ih =>
    intro s fsm
    cases s with
    | none => simp [exit_state_loop]
    | some x =>
      simp only [exit_state_loop, call_action_set_queue, ih]
      split <;> rfl

theorem exit_state_set_queue (g : state_graph) (q : ringbuff) (mem : Nat → fsm_events_t)
    (fuel : Nat) (fsm : fsm_t) (state : state_ptr) (data : Nat) :
    exit_state g fuel (set_queue q mem fsm) state data =
      (exit_state g fuel fsm state data).map (set_queue q mem) :=
  exit_state_loop_set_queue g q mem state data fuel fsm.current_state fsm

theorem scan_transitions_set_queue (g : state_graph) (q : ringbuff) (mem : Nat → fsm_events_t)
    (fuel : Nat) (ev : fsm_events_t) (current : Nat) (trs : List fsm_transition_t) :
    ∀ fsm : fsm_t, scan_transitions g fuel ev current trs (set_queue q mem fsm) =
      (scan_transitions g fuel ev current trs fsm).map fun r => (r.1, set_queue q mem r.2) := by
  induction trs with
  | nil => intro fsm; rfl
  | cons tr rest ih =>
    intro fsm
    simp only [scan_transitions]
    split
    · have hcur : (set_queue q mem fsm).current_state = fsm.current_state := rfl
      rw [hcur]
      cases find_lca g fuel fsm.current_state tr.target_state with
      | none => rfl
      | some lca =>
        simp only [Option.some_bind, exit_state_set_queue]
        cases exit_state g fuel fsm lca ev.data with
        | none => rfl
        | some fsm1 =>
          simp only [Option.map_some', Option.some_bind, enter_state_set_queue]
          cases enter_state g fuel fsm1 lca tr.target_state ev.data with
          | none => rfl
          | some fsm2 =>
            simp only [Option.map_some', Option.some_bind]
            have hterm : (set_queue q mem fsm2).terminate = fsm2.terminate := rfl
            rw [hterm]
            split
            · rfl
            · exact ih { fsm2 with handled := true }
    · exact ih fsm

theorem walk_ancestors_set_queue (g : state_graph) (q : ringbuff) (mem : Nat → fsm_events_t)
    (fuel : Nat) (ev : fsm_events_t) (n : Nat) :
    ∀ (current : state_ptr) (fsm : fsm_t),
      walk_ancestors g fuel ev n current (set_queue q mem fsm) =
        (walk_ancestors g fuel ev n current fsm).map fun r => (r.1, set_queue q mem r.2) := by
  induction n with
  | zero =>
    intro current fsm
    cases current with
    | none => simp [walk_ancestors]
    | some c =>
      simp only [walk_ancestors]
      have hh : (set_queue q mem fsm).handled = fsm.handled := rfl
      rw [hh]
      split <;> rfl
  | succ n ih =>
    intro current fsm
    cases current with
    | none => simp [walk_ancestors]
    | some c =>
      simp only [walk_ancestors]
      have hh : (set_queue q mem fsm).handled = fsm.handled := rfl
      have ht : (set_queue q mem fsm).transitions = fsm.transitions := rfl
      rw [hh, ht, scan_transitions_set_queue]
      split
      · rfl
      · cases scan_transitions g fuel ev c fsm.transitions fsm with
        | none => rfl
        | some r =>
          simp only [Option.map_some', Option.some_bind]
          split
          · rfl
          · exact ih _ _

theorem fsm_process_event_set_queue (g : state_graph) (q : ringbuff) (mem : Nat → fsm_events_t)
    (fuel : Nat) (ev : fsm_events_t) (fsm : fsm_t) :
    fsm_process_event g fuel ev (set_queue q mem fsm) =
      (fsm_process_event g fuel ev fsm).map fun r => (r.1, set_queue q mem r.2) := by
  have key := walk_ancestors_set_queue g q mem fuel ev fuel fsm.current_state
    { fsm with handled := false }
  unfold fsm_process_event
  show ((walk_ancestors g fuel ev fuel fsm.current_state
    (set_queue q mem { fsm with handled := false })).bind _) = _
  rw [key]
  cases walk_ancestors g fuel ev fuel fsm.current_state { fsm with handled := false } with
  | none => rfl
  | some r =>
    simp only [Option.map_some', Option.some_bind]
    have h3 : (set_queue q mem r.2).terminate = r.2.terminate := rfl
    have h4 : (set_queue q mem r.2).terminate_val = r.2.terminate_val := rfl
    rw [h3, h4]
    split
    · rfl
    · split <;> rfl

/-! ## Draining the event queue -/

theorem queue_idle_rep (q : ringbuff) (mem : Nat → fsm_events_t) (h : queue_idle q) :
    ∃ i, rb_rep q mem (List.replicate i ⟨0, 0⟩) i := by
  obtain ⟨h1, h2, h3, h4, i, hi, h5⟩ := h
  refine ⟨i, h1, by omega, h3, by simp, by simp; omega, ?_, ?_, ?_⟩
  · rw [Nat.mod_eq_of_lt hi]; exact h5
  · rw [List.length_replicate, Nat.mod_eq_of_lt hi, ← h4]; exact h5
  · intro m hm1 hm2
    simp at hm2
    omega

theorem process_events_loop_nil (g : state_graph) (fuel : Nat) (fsm : fsm_t)
    (vs : List fsm_events_t) (r : Nat) (h : rb_rep fsm.event_queue fsm.events_buff vs r)
    (hr : r = vs.length) (n : Nat) (ce : fsm_events_t) :
    fsm_process_events_loop g fuel n ce fsm = some (0, fsm) := by
  have hget := ringbuff_get_empty fsm.event_queue fsm.events_buff vs r ce h hr
  cases n <;> simp [fsm_process_events_loop, hget]

theorem process_events_loop_cons (g : state_graph) (fuel : Nat) (fsm : fsm_t)
    (vs : List fsm_events_t) (r : Nat) (h : rb_rep fsm.event_queue fsm.events_buff vs r)
    (hr : r < vs.length) :
    ∃ ev q1, vs[r]? = some ev ∧ rb_rep q1 fsm.events_buff vs (r + 1) ∧
      ∀ n ce, fsm_process_events_loop g fuel (n + 1) ce fsm =
        (fsm_process_event g fuel ev fsm).bind fun x =>
          match x.1 with
          | some v => some (v, set_queue q1 fsm.events_buff x.2)
          | none => fsm_process_events_loop g fuel n ev (set_queue q1 fsm.events_buff x.2) := by
  obtain ⟨ev, q1, hev, hget, hrep⟩ :=
    ringbuff_get_nonempty fsm.event_queue fsm.events_buff vs r h hr
  refine ⟨ev, q1, hev, hrep, ?_⟩
  intro n ce
  have hframe := fsm_process_event_set_queue g q1 fsm.events_buff fuel ev fsm
  have hset : { fsm with event_queue := q1 } = set_queue q1 fsm.events_buff fsm := rfl
  simp only [fsm_process_events_loop, hget ce, if_true, hset, hframe]
  cases fsm_process_event g fuel ev fsm with
  | none => rfl
  | some x => rfl

theorem drain_step (g : state_graph) (fuel : Nat) (f f1 : fsm_t) (q : ringbuff)
    (mem : Nat → fsm_events_t) (vs : List fsm_events_t) (r : Nat) (ev : fsm_events_t)
    (ret : Option Int) (hrep : rb_rep q mem vs r) (hr : r < vs.length) (hev : vs[r]? = some ev)
    (hp : fsm_process_event g fuel ev f = some (ret, f1)) :
    ∃ q1, rb_rep q1 mem vs (r + 1) ∧
      ∀ n ce, fsm_process_events_loop g fuel (n + 1) ce (set_queue q mem f) =
        ret.elim (fsm_process_events_loop g fuel n ev (set_queue q1 mem f1))
          (fun v => some (v, set_queue q1 mem f1)) := by
  obtain ⟨ev1, q1, hev1, hrep1, hloop⟩ :=
    process_events_loop_cons g fuel (set_queue q mem f) vs r hrep hr
  have e1 : ev1 = ev := by
    rw [hev] at hev1
    exact (Option.some.inj hev1).symm
  subst e1
  refine ⟨q1, hrep1, ?_⟩
  intro n ce
  rw [hloop n ce, fsm_process_event_set_queue, hp]
  cases ret <;> rfl

theorem drain_done (g : state_graph) (fuel : Nat) (f : fsm_t) (q : ringbuff)
    (mem : Nat → fsm_events_t) (vs : List fsm_events_t) (r : Nat) (hrep : rb_rep q mem vs r)
    (hr : r = vs.length) (n : Nat) (ce : fsm_events_t) :
    fsm_process_events_loop g fuel n ce (set_queue q mem f) = some (0, set_queue q mem f) :=
  process_events_loop_nil g fuel (set_queue q mem f) vs r hrep hr n ce

theorem rb_rep_drained {α : Type} (q : ringbuff) (mem : Nat → α) (vs : List α) (r : Nat)
    (hrep : rb_rep q mem vs r) (hr : r = vs.length) : q.p_read = q.p_write := by
  obtain ⟨_, _, _, _, _, h1, h2, _⟩ := hrep
  rw [h1, h2, hr]

theorem run_calls_eq (g : state_graph) (data c : Nat) :
    (if (deref g c).run_action.isSome then [(⟨.ACTION_RUN, c, data⟩ : action_call)] else [])
      = run_calls g data c := rfl

/-- One dispatch on an idle queue followed by `fsm_run`: the record is
processed by the loop body, the queue is empty again and the run action of the
resulting state is called. -/
theorem fsm_run_one (g : state_graph) (fuel : Nat) (fsm f2 : fsm_t) (e : Int) (data c2 : Nat)
    (ret : Option Int) (hq : queue_idle fsm.event_queue) (ht : fsm.terminate = false)
    (hfuel : 1 ≤ fuel) (hp : fsm_process_event g fuel ⟨e, data⟩ fsm = some (ret, f2))
    (hc : f2.current_state = some c2) :
    ∃ r, fsm_run g fuel (fsm_dispatch fsm e data) = some (0, r) ∧
      r.current_state = some c2 ∧ r.trace = f2.trace ++ run_calls g f2.current_data c2 ∧
      r.event_queue.p_read = r.event_queue.p_write ∧ r.current_data = f2.current_data ∧
      r.transitions = f2.transitions := by
  obtain ⟨i, hrep0⟩ := queue_idle_rep fsm.event_queue fsm.events_buff hq
  have hlen : 2 ≤ fsm.event_queue.len := hq.2.1
  have hput := (ringbuff_put_rep fsm.event_queue fsm.events_buff _ i ⟨e, data⟩ hrep0).2
  have hi : ¬ ((List.replicate i (⟨0, 0⟩ : fsm_events_t)).length + 1 = i + fsm.event_queue.len) := by
    simp; omega
  rw [if_neg hi] at hput
  obtain ⟨q1, hrep1, hloop⟩ := drain_step g fuel fsm f2 _ _ _ i ⟨e, data⟩ ret hput
    (by simp) (by simp) hp
  obtain ⟨n, rfl⟩ : ∃ n, fuel = n + 1 := ⟨fuel - 1, by omega⟩
  have hdone := drain_done g (n + 1) f2 q1 _ _ (i + 1) hrep1 (by simp) n ⟨e, data⟩
  have hproc : ∃ v, fsm_process_events g (n + 1) (fsm_dispatch fsm e data) =
      some (v, set_queue q1 (ringbuff_put fsm.event_queue fsm.events_buff ⟨e, data⟩).2.2 f2) := by
    have hd : fsm_dispatch fsm e data = set_queue
        (ringbuff_put fsm.event_queue fsm.events_buff ⟨e, data⟩).2.1
        (ringbuff_put fsm.event_queue fsm.events_buff ⟨e, data⟩).2.2 fsm := rfl
    unfold fsm_process_events
    rw [hd, hloop n ⟨0, 0⟩]
    cases ret with
    | none => exact ⟨0, hdone⟩
    | some v => exact ⟨v, rfl⟩
  obtain ⟨v, hv⟩ := hproc
  have htd : (fsm_dispatch fsm e data).terminate = false := ht
  obtain ⟨t1, t2, t3, _⟩ := call_action_spec .ACTION_RUN c2 (deref g c2).run_action
    f2.current_data f2
  refine ⟨set_queue q1 (ringbuff_put fsm.event_queue fsm.events_buff ⟨e, data⟩).2.2
    (call_action .ACTION_RUN c2 (deref g c2).run_action f2.current_data f2),
    ?_, ?_, ?_, ?_, ?_, ?_⟩
  · unfold fsm_run
    simp only [htd, hv, Option.some_bind]
    have hcs : (set_queue q1 (ringbuff_put fsm.event_queue fsm.events_buff ⟨e, data⟩).2.2
        f2).current_state = some c2 := hc
    simp only [hcs, Bool.false_eq_true, if_false]
    rw [call_action_set_queue]
    rfl
  · exact t3.trans hc
  · exact t1
  · exact rb_rep_drained q1 _ _ (i + 1) hrep1 (by simp)
  · exact t2.2.2.2.2
  · exact t2.1

/-! ## Matching an event against the transition table -/

theorem scan_transitions_edges (g : state_graph) (fuel : Nat) (ev : fsm_events_t) (s : Nat)
    (trs : List fsm_transition_t) :
    ∀ fsm : fsm_t, scan_transitions g fuel ev s trs fsm =
      scan_transitions g fuel ev s (edges_of trs s ev.event) fsm := by
  induction trs with
  | nil => intro fsm; rfl
  | cons tr rest ih =>
    intro fsm
    by_cases h : tr.source_state = some s ∧ tr.event = ev.event
    · have hf : edges_of (tr :: rest) s ev.event = tr :: edges_of rest s ev.event := by
        unfold edges_of
        exact List.filter_cons_of_pos (by simpa using h)
      rw [hf]
      simp only [scan_transitions, if_pos h]
      simp only [ih]
    · have hf : edges_of (tr :: rest) s ev.event = edges_of rest s ev.event := by
        unfold edges_of
        exact List.filter_cons_of_neg (by simpa using h)
      rw [hf]
      simp only [scan_transitions, if_neg h]
      exact ih fsm

theorem edges_of_nil_iff (trs : List fsm_transition_t) (s : Nat) (e : Int) :
    edges_of trs s e = [] ↔ ∀ tr ∈ trs, ¬ (tr.source_state = some s ∧ tr.event = e) := by
  unfold edges_of
  simp [List.filter_eq_nil_iff]

theorem scan_transitions_none (g : state_graph) (fuel : Nat) (ev : fsm_events_t) (s : Nat)
    (trs : List fsm_transition_t) (fsm : fsm_t)
    (h : ∀ tr ∈ trs, ¬ (tr.source_state = some s ∧ tr.event = ev.event)) :
    scan_transitions g fuel ev s trs fsm = some (false, fsm) := by
  rw [scan_transitions_edges, (edges_of_nil_iff trs s ev.event).2 h]
  rfl

theorem walk_ancestors_handled (g : state_graph) (fuel : Nat) (ev : fsm_events_t) (n : Nat)
    (p : state_ptr) (fsm : fsm_t) (h : fsm.handled = true) :
    walk_ancestors g fuel ev n p fsm = some (false, fsm) := by
  cases p with
  | none => cases n <;> simp [walk_ancestors]
  | some c => cases n <;> simp [walk_ancestors, h]

theorem walk_ancestors_step (g : state_graph) (fuel : Nat) (ev : fsm_events_t) (n c : Nat)
    (fsm : fsm_t) (h : fsm.handled = false) :
    walk_ancestors g fuel ev (n + 1) (some c) fsm =
      (scan_transitions g fuel ev c fsm.transitions fsm).bind fun r =>
        if r.1 then some (true, r.2) else walk_ancestors g fuel ev n (deref g c).parent r.2 := by
  simp [walk_ancestors, h]

/-- The ancestor walk skips the states below the nearest source of an edge. -/
theorem walk_ancestors_nearest (g : state_graph) (fuel : Nat) (ev : fsm_events_t) (j : Nat) :
    ∀ (c s n : Nat) (fsm : fsm_t), fsm.handled = false →
      up g j (some c) = some s →
      (∀ i, i < j → ∀ tr ∈ fsm.transitions,
        ¬ (tr.source_state = up g i (some c) ∧ tr.event = ev.event)) →
      walk_ancestors g fuel ev (n + j + 1) (some c) fsm =
        (scan_transitions g fuel ev s fsm.transitions fsm).bind fun r =>
          if r.1 then some (true, r.2) else walk_ancestors g fuel ev n (deref g s).parent r.2 := by
  induction j with
  | zero =>
    intro c s n fsm hh hup _
    have hcs : c = s := Option.some.inj hup
    subst hcs
    exact walk_ancestors_step g fuel ev n c fsm hh
  | succ j ih =>
    intro c s n fsm hh hup hno
    have hscan := scan_transitions_none g fuel ev c fsm.transitions fsm (hno 0 (by omega))
    obtain ⟨c1, hc1⟩ : ∃ c1, (deref g c).parent = some c1 := by
      cases h : (deref g c).parent with
      | none =>
        have : up g (j + 1) (some c) = none := by
          simp only [up, parent_ptr, Option.bind, h]
          exact up_none g j
        rw [this] at hup
        cases hup
      | some c1 => exact ⟨c1, rfl⟩
    have hup1 : up g j (some c1) = some s := by
      rw [← hc1]; exact hup
    have hno1 : ∀ i, i < j → ∀ tr ∈ fsm.transitions,
        ¬ (tr.source_state = up g i (some c1) ∧ tr.event = ev.event) := by
      intro i hi tr htr
      have := hno (i + 1) (by omega) tr htr
      simp only [up, parent_ptr, Option.bind, hc1] at this
      exact this
    have e : n + (j + 1) + 1 = (n + j + 1) + 1 := by omega
    rw [e, walk_ancestors_step g fuel ev _ c fsm hh, hscan]
    simp only [Option.some_bind, Bool.false_eq_true, if_false, hc1]
    exact ih c1 s n fsm hh hup1 hno1

/-- The ancestor walk finds nothing when no state of the chain is the source of
an edge for the event. -/
theorem walk_ancestors_no_edge (g : state_graph) (fuel : Nat) (ev : fsm_events_t) (d : Nat) :
    ∀ (p : state_ptr) (n : Nat) (fsm : fsm_t), up g d p = none → d ≤ n →
      (∀ i x, up g i p = some x → ∀ tr ∈ fsm.transitions,
        ¬ (tr.source_state = some x ∧ tr.event = ev.event)) →
      walk_ancestors g fuel ev n p fsm = some (false, fsm) := by
  induction d with
  | zero =>
    intro p n fsm hp _ _
    have : p = none := hp
    subst this
    cases n <;> simp [walk_ancestors]
  | succ d ih =>
    intro p n fsm hp hn hno
    cases p with
    | none => cases n <;> simp [walk_ancestors]
    | some c =>
      obtain ⟨n1, rfl⟩ : ∃ n1, n = n1 + 1 := ⟨n - 1, by omega⟩
      have hscan := scan_transitions_none g fuel ev c fsm.transitions fsm (hno 0 c rfl)
      by_cases hh : fsm.handled = true
      · exact walk_ancestors_handled g fuel ev _ _ fsm hh
      · rw [walk_ancestors_step g fuel ev n1 c fsm (by simpa using hh), hscan]
        simp only [Option.some_bind, Bool.false_eq_true, if_false]
        exact ih (deref g c).parent n1 fsm hp (by omega) (fun i x hx => hno (i + 1) x hx)

/-! ## One transition -/

theorem least_up (g : state_graph) (p L : state_ptr) (h : ∃ i, up g i p = L) :
    ∃ k, up g k p = L ∧ ∀ i, i < k → up g i p ≠ L :=
  ⟨Nat.find h, Nat.find_spec h, fun _ hi => Nat.find_min h hi⟩

theorem least_le_depth (g : state_graph) (p L : state_ptr) (n k : Nat) (hd : has_depth g p n)
    (hk : up g k p = L) (hmin : ∀ i, i < k → up g i p ≠ L) : k ≤ n := by
  by_contra hlt
  have hnone : up g k p = none := up_none_of_le g n k p hd.1 (by omega)
  rw [hnone] at hk
  exact hmin n (by omega) (hd.1.trans hk)

/-- The exit sequence followed by the entry sequence of one transition from the
current state `c` to the target `t`, whose default-substate walk ends in
`leaf`, with `L = find_lca (c, t)`. -/
theorem transition_spec (g : state_graph) (D fuel : Nat) (fsm : fsm_t) (c t leaf data : Nat)
    (L : state_ptr) (hc : fsm.current_state = some c)
    (hdc : up g D (some c) = none) (hdt : up g D (some t) = none)
    (hL : find_lca g fuel (some c) (some t) = some L)
    (hres : resolve_default g fuel t = some leaf) (hf : 2 * D + 2 ≤ fuel) :
    ∃ k f1 f2, up g k (some c) = L ∧ (∀ i, i < k → up g i (some c) ≠ L) ∧
      (∃ j, up g j (some t) = L) ∧
      exit_state g fuel fsm L data = some f1 ∧
      enter_state g fuel f1 L (some t) data = some f2 ∧
      f2.trace = fsm.trace ++ exit_calls g data (chain g k (some c)) ++
        entry_calls g data (build_path g L MAX_HIERARCHY_DEPTH (some leaf)).reverse ∧
      f2.current_state = some leaf ∧ same_config fsm f2 ∧ f2.handled = fsm.handled := by
  obtain ⟨la, hla, d1⟩ := has_depth_of_up_none g D _ hdc
  obtain ⟨lb, hlb, d2⟩ := has_depth_of_up_none g D _ hdt
  obtain ⟨p, hp, hp1, ⟨j, hj⟩, _⟩ := find_lca_spec g c t la lb fuel d1 d2 (by omega)
  have hpL : p = L := by
    rw [hp] at hL
    exact Option.some.inj hL
  subst hpL
  obtain ⟨k, hk, hkmin⟩ := least_up g (some c) p hp1
  have hkle := least_le_depth g _ _ la k d1 hk hkmin
  obtain ⟨f1, e1, e2, e3, e4, e5⟩ :=
    exit_state_loop_spec g p data k (some c) fsm fuel hk hkmin (by omega)
  obtain ⟨f2, n1, n2, n3, n4, n5⟩ :=
    enter_state_spec g fuel f1 p t leaf data hres
  refine ⟨k, f1, f2, hk, hkmin, ⟨j, hj⟩, ?_, n1, ?_, n4, same_config_trans _ _ _ e3 n3,
    n5.trans e5⟩
  · unfold exit_state
    rw [hc, e1]
  · rw [n2, e2]

/-- The ancestor walk when the nearest source state on the chain has exactly
one edge for the event: that edge is taken, and the walk stops. -/
theorem walk_ancestors_single (g : state_graph) (D fuel : Nat) (fsm : fsm_t) (e : Int)
    (data c j s t leaf : Nat) (tr : fsm_transition_t) (L : state_ptr)
    (hh : fsm.handled = false) (hc : fsm.current_state = some c)
    (hdc : up g D (some c) = none) (hdt : up g D (some t) = none)
    (hnear : nearest_source g fsm.transitions c e j s)
    (hone : edges_of fsm.transitions s e = [tr]) (htr : tr.target_state = some t)
    (hL : find_lca g fuel (some c) (some t) = some L)
    (hres : resolve_default g fuel t = some leaf) (hf : 2 * D + 2 ≤ fuel) :
    ∃ k f2, up g k (some c) = L ∧ (∀ i, i < k → up g i (some c) ≠ L) ∧
      (∃ j, up g j (some t) = L) ∧
      f2.trace = fsm.trace ++ exit_calls g data (chain g k (some c)) ++
        entry_calls g data (build_path g L MAX_HIERARCHY_DEPTH (some leaf)).reverse ∧
      f2.current_state = some leaf ∧ same_config fsm f2 ∧
      walk_ancestors g fuel ⟨e, data⟩ fuel (some c) fsm =
        if f2.terminate then some (true, f2) else some (false, { f2 with handled := true }) := by
  obtain ⟨hup, _, hno⟩ := hnear
  obtain ⟨la, hla, d1⟩ := has_depth_of_up_none g D _ hdc
  have hj : j < la := up_lt_depth g _ la j s d1 hup
  obtain ⟨k, f1, f2, hk, hkmin, hm, hexit, henter, htrace, hcur, hcfg, _⟩ :=
    transition_spec g D fuel fsm c t leaf data L hc hdc hdt hL hres hf
  have hmem : tr ∈ edges_of fsm.transitions s e := by rw [hone]; simp
  have hmatch : tr.source_state = some s ∧ tr.event = e := by
    unfold edges_of at hmem
    simpa using (List.mem_filter.1 hmem).2
  have hscan : scan_transitions g fuel ⟨e, data⟩ s fsm.transitions fsm =
      if f2.terminate then some (true, f2)
      else some (false, { f2 with handled := true }) := by
    rw [scan_transitions_edges]
    show scan_transitions g fuel ⟨e, data⟩ s (edges_of fsm.transitions s e) _ = _
    rw [hone]
    simp only [scan_transitions, if_pos hmatch, htr, hc, hL, Option.some_bind, hexit, henter]
  refine ⟨k, f2, hk, hkmin, hm, htrace, hcur, hcfg, ?_⟩
  obtain ⟨n, hn⟩ : ∃ n, fuel = n + j + 1 := ⟨fuel - j - 1, by omega⟩
  have hwalk := walk_ancestors_nearest g fuel ⟨e, data⟩ j c s n fsm hh hup hno
  rw [← hn, hscan] at hwalk
  rw [hwalk]
  by_cases hterm : f2.terminate = true
  · simp [hterm]
  · have hw := walk_ancestors_handled g fuel ⟨e, data⟩ n (deref g s).parent
      { f2 with handled := true } rfl
    rw [if_neg hterm]
    simp only [Option.some_bind, Bool.false_eq_true, if_false]
    exact hw

/-- Processing one record for which the nearest source state on the ancestor
chain has exactly one edge: that edge is taken. -/
theorem process_event_single (g : state_graph) (D fuel : Nat) (fsm : fsm_t) (e : Int)
    (data c j s t leaf : Nat) (tr : fsm_transition_t) (L : state_ptr)
    (hc : fsm.current_state = some c)
    (hdc : up g D (some c) = none) (hdt : up g D (some t) = none)
    (hnear : nearest_source g fsm.transitions c e j s)
    (hone : edges_of fsm.transitions s e = [tr]) (htr : tr.target_state = some t)
    (hL : find_lca g fuel (some c) (some t) = some L)
    (hres : resolve_default g fuel t = some leaf) (hf : 2 * D + 2 ≤ fuel) :
    ∃ k ret f2, fsm_process_event g fuel ⟨e, data⟩ fsm = some (ret, f2) ∧
      up g k (some c) = L ∧ (∀ i, i < k → up g i (some c) ≠ L) ∧
      (∃ j, up g j (some t) = L) ∧
      f2.trace = fsm.trace ++ exit_calls g data (chain g k (some c)) ++
        entry_calls g data (build_path g L MAX_HIERARCHY_DEPTH (some leaf)).reverse ∧
      f2.current_state = some leaf ∧ same_config fsm f2 := by
  obtain ⟨k, f2, hk, hkmin, hm, htrace, hcur, hcfg, hwalk⟩ :=
    walk_ancestors_single g D fuel { fsm with handled := false } e data c j s t leaf tr L rfl hc
      hdc hdt hnear hone htr hL hres hf
  have hpe : fsm_process_event g fuel ⟨e, data⟩ fsm =
      (walk_ancestors g fuel ⟨e, data⟩ fuel (some c) { fsm with handled := false }).bind fun r =>
        if r.1 then some (some r.2.terminate_val, r.2)
        else if r.2.terminate then some (some r.2.terminate_val, r.2)
        else some (none, r.2) := by
    unfold fsm_process_event
    exact congrArg (fun p => (walk_ancestors g fuel ⟨e, data⟩ fuel p
      { fsm with handled := false }).bind _) hc
  rw [hpe, hwalk]
  by_cases hterm : f2.terminate = true
  · exact ⟨k, some f2.terminate_val, f2, by simp [hterm], hk, hkmin, hm, htrace, hcur, hcfg⟩
  · refine ⟨k, none, { f2 with handled := true }, ?_, hk, hkmin, hm, htrace, hcur, hcfg⟩
    rw [if_neg hterm]
    simp only [Option.some_bind, Bool.false_eq_true, if_false, if_neg hterm]

/-! ## fsm_init -/

theorem fsm_init_spec (g : state_graph) (fuel : Nat) (fsm : fsm_t)
    (trs : List fsm_transition_t) (initial leaf data : Nat) (hbuf : fsm.events_buff_addr ≠ 0)
    (hres : resolve_default g fuel initial = some leaf) :
    ∃ f, fsm_init g fuel fsm trs (some initial) data = some f ∧
      f.current_state = some leaf ∧
      f.trace = fsm.trace ++
        entry_calls g data (build_path g (some initial) MAX_HIERARCHY_DEPTH (some leaf)).reverse ∧
      f.transitions = trs ∧ f.current_data = data ∧
      f.event_queue = ⟨fsm.events_buff_addr, FSM_MAX_EVENTS, sizeof_fsm_events_t,
        fsm.events_buff_addr, fsm.events_buff_addr⟩ := by
  have hinit : ringbuff_init fsm.events_buff_addr FSM_MAX_EVENTS sizeof_fsm_events_t =
      some (0, ⟨fsm.events_buff_addr, FSM_MAX_EVENTS, sizeof_fsm_events_t,
        fsm.events_buff_addr, fsm.events_buff_addr⟩) := by
    have : ¬ (fsm.events_buff_addr = 0 ∨ FSM_MAX_EVENTS = 0) := by
      simp [FSM_MAX_EVENTS, hbuf]
    simp [ringbuff_init, this]
  obtain ⟨f, h1, h2, h3, h4, _⟩ := enter_state_spec g fuel
    { fsm with
      transitions := trs, terminate_val := 0, terminate := false, is_exit := false,
      current_data := data,
      event_queue := ⟨fsm.events_buff_addr, FSM_MAX_EVENTS, sizeof_fsm_events_t,
        fsm.events_buff_addr, fsm.events_buff_addr⟩ }
    (some initial) initial leaf data hres
  refine ⟨f, ?_, h4, h2, h3.1, h3.2.2.2.2, h3.2.1⟩
  unfold fsm_init
  rw [hinit]
  exact h1

/-- C8 (as the code behaves): for a default-substate chain `S -> S1 -> S2`
(`S1` a child of `S`, `S2` a child of `S1`, `S2` without default substate),
`fsm_init` at `S` makes `S2` current and fires the entry actions `[S1, S2]`,
least-nested first; the entry action of `S` itself is not run. -/
theorem fsm_init_entry_order (g : state_graph) (fuel : Nat) (fsm : fsm_t)
    (trs : List fsm_transition_t) (S S1 S2 data : Nat) (hbuf : fsm.events_buff_addr ≠ 0)
    (hS : (deref g S).default_substate = some S1) (hS1 : (deref g S1).default_substate = some S2)
    (hS2 : (deref g S2).default_substate = none) (hp1 : (deref g S1).parent = some S)
    (hp2 : (deref g S2).parent = some S1) (hfuel : 2 ≤ fuel) :
    ∃ f, fsm_init g fuel fsm trs (some S) data = some f ∧ f.current_state = some S2 ∧
      f.trace = fsm.trace ++ entry_calls g data [S1, S2] := by
  have hne2 : S2 ≠ S := by
    intro h
    rw [h, hS] at hS2
    cases hS2
  have hne1 : S1 ≠ S := by
    intro h
    have h3 := hS1
    rw [h, hS] at h3
    exact hne2 ((Option.some.inj h3).symm.trans h)
  obtain ⟨n, rfl⟩ : ∃ n, fuel = n + 2 := ⟨fuel - 2, by omega⟩
  have hres : resolve_default g (n + 2) S = some S2 := by
    rw [resolve_default_step g (n + 1) S S1 hS, resolve_default_step g n S1 S2 hS1]
    exact resolve_default_leaf g n S2 hS2
  obtain ⟨f, h1, h2, h3, _⟩ := fsm_init_spec g (n + 2) fsm trs S S2 data hbuf hres
  refine ⟨f, h1, h2, ?_⟩
  rw [h3]
  have hpath : build_path g (some S) MAX_HIERARCHY_DEPTH (some S2) = [S2, S1] := by
    have a2 : (some S2 : state_ptr) ≠ some S := by simpa using hne2
    have a1 : (some S1 : state_ptr) ≠ some S := by simpa using hne1
    simp [MAX_HIERARCHY_DEPTH, build_path, a1, a2, hp1, hp2]
  rw [hpath]
  rfl

/-- Witness for C8: the three nested states `1 -> 2 -> 3`. -/
theorem fsm_init_entry_order_witness :
    ∃ f, fsm_init nested_states 2 fresh_fsm [] (some 1) 7 = some f ∧ f.current_state = some 3 ∧
      f.trace = fresh_fsm.trace ++ entry_calls nested_states 7 [2, 3] :=
  fsm_init_entry_order nested_states 2 fresh_fsm [] 1 2 3 7 (by decide) (by decide) (by decide)
    (by decide) (by decide) (by decide) (by decide)

/-- C8 as stated fails: on the chain `1 -> 2 -> 3`, `fsm_init` at state `1`
fires the entry actions of `2` and `3` only, not `[1, 2, 3]`. -/
theorem fsm_init_entry_order_counterexample :
    (fsm_init nested_states 10 fresh_fsm [] (some 1) 7).map (fun f => (f.current_state, f.trace)) =
      some (some 3, [⟨.ACTION_ENTRY, 2, 7⟩, ⟨.ACTION_ENTRY, 3, 7⟩]) ∧
    (fsm_init nested_states 10 fresh_fsm [] (some 1) 7).map (fun f => f.trace) ≠
      some [⟨.ACTION_ENTRY, 1, 7⟩, ⟨.ACTION_ENTRY, 2, 7⟩, ⟨.ACTION_ENTRY, 3, 7⟩] := by
  decide

/-! ## Events without a matching edge -/

theorem process_event_no_edge (g : state_graph) (d fuel : Nat) (fsm : fsm_t) (e : Int)
    (data c : Nat) (hc : fsm.current_state = some c) (hd : up g d (some c) = none)
    (hfuel : d ≤ fuel) (hno : no_edge_on_chain g fsm.transitions c e d)
    (hterm : fsm.terminate = false) :
    fsm_process_event g fuel ⟨e, data⟩ fsm = some (none, { fsm with handled := false }) := by
  have hall : ∀ i x, up g i (some c) = some x →
      ∀ tr ∈ ({ fsm with handled := false } : fsm_t).transitions,
        ¬ (tr.source_state = some x ∧ tr.event = (⟨e, data⟩ : fsm_events_t).event) := by
    intro i x hx tr htr
    have hi : i < d := by
      by_contra hge
      rw [up_none_of_le g d i _ hd (by omega)] at hx
      cases hx
    exact hno i hi x (by simp [hx]) tr htr
  have hwalk := walk_ancestors_no_edge g fuel ⟨e, data⟩ d (some c) fuel
    { fsm with handled := false } hd hfuel hall
  have hpe : fsm_process_event g fuel ⟨e, data⟩ fsm =
      (walk_ancestors g fuel ⟨e, data⟩ fuel (some c) { fsm with handled := false }).bind fun r =>
        if r.1 then some (some r.2.terminate_val, r.2)
        else if r.2.terminate then some (some r.2.terminate_val, r.2)
        else some (none, r.2) := by
    unfold fsm_process_event
    exact congrArg (fun p => (walk_ancestors g fuel ⟨e, data⟩ fuel p
      { fsm with handled := false }).bind _) hc
  rw [hpe, hwalk]
  have ht : ¬ (fsm.terminate = true) := by simp [hterm]
  simp only [Option.some_bind, Bool.false_eq_true, if_false, if_neg ht]

/-- C6: on a running engine with an idle queue, dispatching an event for which
no state of the current state's ancestor chain has an edge, and then calling
`fsm_run`, leaves `current_state` unchanged, executes no entry and no exit
action (the trace gains only the call of the run action) and removes the event
from the queue (the next `ringbuff_get` fails). -/
theorem fsm_run_unhandled_event (g : state_graph) (d fuel : Nat) (fsm : fsm_t) (e : Int)
    (data c : Nat) (hq : queue_idle fsm.event_queue) (hterm : fsm.terminate = false)
    (hc : fsm.current_state = some c) (hd : up g d (some c) = none)
    (hno : no_edge_on_chain g fsm.transitions c e d) (hfuel : d ≤ fuel) (hfuel1 : 1 ≤ fuel) :
    ∃ r, fsm_run g fuel (fsm_dispatch fsm e data) = some (0, r) ∧
      r.current_state = some c ∧
      r.trace = fsm.trace ++ run_calls g fsm.current_data c ∧
      (∀ x, (ringbuff_get r.event_queue r.events_buff x).1 = -1) := by
  have hp := process_event_no_edge g d fuel fsm e data c hc hd hfuel hno hterm
  obtain ⟨r, h1, h2, h3, h4, _⟩ :=
    fsm_run_one g fuel fsm { fsm with handled := false } e data c none hq hterm hfuel1 hp hc
  refine ⟨r, h1, h2, h3, ?_⟩
  intro x
  simp [ringbuff_get, h4]

/-- Witness for C6: the media player in `OFF` receives `PLAY`, for which
neither `OFF` nor `ROOT` has an edge. -/
theorem fsm_run_unhandled_event_witness :
    ∃ r, fsm_run music_player_states 4 (fsm_dispatch (music_player_in ST_OFF) EV_PLAY 0)
        = some (0, r) ∧
      r.current_state = some ST_OFF ∧
      r.trace = (music_player_in ST_OFF).trace ++
        run_calls music_player_states (music_player_in ST_OFF).current_data ST_OFF ∧
      (∀ x, (ringbuff_get r.event_queue r.events_buff x).1 = -1) :=
  fsm_run_unhandled_event music_player_states 4 4 (music_player_in ST_OFF) EV_PLAY 0 ST_OFF
    (by decide) rfl rfl (by decide) (by decide) (by decide) (by decide)

/-! ## One dispatched event with a matching edge -/

/-- One dispatch on a running engine with an idle queue, followed by
`fsm_run`, when the nearest source state `s` on the ancestor chain of the
current state has exactly one edge `tr` for the event. -/
theorem fsm_run_single (g : state_graph) (D fuel : Nat) (fsm : fsm_t) (e : Int)
    (data c j s t : Nat) (tr : fsm_transition_t) (hwf : well_formed g D) (hD : 1 ≤ D)
    (hq : queue_idle fsm.event_queue) (hterm : fsm.terminate = false)
    (hc : fsm.current_state = some c) (hnear : nearest_source g fsm.transitions c e j s)
    (hone : edges_of fsm.transitions s e = [tr]) (htr : tr.target_state = some t)
    (hf : 2 * D + 2 ≤ fuel) :
    ∃ r leaf L k, fsm_run g fuel (fsm_dispatch fsm e data) = some (0, r) ∧
      default_leaf g t leaf ∧ is_ancestor_or_self g t leaf ∧ r.current_state = some leaf ∧
      find_lca g fuel (some c) (some t) = some L ∧
      up g k (some c) = L ∧ (∀ i, i < k → up g i (some c) ≠ L) ∧ (∃ i, up g i (some t) = L) ∧
      r.trace = fsm.trace ++ exit_calls g data (chain g k (some c)) ++
        entry_calls g data (build_path g L MAX_HIERARCHY_DEPTH (some leaf)).reverse ++
        run_calls g fsm.current_data leaf := by
  have hdc := well_formed_up_none g D hwf hD c
  have hdt := well_formed_up_none g D hwf hD t
  obtain ⟨la, hla, d1⟩ := has_depth_of_up_none g D _ hdc
  obtain ⟨lb, hlb, d2⟩ := has_depth_of_up_none g D _ hdt
  obtain ⟨L, hL, _⟩ := find_lca_spec g c t la lb fuel d1 d2 (by omega)
  obtain ⟨leaf, hleaf, hanc, hres⟩ := resolve_default_wf g D hwf hD t
  obtain ⟨k, ret, f2, hp, hk, hkmin, hm, htrace, hcur, hcfg⟩ :=
    process_event_single g D fuel fsm e data c j s t leaf tr L hc hdc hdt hnear hone htr hL
      (hres fuel (by omega)) hf
  obtain ⟨r, r1, r2, r3, _⟩ :=
    fsm_run_one g fuel fsm f2 e data leaf ret hq hterm (by omega) hp hcur
  refine ⟨r, leaf, L, k, r1, hleaf, hanc, r2, hL, hk, hkmin, hm, ?_⟩
  rw [r3, htrace, hcfg.2.2.2.2]

/-- C1: in a well-formed state tree, after `fsm_init` at a state, and after
`fsm_run` has handled an event whose nearest matching state has exactly one
edge, `current_state` is the state reached from the entered state (the initial
state, the edge's target) by following `default_substate` to a state without
default substate.  It is a leaf and is determined by the entered state alone,
whatever was current before. -/
theorem current_state_is_default_leaf (g : state_graph) (D fuel : Nat) (fsm0 fsm : fsm_t)
    (trs : List fsm_transition_t) (initial data0 : Nat) (e : Int) (data c j s t : Nat)
    (tr : fsm_transition_t) (hwf : well_formed g D) (hD : 1 ≤ D)
    (hbuf : fsm0.events_buff_addr ≠ 0)
    (hq : queue_idle fsm.event_queue) (hterm : fsm.terminate = false)
    (hc : fsm.current_state = some c) (hnear : nearest_source g fsm.transitions c e j s)
    (hone : edges_of fsm.transitions s e = [tr]) (htr : tr.target_state = some t)
    (hf : 2 * D + 2 ≤ fuel) :
    (∃ f leaf, fsm_init g fuel fsm0 trs (some initial) data0 = some f ∧
      f.current_state = some leaf ∧ default_leaf g initial leaf ∧
      (deref g leaf).default_substate = none ∧
      ∀ l, default_leaf g initial l → f.current_state = some l) ∧
    (∃ r leaf, fsm_run g fuel (fsm_dispatch fsm e data) = some (0, r) ∧
      r.current_state = some leaf ∧ default_leaf g t leaf ∧
      (deref g leaf).default_substate = none ∧
      ∀ l, default_leaf g t l → r.current_state = some l) := by
  constructor
  · obtain ⟨leaf, hleaf, _, hres⟩ := resolve_default_wf g D hwf hD initial
    obtain ⟨f, h1, h2, _⟩ :=
      fsm_init_spec g fuel fsm0 trs initial leaf data0 hbuf (hres fuel (by omega))
    refine ⟨f, leaf, h1, h2, hleaf, default_leaf_is_leaf g _ _ hleaf, ?_⟩
    intro l hl
    rw [h2, default_leaf_unique g initial leaf l hleaf hl]
  · obtain ⟨r, leaf, _, _, h1, hleaf, _, h2, _⟩ :=
      fsm_run_single g D fuel fsm e data c j s t tr hwf hD hq hterm hc hnear hone htr hf
    refine ⟨r, leaf, h1, h2, hleaf, default_leaf_is_leaf g _ _ hleaf, ?_⟩
    intro l hl
    rw [h2, default_leaf_unique g t leaf l hleaf hl]

/-- Witness for C1: the media player initialised at `ROOT`, and the media
player in `LOW_BATTERY` receiving `CHARGE` (edge to `ON`). -/
theorem current_state_is_default_leaf_witness :
    (∃ f leaf, fsm_init music_player_states 10 fresh_fsm music_player_transitions
        (some ST_ROOT) 0 = some f ∧
      f.current_state = some leaf ∧ default_leaf music_player_states ST_ROOT leaf ∧
      (deref music_player_states leaf).default_substate = none ∧
      ∀ l, default_leaf music_player_states ST_ROOT l → f.current_state = some l) ∧
    (∃ r leaf, fsm_run music_player_states 10
        (fsm_dispatch (music_player_in ST_LOW_BATTERY) EV_CHARGE 0) = some (0, r) ∧
      r.current_state = some leaf ∧ default_leaf music_player_states ST_ON leaf ∧
      (deref music_player_states leaf).default_substate = none ∧
      ∀ l, default_leaf music_player_states ST_ON l → r.current_state = some l) :=
  current_state_is_default_leaf music_player_states 4 10 fresh_fsm
    (music_player_in ST_LOW_BATTERY) music_player_transitions ST_ROOT 0 EV_CHARGE 0
    ST_LOW_BATTERY 0 ST_LOW_BATTERY ST_ON (FSM_TRANSITION_CREATE ST_LOW_BATTERY EV_CHARGE ST_ON)
    (by decide) (by decide) (by decide) (by decide) rfl rfl (by decide) (by decide) rfl
    (by decide)

/-- C2: in a well-formed tree of depth at most `MAX_HIERARCHY_DEPTH`, with
`L = find_lca (c, t)` and `leaf` the default-substate resolution of the target
`t` of the single matched edge, the actions that `fsm_run` executes for the
event are the exit actions of `c, parent (c), ...` up to but excluding `L`
(child to ancestor), followed by the entry actions of the states from `L`
(exclusive) down to `leaf` (ancestor to child); the run action of `leaf`
follows. -/
theorem fsm_run_transition_order (g : state_graph) (fuel : Nat) (fsm : fsm_t) (e : Int)
    (data c j s t leaf : Nat) (tr : fsm_transition_t) (L : state_ptr)
    (hwf : well_formed g MAX_HIERARCHY_DEPTH)
    (hq : queue_idle fsm.event_queue) (hterm : fsm.terminate = false)
    (hc : fsm.current_state = some c) (hnear : nearest_source g fsm.transitions c e j s)
    (hone : edges_of fsm.transitions s e = [tr]) (htr : tr.target_state = some t)
    (hL : find_lca g fuel (some c) (some t) = some L) (hleaf : default_leaf g t leaf)
    (hf : 2 * MAX_HIERARCHY_DEPTH + 2 ≤ fuel) :
    ∃ r k m, fsm_run g fuel (fsm_dispatch fsm e data) = some (0, r) ∧
      up g k (some c) = L ∧ (∀ i, i < k → up g i (some c) ≠ L) ∧
      up g m (some leaf) = L ∧ (∀ i, i < m → up g i (some leaf) ≠ L) ∧
      r.trace = fsm.trace ++ exit_calls g data (chain g k (some c)) ++
        entry_calls g data (chain g m (some leaf)).reverse ++
        run_calls g fsm.current_data leaf := by
  have hD : 1 ≤ MAX_HIERARCHY_DEPTH := by decide
  obtain ⟨r, leaf1, L1, k, h1, hleaf1, ⟨i0, hi0⟩, _, hL1, hk, hkmin, ⟨i1, hi1⟩, htrace⟩ :=
    fsm_run_single g MAX_HIERARCHY_DEPTH fuel fsm e data c j s t tr hwf hD hq hterm hc hnear
      hone htr hf
  have e1 : leaf1 = leaf := default_leaf_unique g t leaf1 leaf hleaf1 hleaf
  have e2 : L1 = L := by
    rw [hL1] at hL
    exact Option.some.inj hL
  subst e1; subst e2
  obtain ⟨m, hm, hmmin⟩ := least_up g (some leaf1) L1 ⟨i0 + i1, by rw [up_add, hi0]; exact hi1⟩
  obtain ⟨ll, hll, d3⟩ := has_depth_of_up_none g MAX_HIERARCHY_DEPTH _
    (well_formed_up_none g MAX_HIERARCHY_DEPTH hwf hD leaf1)
  have hmle := least_le_depth g _ _ ll m d3 hm hmmin
  refine ⟨r, k, m, h1, hk, hkmin, hm, hmmin, ?_⟩
  rw [htrace, build_path_spec g L1 m (some leaf1) MAX_HIERARCHY_DEPTH hm hmmin (by omega)]

/-- Witness for C2: on the chart `1 -> 2 -> 3` the engine is in `3` and takes
the edge `1 --5--> 1`: exits `3, 2`, entries `2, 3`. -/
theorem fsm_run_transition_order_witness :
    ∃ r k m, fsm_run nested_states 18 (fsm_dispatch nested_in 5 9) = some (0, r) ∧
      up nested_states k (some 3) = some 1 ∧
      (∀ i, i < k → up nested_states i (some 3) ≠ some 1) ∧
      up nested_states m (some 3) = some 1 ∧
      (∀ i, i < m → up nested_states i (some 3) ≠ some 1) ∧
      r.trace = nested_in.trace ++ exit_calls nested_states 9 (chain nested_states k (some 3)) ++
        entry_calls nested_states 9 (chain nested_states m (some 3)).reverse ++
        run_calls nested_states nested_in.current_data 3 :=
  fsm_run_transition_order nested_states 18 nested_in 5 9 3 2 1 1 3
    (FSM_TRANSITION_CREATE 1 5 1) (some 1) (by decide) (by decide) rfl rfl (by decide)
    (by decide) rfl (by decide)
    (.step 1 2 3 (by decide) (.step 2 3 3 (by decide) (.leaf 3 (by decide)))) (by decide)

/-! ## Event processing calls no run action -/

theorem appends_no_run_refl (f : fsm_t) : appends_no_run f f :=
  ⟨[], by simp, by simp⟩

theorem appends_no_run_of_trace_eq (f f1 : fsm_t) (h : f1.trace = f.trace) :
    appends_no_run f f1 :=
  ⟨[], by simp [h], by simp⟩

theorem appends_no_run_trans (f f1 f2 : fsm_t) (h1 : appends_no_run f f1)
    (h2 : appends_no_run f1 f2) : appends_no_run f f2 := by
  obtain ⟨t1, a1, b1⟩ := h1
  obtain ⟨t2, a2, b2⟩ := h2
  refine ⟨t1 ++ t2, by rw [a2, a1, List.append_assoc], ?_⟩
  intro a ha
  rcases List.mem_append.1 ha with h | h
  · exact b1 a h
  · exact b2 a h

theorem call_action_no_run (kind : fsm_action_e) (hk : kind ≠ .ACTION_RUN) (s : Nat)
    (cb : Option fsm_callback) (data : Nat) (fsm : fsm_t) :
    appends_no_run fsm (call_action kind s cb data fsm) := by
  refine ⟨if cb.isSome then [⟨kind, s, data⟩] else [], (call_action_spec kind s cb data fsm).1, ?_⟩
  intro a ha
  split at ha
  · simp at ha
    rw [ha]; exact hk
  · simp at ha

theorem run_entry_actions_no_run (g : state_graph) (data : Nat) (l : List Nat) :
    ∀ fsm : fsm_t, appends_no_run fsm (run_entry_actions g data l fsm) := by
  induction l with
  | nil => intro fsm; exact appends_no_run_refl fsm
  | cons s l ih =>
    intro fsm
    exact appends_no_run_trans _ _ _
      (call_action_no_run .ACTION_ENTRY (by decide) s (deref g s).entry_action data fsm) (ih _)

theorem enter_state_no_run (g : state_graph) (fuel : Nat) (fsm f1 : fsm_t) (lca target : state_ptr)
    (data : Nat) (h : enter_state g fuel fsm lca target data = some f1) :
    appends_no_run fsm f1 := by
  cases target with
  | none => simp [enter_state] at h
  | some t =>
    simp only [enter_state] at h
    cases hres : resolve_default g fuel t with
    | none => rw [hres] at h; simp at h
    | some leaf =>
      rw [hres] at h
      simp only [Option.map_some', Option.some.injEq] at h
      rw [← h]
      exact appends_no_run_trans _ _ _ (run_entry_actions_no_run g data _ fsm)
        (appends_no_run_of_trace_eq _ _ rfl)

theorem exit_state_loop_no_run (g : state_graph) (state : state_ptr) (data : Nat) (fuel : Nat) :
    ∀ (s : state_ptr) (fsm f1 : fsm_t), exit_state_loop g state data fuel s fsm = some f1 →
      appends_no_run fsm f1 := by
  induction fuel with
  | zero =>
    intro s fsm f1 h
    cases s with
    | none =>
      simp only [exit_state_loop, Option.some.injEq] at h
      rw [← h]; exact appends_no_run_refl fsm
    | some x =>
      simp only [exit_state_loop] at h
      split at h
      · rw [← Option.some.inj h]; exact appends_no_run_refl fsm
      · cases h
  | succ n ih =>
    intro s fsm f1 h
    cases s with
    | none =>
      simp only [exit_state_loop, Option.some.injEq] at h
      rw [← h]; exact appends_no_run_refl fsm
    | some x =>
      simp only [exit_state_loop] at h
      split at h
      · rw [← Option.some.inj h]; exact appends_no_run_refl fsm
      · exact appends_no_run_trans _ _ _
          (call_action_no_run .ACTION_EXIT (by decide) x (deref g x).exit_action data fsm)
          (ih _ _ _ h)

theorem scan_transitions_no_run (g : state_graph) (fuel : Nat) (ev : fsm_events_t) (current : Nat)
    (trs : List fsm_transition_t) :
    ∀ (fsm : fsm_t) (r : Bool × fsm_t), scan_transitions g fuel ev current trs fsm = some r →
      appends_no_run fsm r.2 := by
  induction trs with
  | nil =>
    intro fsm r h
    simp only [scan_transitions, Option.some.injEq] at h
    rw [← h]; exact appends_no_run_refl fsm
  | cons tr rest ih =>
    intro fsm r h
    simp only [scan_transitions] at h
    split at h
    · cases hl : find_lca g fuel fsm.current_state tr.target_state with
      | none => rw [hl] at h; simp at h
      | some lca =>
        rw [hl] at h
        simp only [Option.some_bind] at h
        cases hx : exit_state g fuel fsm lca ev.data with
        | none => rw [hx] at h; simp at h
        | some fsm1 =>
          rw [hx] at h
          simp only [Option.some_bind] at h
          cases hen : enter_state g fuel fsm1 lca tr.target_state ev.data with
          | none => rw [hen] at h; simp at h
          | some fsm2 =>
            rw [hen] at h
            simp only [Option.some_bind] at h
            have a1 : appends_no_run fsm fsm1 :=
              exit_state_loop_no_run g lca ev.data fuel fsm.current_state fsm fsm1 hx
            have a2 : appends_no_run fsm1 fsm2 := enter_state_no_run g fuel fsm1 fsm2 _ _ _ hen
            have a12 := appends_no_run_trans _ _ _ a1 a2
            split at h
            · rw [← Option.some.inj h]; exact a12
            · have a3 : appends_no_run fsm2 { fsm2 with handled := true } :=
                appends_no_run_of_trace_eq _ _ rfl
              exact appends_no_run_trans _ _ _ (appends_no_run_trans _ _ _ a12 a3)
                (ih { fsm2 with handled := true } r h)
    · exact ih fsm r h

theorem walk_ancestors_no_run (g : state_graph) (fuel : Nat) (ev : fsm_events_t) (n : Nat) :
    ∀ (p : state_ptr) (fsm : fsm_t) (r : Bool × fsm_t),
      walk_ancestors g fuel ev n p fsm = some r → appends_no_run fsm r.2 := by
  induction n with
  | zero =>
    intro p fsm r h
    cases p with
    | none =>
      simp only [walk_ancestors, Option.some.injEq] at h
      rw [← h]; exact appends_no_run_refl fsm
    | some c =>
      simp only [walk_ancestors] at h
      split at h
      · rw [← Option.some.inj h]; exact appends_no_run_refl fsm
      · cases h
  | succ n ih =>
    intro p fsm r h
    cases p with
    | none =>
      simp only [walk_ancestors, Option.some.injEq] at h
      rw [← h]; exact appends_no_run_refl fsm
    | some c =>
      simp only [walk_ancestors] at h
      split at h
      · rw [← Option.some.inj h]; exact appends_no_run_refl fsm
      · cases hs : scan_transitions g fuel ev c fsm.transitions fsm with
        | none => rw [hs] at h; simp at h
        | some r1 =>
          rw [hs] at h
          simp only [Option.some_bind] at h
          have a1 := scan_transitions_no_run g fuel ev c fsm.transitions fsm r1 hs
          split at h
          · rw [← Option.some.inj h]; exact a1
          · exact appends_no_run_trans _ _ _ a1 (ih _ _ r h)

theorem fsm_process_event_no_run (g : state_graph) (fuel : Nat) (ev : fsm_events_t)
    (fsm : fsm_t) (r : Option Int × fsm_t) (h : fsm_process_event g fuel ev fsm = some r) :
    appends_no_run fsm r.2 := by
  unfold fsm_process_event at h
  cases hw : walk_ancestors g fuel ev fuel fsm.current_state { fsm with handled := false } with
  | none => rw [hw] at h; simp at h
  | some r1 =>
    rw [hw] at h
    simp only [Option.some_bind] at h
    have a1 := walk_ancestors_no_run g fuel ev fuel _ _ r1 hw
    have a0 : appends_no_run fsm r1.2 :=
      appends_no_run_trans _ _ _ (appends_no_run_of_trace_eq fsm _ rfl) a1
    split at h
    · rw [← Option.some.inj h]; exact a0
    · split at h
      · rw [← Option.some.inj h]; exact a0
      · rw [← Option.some.inj h]; exact a0

/-! ## FIFO processing -/

theorem fsm_dispatch_eq_set_queue (fsm : fsm_t) (e : Int) (d : Nat) :
    fsm_dispatch fsm e d =
      set_queue (ringbuff_put fsm.event_queue fsm.events_buff ⟨e, d⟩).2.1
        (ringbuff_put fsm.event_queue fsm.events_buff ⟨e, d⟩).2.2 fsm := rfl

theorem fsm_dispatch_set_queue (q : ringbuff) (mem : Nat → fsm_events_t) (fsm : fsm_t) (e : Int)
    (d : Nat) :
    fsm_dispatch (set_queue q mem fsm) e d =
      set_queue (ringbuff_put q mem ⟨e, d⟩).2.1 (ringbuff_put q mem ⟨e, d⟩).2.2 fsm := rfl

theorem getElem?_after_replicate {α : Type} (i k : Nat) (d : α) (ws : List α) :
    (List.replicate i d ++ ws)[i + k]? = ws[k]? := by
  rw [List.getElem?_append_right (by simp)]
  simp

/-- C7: three events dispatched in the order `e1, e2, e3` on a running engine
with an idle queue of at least four slots, followed by one `fsm_run`, when no
termination is requested: the events are processed in that order (state and
trace are those of processing `e1`, then `e2`, then `e3` with the loop body,
one at a time), none of these steps calls a run action, and the run action is
called once, last, on the final state. -/
theorem fsm_run_fifo (g : state_graph) (fuel : Nat) (fsm f1 f2 f3 : fsm_t) (e1 e2 e3 : Int)
    (d1 d2 d3 c3 : Nat) (hq : queue_idle fsm.event_queue) (hlen : 4 ≤ fsm.event_queue.len)
    (hterm : fsm.terminate = false)
    (h1 : fsm_process_event g fuel ⟨e1, d1⟩ fsm = some (none, f1))
    (h2 : fsm_process_event g fuel ⟨e2, d2⟩ f1 = some (none, f2))
    (h3 : fsm_process_event g fuel ⟨e3, d3⟩ f2 = some (none, f3))
    (hc : f3.current_state = some c3) (hfuel : 3 ≤ fuel) :
    ∃ r, fsm_run g fuel (fsm_dispatch (fsm_dispatch (fsm_dispatch fsm e1 d1) e2 d2) e3 d3)
        = some (0, r) ∧
      r.current_state = some c3 ∧
      (∃ t1 t2 t3, f1.trace = fsm.trace ++ t1 ∧ f2.trace = f1.trace ++ t2 ∧
        f3.trace = f2.trace ++ t3 ∧
        (∀ a ∈ t1 ++ t2 ++ t3, a.kind ≠ fsm_action_e.ACTION_RUN) ∧
        r.trace = fsm.trace ++ t1 ++ t2 ++ t3 ++ run_calls g f3.current_data c3) ∧
      (∀ x, (ringbuff_get r.event_queue r.events_buff x).1 = -1) := by
  obtain ⟨i, hrep0⟩ := queue_idle_rep fsm.event_queue fsm.events_buff hq
  have hput := (ringbuff_put_list_rep [(⟨e1, d1⟩ : fsm_events_t), ⟨e2, d2⟩, ⟨e3, d3⟩]
    fsm.event_queue fsm.events_buff _ i hrep0).1
  have hmax : max i ((List.replicate i (⟨0, 0⟩ : fsm_events_t)).length +
      [(⟨e1, d1⟩ : fsm_events_t), ⟨e2, d2⟩, ⟨e3, d3⟩].length + 1 - fsm.event_queue.len) = i := by
    simp; omega
  rw [hmax] at hput
  have hd : fsm_dispatch (fsm_dispatch (fsm_dispatch fsm e1 d1) e2 d2) e3 d3 =
      set_queue (ringbuff_put_list [(⟨e1, d1⟩ : fsm_events_t), ⟨e2, d2⟩, ⟨e3, d3⟩]
        fsm.event_queue fsm.events_buff).1
      (ringbuff_put_list [(⟨e1, d1⟩ : fsm_events_t), ⟨e2, d2⟩, ⟨e3, d3⟩]
        fsm.event_queue fsm.events_buff).2 fsm := by
    rw [fsm_dispatch_eq_set_queue fsm e1 d1, fsm_dispatch_set_queue, fsm_dispatch_set_queue]
    simp only [ringbuff_put_list]
  generalize ringbuff_put_list [(⟨e1, d1⟩ : fsm_events_t), ⟨e2, d2⟩, ⟨e3, d3⟩]
    fsm.event_queue fsm.events_buff = qm at hput hd
  obtain ⟨q1, hrep1, hloop1⟩ := drain_step g fuel fsm f1 _ _ _ i ⟨e1, d1⟩ none hput
    (by simp) (getElem?_after_replicate i 0 _ _) h1
  obtain ⟨q2, hrep2, hloop2⟩ := drain_step g fuel f1 f2 _ _ _ (i + 1) ⟨e2, d2⟩ none hrep1
    (by simp) (getElem?_after_replicate i 1 _ _) h2
  obtain ⟨q3, hrep3, hloop3⟩ := drain_step g fuel f2 f3 _ _ _ (i + 1 + 1) ⟨e3, d3⟩ none hrep2
    (by simp) (getElem?_after_replicate i 2 _ _) h3
  obtain ⟨n, rfl⟩ : ∃ n, fuel = n + 1 + 1 + 1 := ⟨fuel - 3, by omega⟩
  have hdone := drain_done g (n + 1 + 1 + 1) f3 q3 _ _ (i + 1 + 1 + 1) hrep3 (by simp) n
    ⟨e3, d3⟩
  have hproc : fsm_process_events g (n + 1 + 1 + 1)
      (fsm_dispatch (fsm_dispatch (fsm_dispatch fsm e1 d1) e2 d2) e3 d3) =
      some (0, set_queue q3 qm.2 f3) := by
    unfold fsm_process_events
    rw [hd, hloop1 (n + 1 + 1) ⟨0, 0⟩]
    simp only [Option.elim]
    rw [hloop2 (n + 1) ⟨e1, d1⟩]
    simp only [Option.elim]
    rw [hloop3 n ⟨e2, d2⟩]
    simp only [Option.elim]
    exact hdone
  obtain ⟨a1, a2, a3, _⟩ := call_action_spec .ACTION_RUN c3 (deref g c3).run_action
    f3.current_data f3
  obtain ⟨t1, u1, v1⟩ := fsm_process_event_no_run g _ _ fsm _ h1
  obtain ⟨t2, u2, v2⟩ := fsm_process_event_no_run g _ _ f1 _ h2
  obtain ⟨t3, u3, v3⟩ := fsm_process_event_no_run g _ _ f2 _ h3
  have htd : (fsm_dispatch (fsm_dispatch (fsm_dispatch fsm e1 d1) e2 d2) e3 d3).terminate
      = false := by
    rw [hd]; exact hterm
  refine ⟨set_queue q3 qm.2
    (call_action .ACTION_RUN c3 (deref g c3).run_action f3.current_data f3), ?_, ?_, ?_, ?_⟩
  · unfold fsm_run
    simp only [htd, hproc, Option.some_bind]
    have hcs : (set_queue q3 qm.2 f3).current_state = some c3 := hc
    simp only [hcs, Bool.false_eq_true, if_false]
    rw [call_action_set_queue]
    rfl
  · exact a3.trans hc
  · refine ⟨t1, t2, t3, u1, u2, u3, ?_, ?_⟩
    · intro a ha
      rcases List.mem_append.1 ha with h | h
      · rcases List.mem_append.1 h with h | h
        · exact v1 a h
        · exact v2 a h
      · exact v3 a h
    · show (call_action .ACTION_RUN c3 (deref g c3).run_action f3.current_data f3).trace = _
      rw [a1, u3, u2, u1]
      rfl
  · intro x
    have := rb_rep_drained q3 _ _ (i + 1 + 1 + 1) hrep3 (by simp)
    show (ringbuff_get q3 _ x).1 = -1
    simp [ringbuff_get, this]

/-- Witness for C7: the media player in `OFF` receives `POWER`, `PLAY`,
`MODE_CHANGE` and ends in `SHUFFLE`. -/
theorem fsm_run_fifo_witness :
    ∃ r, fsm_run music_player_states 10
        (fsm_dispatch (fsm_dispatch (fsm_dispatch (music_player_in ST_OFF) EV_POWER 0)
          EV_PLAY 0) EV_MODE_CHANGE 0) = some (0, r) ∧
      r.current_state = some ST_SHUFFLE ∧
      (∃ t1 t2 t3,
        (music_player_after ST_PAUSED [⟨.ACTION_ENTRY, ST_ON, 0⟩, ⟨.ACTION_ENTRY, ST_PAUSED, 0⟩]).trace
          = (music_player_in ST_OFF).trace ++ t1 ∧
        (music_player_after ST_NORMAL [⟨.ACTION_ENTRY, ST_ON, 0⟩, ⟨.ACTION_ENTRY, ST_PAUSED, 0⟩,
          ⟨.ACTION_ENTRY, ST_PLAYING, 0⟩, ⟨.ACTION_ENTRY, ST_NORMAL, 0⟩]).trace
          = (music_player_after ST_PAUSED
              [⟨.ACTION_ENTRY, ST_ON, 0⟩, ⟨.ACTION_ENTRY, ST_PAUSED, 0⟩]).trace ++ t2 ∧
        (music_player_after ST_SHUFFLE [⟨.ACTION_ENTRY, ST_ON, 0⟩, ⟨.ACTION_ENTRY, ST_PAUSED, 0⟩,
          ⟨.ACTION_ENTRY, ST_PLAYING, 0⟩, ⟨.ACTION_ENTRY, ST_NORMAL, 0⟩,
          ⟨.ACTION_ENTRY, ST_SHUFFLE, 0⟩]).trace
          = (music_player_after ST_NORMAL [⟨.ACTION_ENTRY, ST_ON, 0⟩, ⟨.ACTION_ENTRY, ST_PAUSED, 0⟩,
              ⟨.ACTION_ENTRY, ST_PLAYING, 0⟩, ⟨.ACTION_ENTRY, ST_NORMAL, 0⟩]).trace ++ t3 ∧
        (∀ a ∈ t1 ++ t2 ++ t3, a.kind ≠ fsm_action_e.ACTION_RUN) ∧
        r.trace = (music_player_in ST_OFF).trace ++ t1 ++ t2 ++ t3 ++
          run_calls music_player_states
            (music_player_after ST_SHUFFLE [⟨.ACTION_ENTRY, ST_ON, 0⟩, ⟨.ACTION_ENTRY, ST_PAUSED, 0⟩,
              ⟨.ACTION_ENTRY, ST_PLAYING, 0⟩, ⟨.ACTION_ENTRY, ST_NORMAL, 0⟩,
              ⟨.ACTION_ENTRY, ST_SHUFFLE, 0⟩]).current_data ST_SHUFFLE) ∧
      (∀ x, (ringbuff_get r.event_queue r.events_buff x).1 = -1) :=
  fsm_run_fifo music_player_states 10 (music_player_in ST_OFF)
    (music_player_after ST_PAUSED [⟨.ACTION_ENTRY, ST_ON, 0⟩, ⟨.ACTION_ENTRY, ST_PAUSED, 0⟩])
    (music_player_after ST_NORMAL [⟨.ACTION_ENTRY, ST_ON, 0⟩, ⟨.ACTION_ENTRY, ST_PAUSED, 0⟩,
      ⟨.ACTION_ENTRY, ST_PLAYING, 0⟩, ⟨.ACTION_ENTRY, ST_NORMAL, 0⟩])
    (music_player_after ST_SHUFFLE [⟨.ACTION_ENTRY, ST_ON, 0⟩, ⟨.ACTION_ENTRY, ST_PAUSED, 0⟩,
      ⟨.ACTION_ENTRY, ST_PLAYING, 0⟩, ⟨.ACTION_ENTRY, ST_NORMAL, 0⟩,
      ⟨.ACTION_ENTRY, ST_SHUFFLE, 0⟩])
    EV_POWER EV_PLAY EV_MODE_CHANGE 0 0 0 ST_SHUFFLE
    (by decide) (by decide) rfl rfl rfl rfl rfl (by decide)

/-! ## The `handled` flag -/

theorem exit_state_loop_handled (g : state_graph) (state : state_ptr) (data : Nat) (fuel : Nat) :
    ∀ (s : state_ptr) (fsm f1 : fsm_t), exit_state_loop g state data fuel s fsm = some f1 →
      f1.handled = fsm.handled := by
  induction fuel with
  | zero =>
    intro s fsm f1 h
    cases s with
    | none =>
      simp only [exit_state_loop, Option.some.injEq] at h
      rw [← h]
    | some x =>
      simp only [exit_state_loop] at h
      split at h
      · rw [← Option.some.inj h]
      · cases h
  | succ n ih =>
    intro s fsm f1 h
    cases s with
    | none =>
      simp only [exit_state_loop, Option.some.injEq] at h
      rw [← h]
    | some x =>
      simp only [exit_state_loop] at h
      split at h
      · rw [← Option.some.inj h]
      · rw [ih _ _ _ h]
        exact (call_action_spec .ACTION_EXIT x (deref g x).exit_action data fsm).2.2.2

theorem enter_state_handled (g : state_graph) (fuel : Nat) (fsm f1 : fsm_t) (lca target : state_ptr)
    (data : Nat) (h : enter_state g fuel fsm lca target data = some f1) :
    f1.handled = fsm.handled := by
  cases target with
  | none => simp [enter_state] at h
  | some t =>
    cases hres : resolve_default g fuel t with
    | none => simp [enter_state, hres] at h
    | some leaf =>
      obtain ⟨f2, h1, _, _, _, h5⟩ := enter_state_spec g fuel fsm lca t leaf data hres
      rw [h1] at h
      rw [← Option.some.inj h]
      exact h5

/-- The scan of the table, started with `handled` set or on a table with an edge
for the walk cursor and the event, either returns from inside the loop or
leaves `handled` set. -/
theorem scan_transitions_handled (g : state_graph) (fuel : Nat) (ev : fsm_events_t) (s : Nat)
    (trs : List fsm_transition_t) :
    ∀ (fsm : fsm_t) (r : Bool × fsm_t),
      (fsm.handled = true ∨ ∃ tr ∈ trs, tr.source_state = some s ∧ tr.event = ev.event) →
      scan_transitions g fuel ev s trs fsm = some r → r.1 = true ∨ r.2.handled = true := by
  induction trs with
  | nil =>
    intro fsm r hyp h
    simp only [scan_transitions, Option.some.injEq] at h
    rcases hyp with hh | ⟨tr, htr, _⟩
    · right; rw [← h]; exact hh
    · cases htr
  | cons tr rest ih =>
    intro fsm r hyp h
    simp only [scan_transitions] at h
    split at h
    · cases hl : find_lca g fuel fsm.current_state tr.target_state with
      | none => rw [hl] at h; simp at h
      | some lca =>
        rw [hl] at h
        simp only [Option.some_bind] at h
        cases hx : exit_state g fuel fsm lca ev.data with
        | none => rw [hx] at h; simp at h
        | some fsm1 =>
          rw [hx] at h
          simp only [Option.some_bind] at h
          cases hen : enter_state g fuel fsm1 lca tr.target_state ev.data with
          | none => rw [hen] at h; simp at h
          | some fsm2 =>
            rw [hen] at h
            simp only [Option.some_bind] at h
            split at h
            · left; rw [← Option.some.inj h]
            · exact ih { fsm2 with handled := true } r (Or.inl rfl) h
    · rename_i hno
      refine ih fsm r ?_ h
      rcases hyp with hh | ⟨tr1, htr1, hm⟩
      · exact Or.inl hh
      · rcases List.mem_cons.1 htr1 with heq | hmem
        · rw [heq] at hm
          exact absurd hm hno
        · exact Or.inr ⟨tr1, hmem, hm⟩

/-- Processing one record when `s` is the nearest state of the ancestor chain
with an edge for the event: the outcome is that of the scan over the edges of
`s` for the event alone. -/
theorem process_event_nearest (g : state_graph) (fuel : Nat) (fsm : fsm_t) (e : Int)
    (data c j s : Nat) (r0 : Bool × fsm_t) (hc : fsm.current_state = some c)
    (hnear : nearest_source g fsm.transitions c e j s) (hj : j < fuel)
    (hscan : scan_transitions g fuel ⟨e, data⟩ s (edges_of fsm.transitions s e)
      { fsm with handled := false } = some r0) :
    ∃ ret, fsm_process_event g fuel ⟨e, data⟩ fsm = some (ret, r0.2) := by
  obtain ⟨hup, hex, hno⟩ := hnear
  obtain ⟨n, hn⟩ : ∃ n, fuel = n + j + 1 := ⟨fuel - j - 1, by omega⟩
  have hwalk := walk_ancestors_nearest g fuel ⟨e, data⟩ j c s n { fsm with handled := false }
    rfl hup hno
  have hfull : scan_transitions g fuel ⟨e, data⟩ s fsm.transitions { fsm with handled := false }
      = some r0 := by
    rw [scan_transitions_edges]; exact hscan
  have hh := scan_transitions_handled g fuel ⟨e, data⟩ s fsm.transitions
    { fsm with handled := false } r0 (Or.inr hex) hfull
  have htrs : ({ fsm with handled := false } : fsm_t).transitions = fsm.transitions := rfl
  rw [← hn, htrs, hfull] at hwalk
  have hpe : fsm_process_event g fuel ⟨e, data⟩ fsm =
      (walk_ancestors g fuel ⟨e, data⟩ fuel (some c) { fsm with handled := false }).bind fun r =>
        if r.1 then some (some r.2.terminate_val, r.2)
        else if r.2.terminate then some (some r.2.terminate_val, r.2)
        else some (none, r.2) := by
    unfold fsm_process_event
    exact congrArg (fun p => (walk_ancestors g fuel ⟨e, data⟩ fuel p
      { fsm with handled := false }).bind _) hc
  rw [hpe, hwalk]
  simp only [Option.some_bind]
  by_cases h1 : r0.1 = true
  · exact ⟨some r0.2.terminate_val, by simp [h1]⟩
  · have h2 : r0.2.handled = true := by
      rcases hh with h | h
      · exact absurd h h1
      · exact h
    rw [if_neg h1, walk_ancestors_handled g fuel ⟨e, data⟩ n _ r0.2 h2]
    simp only [Option.some_bind, Bool.false_eq_true, if_false]
    by_cases h3 : r0.2.terminate = true
    · exact ⟨some r0.2.terminate_val, by rw [if_pos h3]⟩
    · exact ⟨none, by rw [if_neg h3]⟩

/-! ## The nearest edge -/

/-- C5: `fsm_run` takes the edge of the nearest state on the ancestor chain of
the current state (the current state first, then its parent, and so on) that
has an edge for the event.  With `s` that state: first, state and trace after
`fsm_run` are those of the table scan over the edges of `s` for the event
alone, so no edge of another state, farther ancestors included, is applied;
second, when `tr` is the one edge of `s` for the event, the engine exits from
the current state up to `L = find_lca (c, t)` and enters the default leaf of
the target `t` of `tr`.  The state `s` may be any ancestor, up to the root. -/
theorem fsm_run_takes_nearest_edge (g : state_graph) (D fuel : Nat) (fsm : fsm_t) (e : Int)
    (data c j s : Nat) (hwf : well_formed g D) (hD : 1 ≤ D)
    (hq : queue_idle fsm.event_queue) (hterm : fsm.terminate = false)
    (hc : fsm.current_state = some c) (hnear : nearest_source g fsm.transitions c e j s)
    (hf : 2 * D + 2 ≤ fuel) :
    (∀ r0 c2, scan_transitions g fuel ⟨e, data⟩ s (edges_of fsm.transitions s e)
        { fsm with handled := false } = some r0 → r0.2.current_state = some c2 →
      ∃ r, fsm_run g fuel (fsm_dispatch fsm e data) = some (0, r) ∧
        r.current_state = some c2 ∧
        r.trace = r0.2.trace ++ run_calls g r0.2.current_data c2) ∧
    (∀ tr t, edges_of fsm.transitions s e = [tr] → tr.target_state = some t →
      ∃ r leaf L k, fsm_run g fuel (fsm_dispatch fsm e data) = some (0, r) ∧
        default_leaf g t leaf ∧ r.current_state = some leaf ∧
        find_lca g fuel (some c) (some t) = some L ∧
        up g k (some c) = L ∧ (∀ i, i < k → up g i (some c) ≠ L) ∧
        r.trace = fsm.trace ++ exit_calls g data (chain g k (some c)) ++
          entry_calls g data (build_path g L MAX_HIERARCHY_DEPTH (some leaf)).reverse ++
          run_calls g fsm.current_data leaf) := by
  constructor
  · intro r0 c2 hscan hc2
    obtain ⟨la, hla, d1⟩ := has_depth_of_up_none g D _ (well_formed_up_none g D hwf hD c)
    have hj : j < la := up_lt_depth g _ la j s d1 hnear.1
    obtain ⟨ret, hp⟩ := process_event_nearest g fuel fsm e data c j s r0 hc hnear (by omega) hscan
    obtain ⟨r, r1, r2, r3, _⟩ :=
      fsm_run_one g fuel fsm r0.2 e data c2 ret hq hterm (by omega) hp hc2
    exact ⟨r, r1, r2, r3⟩
  · intro tr t hone htr
    obtain ⟨r, leaf, L, k, h1, hleaf, _, h2, hL, hk, hkmin, _, htrace⟩ :=
      fsm_run_single g D fuel fsm e data c j s t tr hwf hD hq hterm hc hnear hone htr hf
    exact ⟨r, leaf, L, k, h1, hleaf, h2, hL, hk, hkmin, htrace⟩

/-- Witness for C5: the media player in `PLAYLIST_SELECT` receives
`LOW_BATTERY`, for which only `ROOT`, three levels up, has an edge. -/
theorem fsm_run_takes_nearest_edge_witness :
    (∃ r, fsm_run music_player_states 10
          (fsm_dispatch (music_player_in ST_PLAYLIST_SELECT) EV_LOW_BATTERY 0) = some (0, r) ∧
        r.current_state = some ST_LOW_BATTERY ∧
        r.trace = (music_player_after ST_LOW_BATTERY [⟨.ACTION_ENTRY, ST_LOW_BATTERY, 0⟩]).trace ++
          run_calls music_player_states
            (music_player_after ST_LOW_BATTERY
              [⟨.ACTION_ENTRY, ST_LOW_BATTERY, 0⟩]).current_data ST_LOW_BATTERY) ∧
    (∃ r leaf L k, fsm_run music_player_states 10
          (fsm_dispatch (music_player_in ST_PLAYLIST_SELECT) EV_LOW_BATTERY 0) = some (0, r) ∧
        default_leaf music_player_states ST_LOW_BATTERY leaf ∧ r.current_state = some leaf ∧
        find_lca music_player_states 10 (some ST_PLAYLIST_SELECT) (some ST_LOW_BATTERY)
          = some L ∧
        up music_player_states k (some ST_PLAYLIST_SELECT) = L ∧
        (∀ i, i < k → up music_player_states i (some ST_PLAYLIST_SELECT) ≠ L) ∧
        r.trace = (music_player_in ST_PLAYLIST_SELECT).trace ++
          exit_calls music_player_states 0
            (chain music_player_states k (some ST_PLAYLIST_SELECT)) ++
          entry_calls music_player_states 0
            (build_path music_player_states L MAX_HIERARCHY_DEPTH (some leaf)).reverse ++
          run_calls music_player_states (music_player_in ST_PLAYLIST_SELECT).current_data leaf) :=
  ⟨(fsm_run_takes_nearest_edge music_player_states 4 10 (music_player_in ST_PLAYLIST_SELECT)
      EV_LOW_BATTERY 0 ST_PLAYLIST_SELECT 3 ST_ROOT
      (by decide) (by decide) (by decide) rfl rfl (by decide) (by decide)).1
      (false, music_player_after ST_LOW_BATTERY [⟨.ACTION_ENTRY, ST_LOW_BATTERY, 0⟩])
      ST_LOW_BATTERY rfl rfl,
   (fsm_run_takes_nearest_edge music_player_states 4 10 (music_player_in ST_PLAYLIST_SELECT)
      EV_LOW_BATTERY 0 ST_PLAYLIST_SELECT 3 ST_ROOT
      (by decide) (by decide) (by decide) rfl rfl (by decide) (by decide)).2
      (FSM_TRANSITION_CREATE ST_ROOT EV_LOW_BATTERY ST_LOW_BATTERY) ST_LOW_BATTERY rfl rfl⟩

/-! ## Reachable ring buffers -/

theorem ringbuff_num_empty (rb : ringbuff) (h : rb.p_read = rb.p_write) : ringbuff_num rb = 0 := by
  simp [ringbuff_num, h, to_int32]

theorem fsm_process_events_empty (g : state_graph) (fuel : Nat) (fsm : fsm_t)
    (h : fsm.event_queue.p_read = fsm.event_queue.p_write) :
    fsm_process_events g fuel fsm = some (0, fsm) := by
  unfold fsm_process_events
  cases fuel <;> simp [fsm_process_events_loop, ringbuff_get, h]

/-- C12: after `fsm_flush_events` the queue is empty: `ringbuff_num` returns
`0`, `ringbuff_get` fails and changes nothing, and a following `fsm_run`
executes no exit and no entry action and leaves the current state as it was
(it only calls the run action, unless the engine is terminated); the flush
itself leaves the write cursor and `current_state` unchanged. -/
theorem fsm_flush_events_spec (g : state_graph) (fuel : Nat) (fsm : fsm_t) (c : Nat)
    (hc : fsm.current_state = some c) :
    ringbuff_num (fsm_flush_events fsm).event_queue = 0 ∧
    (∀ d, ringbuff_get (fsm_flush_events fsm).event_queue (fsm_flush_events fsm).events_buff d =
      (-1, (fsm_flush_events fsm).event_queue, d)) ∧
    (fsm_flush_events fsm).event_queue.p_write = fsm.event_queue.p_write ∧
    (fsm_flush_events fsm).current_state = fsm.current_state ∧
    ∃ r, fsm_run g fuel (fsm_flush_events fsm) =
        some (if fsm.terminate then fsm.terminate_val else 0, r) ∧
      r.current_state = some c ∧
      r.trace = fsm.trace ++ (if fsm.terminate then [] else run_calls g fsm.current_data c) ∧
      r.event_queue = (fsm_flush_events fsm).event_queue := by
  have hq : (fsm_flush_events fsm).event_queue.p_read = (fsm_flush_events fsm).event_queue.p_write :=
    rfl
  refine ⟨ringbuff_num_empty _ hq, ?_, rfl, rfl, ?_⟩
  · intro d
    simp [ringbuff_get, hq]
  · by_cases ht : fsm.terminate = true
    · refine ⟨fsm_flush_events fsm, ?_, hc, ?_, rfl⟩
      swap
      · rw [if_pos ht, List.append_nil]; rfl
      have ht2 : (fsm_flush_events fsm).terminate = true := ht
      simp only [fsm_run, ht2, if_true, ht]
      rfl
    · have ht2 : ¬ ((fsm_flush_events fsm).terminate = true) := ht
      obtain ⟨t1, t2, t3, _⟩ := call_action_spec .ACTION_RUN c (deref g c).run_action
        (fsm_flush_events fsm).current_data (fsm_flush_events fsm)
      refine ⟨call_action .ACTION_RUN c (deref g c).run_action
        (fsm_flush_events fsm).current_data (fsm_flush_events fsm), ?_, ?_, ?_, ?_⟩
      · have hcs : (fsm_flush_events fsm).current_state = some c := hc
        simp only [fsm_run, if_neg ht2, fsm_process_events_empty g fuel _ hq, Option.some_bind,
          hcs, if_neg ht]
      · exact t3.trans hc
      · rw [t1, if_neg ht]
        rfl
      · exact t2.2.1

/-- Witness for C12: the media player in `OFF` with two pending events. -/
theorem fsm_flush_events_spec_witness :
    ringbuff_num (fsm_flush_events music_player_pending).event_queue = 0 ∧
    (∀ d, ringbuff_get (fsm_flush_events music_player_pending).event_queue
        (fsm_flush_events music_player_pending).events_buff d =
      (-1, (fsm_flush_events music_player_pending).event_queue, d)) ∧
    (fsm_flush_events music_player_pending).event_queue.p_write =
      music_player_pending.event_queue.p_write ∧
    (fsm_flush_events music_player_pending).current_state = music_player_pending.current_state ∧
    ∃ r, fsm_run music_player_states 4 (fsm_flush_events music_player_pending) =
        some (if music_player_pending.terminate then music_player_pending.terminate_val else 0,
          r) ∧
      r.current_state = some ST_OFF ∧
      r.trace = music_player_pending.trace ++
        (if music_player_pending.terminate then []
          else run_calls music_player_states music_player_pending.current_data ST_OFF) ∧
      r.event_queue = (fsm_flush_events music_player_pending).event_queue :=
  fsm_flush_events_spec music_player_states 4 music_player_pending ST_OFF rfl

/-! ## Terminated is absorbing -/

theorem fsm_run_terminated (g : state_graph) (fuel : Nat) (fsm : fsm_t)
    (h : fsm.terminate = true) : fsm_run g fuel fsm = some (fsm.terminate_val, fsm) := by
  simp [fsm_run, h]

theorem only_dispatches_frame (calls : List fsm_call) :
    ∀ fsm : fsm_t,
      (only_dispatches calls fsm).terminate = fsm.terminate ∧
      (only_dispatches calls fsm).terminate_val = fsm.terminate_val ∧
      (only_dispatches calls fsm).current_state = fsm.current_state ∧
      (only_dispatches calls fsm).trace = fsm.trace := by
  induction calls with
  | nil => intro fsm; exact ⟨rfl, rfl, rfl, rfl⟩
  | cons call rest ih =>
    intro fsm
    cases call with
    | run => exact ih fsm
    | dispatch e d => exact ih (fsm_dispatch fsm e d)

/-- C15: once termination has been requested with value `v`, in any sequence of
`fsm_run` and `fsm_dispatch` calls every `fsm_run` returns `v` and leaves the
engine exactly as it found it: the engine at the end is the one that the
dispatches alone produce, so no record was taken from the queue, no action
was executed (the trace is unchanged) and `current_state` is the same. -/
theorem terminated_is_absorbing (g : state_graph) (fuel : Nat) (calls : List fsm_call)
    (fsm : fsm_t) (h : fsm.terminate = true) :
    fsm_calls g fuel calls fsm =
      some (List.replicate (calls.count .run) (fsm.terminate_val, fsm_state_get g fsm),
        only_dispatches calls fsm) ∧
    (only_dispatches calls fsm).trace = fsm.trace ∧
    (only_dispatches calls fsm).current_state = fsm.current_state ∧
    (only_dispatches calls fsm).terminate = true := by
  induction calls generalizing fsm with
  | nil => exact ⟨rfl, rfl, rfl, h⟩
  | cons call rest ih =>
    obtain ⟨f1, f2, f3, f4⟩ := only_dispatches_frame (call :: rest) fsm
    refine ⟨?_, f4, f3, f1.trans h⟩
    cases call with
    | run =>
      obtain ⟨i1, _⟩ := ih fsm h
      simp only [fsm_calls, fsm_run_terminated g fuel fsm h, Option.some_bind, i1,
        Option.map_some', only_dispatches]
      simp [List.replicate_succ]
    | dispatch e d =>
      have hd : (fsm_dispatch fsm e d).terminate = true := h
      obtain ⟨i1, _⟩ := ih (fsm_dispatch fsm e d) hd
      simp only [fsm_calls, i1, only_dispatches]
      have hcount : (fsm_call.dispatch e d :: rest).count .run = rest.count .run := by
        simp
      rw [hcount]
      rfl

/-- Witness for C15: the terminated media player receives two events and is
run three times. -/
theorem terminated_is_absorbing_witness :
    fsm_calls music_player_states 10
        [.run, .dispatch EV_POWER 0, .run, .dispatch EV_PLAY 0, .run] music_player_terminated =
      some (List.replicate
          ([fsm_call.run, .dispatch EV_POWER 0, .run, .dispatch EV_PLAY 0, .run].count .run)
          (music_player_terminated.terminate_val,
            fsm_state_get music_player_states music_player_terminated),
        only_dispatches [.run, .dispatch EV_POWER 0, .run, .dispatch EV_PLAY 0, .run]
          music_player_terminated) ∧
    (only_dispatches [.run, .dispatch EV_POWER 0, .run, .dispatch EV_PLAY 0, .run]
      music_player_terminated).trace = music_player_terminated.trace ∧
    (only_dispatches [.run, .dispatch EV_POWER 0, .run, .dispatch EV_PLAY 0, .run]
      music_player_terminated).current_state = music_player_terminated.current_state ∧
    (only_dispatches [.run, .dispatch EV_POWER 0, .run, .dispatch EV_PLAY 0, .run]
      music_player_terminated).terminate = true :=
  terminated_is_absorbing music_player_states 10
    [.run, .dispatch EV_POWER 0, .run, .dispatch EV_PLAY 0, .run] music_player_terminated rfl

/-! ## Evaluations -/

/-- C13 fails in the code: state `2` has an exit action that calls
`fsm_terminate (7)` and the edge `2 --5--> 3`; the `fsm_run` call that processes
the event executes the exit action of `2`, the entry action of `3` and then the
run action of `3`, with termination requested. -/
theorem terminating_exit_run_action_runs :
    (fsm_run (flat_states (terminating 7)) 10
        (fsm_dispatch (engine_in [FSM_TRANSITION_CREATE 2 5 3] 2) 5 0)).map
      (fun r => (r.2.current_state, r.2.terminate, r.2.trace)) =
    some (some 3, true,
      [⟨.ACTION_EXIT, 2, 0⟩, ⟨.ACTION_ENTRY, 3, 0⟩, ⟨.ACTION_RUN, 3, 0⟩]) := by
  decide

/-- C14 fails in the code: in the same situation the `fsm_run` call during which
the exit action calls `fsm_terminate (7)` returns `0`, with `7` stored; only
the next `fsm_run` call returns `7`. -/
theorem terminating_exit_run_returns_zero :
    (fsm_run (flat_states (terminating 7)) 10
        (fsm_dispatch (engine_in [FSM_TRANSITION_CREATE 2 5 3] 2) 5 0)).map
      (fun r => (r.1, r.2.terminate, r.2.terminate_val)) = some (0, true, 7) ∧
    ((fsm_run (flat_states (terminating 7)) 10
        (fsm_dispatch (engine_in [FSM_TRANSITION_CREATE 2 5 3] 2) 5 0)).bind
      (fun r => fsm_run (flat_states (terminating 7)) 10 r.2)).map Prod.fst = some 7 := by
  decide

/-- C16 as stated fails: after `fsm_init` with payload `11`, the event `POWER`
dispatched with payload `42` and `fsm_run`, the entry actions got `42` but the
run action of `PAUSED` got `11`. -/
theorem run_action_data_counterexample :
    ((fsm_init music_player_states 10 fresh_fsm music_player_transitions (some ST_ROOT) 11).bind
      (fun f => fsm_run music_player_states 10 (fsm_dispatch f EV_POWER 42))).map
      (fun r => (r.2.current_data, r.2.trace)) =
    some (11, [⟨.ACTION_ENTRY, ST_OFF, 11⟩, ⟨.ACTION_ENTRY, ST_ON, 42⟩,
      ⟨.ACTION_ENTRY, ST_PAUSED, 42⟩, ⟨.ACTION_RUN, ST_PAUSED, 11⟩]) := by
  decide

/-- C17 fails in the code: after `fsm_init` and two dispatches the queue holds
two records (`ringbuff_num` returns `2`) and `fsm_has_pending_events` returns
`1`. -/
theorem has_pending_events_is_flag :
    (fsm_init music_player_states 10 fresh_fsm music_player_transitions (some ST_ROOT) 0).map
      (fun f =>
        (fsm_has_pending_events (fsm_dispatch (fsm_dispatch f EV_POWER 0) EV_PLAY 0),
          ringbuff_num (fsm_dispatch (fsm_dispatch f EV_POWER 0) EV_PLAY 0).event_queue)) =
    some (1, 2) := by
  decide

/-- C18 fails in the code: with the two edges `2 --5--> 3` and `2 --5--> 4`, one
dispatched event `5` in state `2` makes `fsm_run` apply both: exit `2`, entry
`3`, exit `3`, entry `4`. -/
theorem duplicate_edges_both_applied :
    (fsm_run (flat_states print_only) 10
        (fsm_dispatch (engine_in [FSM_TRANSITION_CREATE 2 5 3, FSM_TRANSITION_CREATE 2 5 4] 2)
          5 0)).map
      (fun r => (r.2.current_state, r.2.trace)) =
    some (some 4,
      [⟨.ACTION_EXIT, 2, 0⟩, ⟨.ACTION_ENTRY, 3, 0⟩, ⟨.ACTION_EXIT, 3, 0⟩,
        ⟨.ACTION_ENTRY, 4, 0⟩, ⟨.ACTION_RUN, 4, 0⟩]) := by
  decide

/-- C19: the media-player chart.  `fsm_init` at `ROOT` makes `OFF` current; the
scenario `POWER, PLAY, MODE_CHANGE, MENU, LOW_BATTERY, CHARGE` visits `PAUSED,
NORMAL, SHUFFLE, MENU, LOW_BATTERY, PAUSED`; the calls of the example's `main`
visit `OFF, PAUSED, NORMAL, SHUFFLE, MENU, VOLUME_ADJUST, MENU,
PLAYLIST_SELECT, LOW_BATTERY, PAUSED, OFF`; every `fsm_run` returns `0`. -/
theorem music_player_scenario :
    (fsm_init music_player_states 10 fresh_fsm music_player_transitions (some ST_ROOT) 0).bind
        (fun f => fsm_state_get music_player_states f) = some 2 ∧
    ((fsm_init music_player_states 10 fresh_fsm music_player_transitions (some ST_ROOT) 0).bind
        (fun f => fsm_calls music_player_states 10 music_player_short f)).map Prod.fst =
      some [(0, some 8), (0, some 5), (0, some 6), (0, some 9), (0, some 12), (0, some 8)] ∧
    ((fsm_init music_player_states 10 fresh_fsm music_player_transitions (some ST_ROOT) 0).bind
        (fun f => fsm_calls music_player_states 10 music_player_main f)).map Prod.fst =
      some [(0, some 2), (0, some 8), (0, some 5), (0, some 6), (0, some 9), (0, some 10),
        (0, some 9), (0, some 11), (0, some 12), (0, some 8), (0, some 2)] := by
  decide

/-! ## Event processing writes neither the table, the queue nor `current_data` -/

theorem exit_state_loop_same_config (g : state_graph) (state : state_ptr) (data : Nat)
    (fuel : Nat) :
    ∀ (s : state_ptr) (fsm f1 : fsm_t), exit_state_loop g state data fuel s fsm = some f1 →
      same_config fsm f1 := by
  induction fuel with
  | zero =>
    intro s fsm f1 h
    cases s with
    | none =>
      simp only [exit_state_loop, Option.some.injEq] at h
      rw [← h]; exact same_config_refl fsm
    | some x =>
      simp only [exit_state_loop] at h
      split at h
      · rw [← Option.some.inj h]; exact same_config_refl fsm
      · cases h
  | succ n ih =>
    intro s fsm f1 h
    cases s with
    | none =>
      simp only [exit_state_loop, Option.some.injEq] at h
      rw [← h]; exact same_config_refl fsm
    | some x =>
      simp only [exit_state_loop] at h
      split at h
      · rw [← Option.some.inj h]; exact same_config_refl fsm
      · exact same_config_trans _ _ _
          (call_action_spec .ACTION_EXIT x (deref g x).exit_action data fsm).2.1 (ih _ _ _ h)

theorem enter_state_same_config (g : state_graph) (fuel : Nat) (fsm f1 : fsm_t)
    (lca target : state_ptr) (data : Nat)
    (h : enter_state g fuel fsm lca target data = some f1) : same_config fsm f1 := by
  cases target with
  | none => simp [enter_state] at h
  | some t =>
    cases hres : resolve_default g fuel t with
    | none => simp [enter_state, hres] at h
    | some leaf =>
      obtain ⟨f2, h1, _, h3, _, _⟩ := enter_state_spec g fuel fsm lca t leaf data hres
      rw [h1] at h
      rw [← Option.some.inj h]
      exact h3

theorem scan_transitions_same_config (g : state_graph) (fuel : Nat) (ev : fsm_events_t)
    (current : Nat) (trs : List fsm_transition_t) :
    ∀ (fsm : fsm_t) (r : Bool × fsm_t), scan_transitions g fuel ev current trs fsm = some r →
      same_config fsm r.2 := by
  induction trs with
  | nil =>
    intro fsm r h
    simp only [scan_transitions, Option.some.injEq] at h
    rw [← h]; exact same_config_refl fsm
  | cons tr rest ih =>
    intro fsm r h
    simp only [scan_transitions] at h
    split at h
    · cases hl : find_lca g fuel fsm.current_state tr.target_state with
      | none => rw [hl] at h; simp at h
      | some lca =>
        rw [hl] at h
        simp only [Option.some_bind] at h
        cases hx : exit_state g fuel fsm lca ev.data with
        | none => rw [hx] at h; simp at h
        | some fsm1 =>
          rw [hx] at h
          simp only [Option.some_bind] at h
          cases hen : enter_state g fuel fsm1 lca tr.target_state ev.data with
          | none => rw [hen] at h; simp at h
          | some fsm2 =>
            rw [hen] at h
            simp only [Option.some_bind] at h
            have a1 : same_config fsm fsm1 :=
              exit_state_loop_same_config g lca ev.data fuel fsm.current_state fsm fsm1 hx
            have a2 : same_config fsm1 fsm2 := enter_state_same_config g fuel fsm1 fsm2 _ _ _ hen
            have a12 := same_config_trans _ _ _ a1 a2
            split at h
            · rw [← Option.some.inj h]; exact a12
            · have a3 : same_config fsm2 { fsm2 with handled := true } :=
                ⟨rfl, rfl, rfl, rfl, rfl⟩
              exact same_config_trans _ _ _ (same_config_trans _ _ _ a12 a3)
                (ih { fsm2 with handled := true } r h)
    · exact ih fsm r h

theorem walk_ancestors_same_config (g : state_graph) (fuel : Nat) (ev : fsm_events_t) (n : Nat) :
    ∀ (p : state_ptr) (fsm : fsm_t) (r : Bool × fsm_t),
      walk_ancestors g fuel ev n p fsm = some r → same_config fsm r.2 := by
  induction n with
  | zero =>
    intro p fsm r h
    cases p with
    | none =>
      simp only [walk_ancestors, Option.some.injEq] at h
      rw [← h]; exact same_config_refl fsm
    | some c =>
      simp only [walk_ancestors] at h
      split at h
      · rw [← Option.some.inj h]; exact same_config_refl fsm
      · cases h
  | succ n ih =>
    intro p fsm r h
    cases p with
    | none =>
      simp only [walk_ancestors, Option.some.injEq] at h
      rw [← h]; exact same_config_refl fsm
    | some c =>
      simp only [walk_ancestors] at h
      split at h
      · rw [← Option.some.inj h]; exact same_config_refl fsm
      · cases hs : scan_transitions g fuel ev c fsm.transitions fsm with
        | none => rw [hs] at h; simp at h
        | some r1 =>
          rw [hs] at h
          simp only [Option.some_bind] at h
          have a1 := scan_transitions_same_config g fuel ev c fsm.transitions fsm r1 hs
          split at h
          · rw [← Option.some.inj h]; exact a1
          · exact same_config_trans _ _ _ a1 (ih _ _ r h)

theorem fsm_process_event_same_config (g : state_graph) (fuel : Nat) (ev : fsm_events_t)
    (fsm : fsm_t) (r : Option Int × fsm_t) (h : fsm_process_event g fuel ev fsm = some r) :
    same_config fsm r.2 := by
  unfold fsm_process_event at h
  cases hw : walk_ancestors g fuel ev fuel fsm.current_state { fsm with handled := false } with
  | none => rw [hw] at h; simp at h
  | some r1 =>
    rw [hw] at h
    simp only [Option.some_bind] at h
    have a1 := walk_ancestors_same_config g fuel ev fuel _ _ r1 hw
    have a0 : same_config fsm r1.2 :=
      same_config_trans _ _ _ (⟨rfl, rfl, rfl, rfl, rfl⟩ : same_config fsm
        { fsm with handled := false }) a1
    split at h
    · rw [← Option.some.inj h]; exact a0
    · split at h
      · rw [← Option.some.inj h]; exact a0
      · rw [← Option.some.inj h]; exact a0

/-- The event loop calls no run action and leaves `current_data` as it is. -/
theorem fsm_process_events_loop_quiet (g : state_graph) (fuel : Nat) (n : Nat) :
    ∀ (ce : fsm_events_t) (fsm : fsm_t) (r : Int × fsm_t),
      fsm_process_events_loop g fuel n ce fsm = some r →
      appends_no_run fsm r.2 ∧ r.2.current_data = fsm.current_data := by
  induction n with
  | zero =>
    intro ce fsm r h
    simp only [fsm_process_events_loop] at h
    split at h
    · cases h
    · rw [← Option.some.inj h]; exact ⟨appends_no_run_refl fsm, rfl⟩
  | succ n ih =>
    intro ce fsm r h
    simp only [fsm_process_events_loop] at h
    split at h
    · cases hp : fsm_process_event g fuel
          (ringbuff_get fsm.event_queue fsm.events_buff ce).2.2
          { fsm with event_queue := (ringbuff_get fsm.event_queue fsm.events_buff ce).2.1 } with
      | none => rw [hp] at h; simp at h
      | some x =>
        rw [hp] at h
        simp only [Option.some_bind] at h
        have a1 := fsm_process_event_no_run g fuel _ _ x hp
        have a2 := (fsm_process_event_same_config g fuel _ _ x hp).2.2.2.2
        have b1 : appends_no_run fsm x.2 :=
          appends_no_run_trans _ _ _ (appends_no_run_of_trace_eq fsm _ rfl) a1
        have b2 : x.2.current_data = fsm.current_data := a2
        cases hx : x.1 with
        | some v =>
          rw [hx] at h
          simp only at h
          rw [← Option.some.inj h]
          exact ⟨b1, b2⟩
        | none =>
          rw [hx] at h
          simp only at h
          obtain ⟨c1, c2⟩ := ih _ _ r h
          exact ⟨appends_no_run_trans _ _ _ b1 c1, c2.trans b2⟩
    · rw [← Option.some.inj h]; exact ⟨appends_no_run_refl fsm, rfl⟩

/-! ## The payload of run actions -/

theorem runs_with_data_refl (d : Nat) (f : fsm_t) : runs_with_data d f f :=
  ⟨[], by simp, by simp⟩

theorem runs_with_data_trans (d : Nat) (f f1 f2 : fsm_t) (h1 : runs_with_data d f f1)
    (h2 : runs_with_data d f1 f2) : runs_with_data d f f2 := by
  obtain ⟨t1, a1, b1⟩ := h1
  obtain ⟨t2, a2, b2⟩ := h2
  refine ⟨t1 ++ t2, by rw [a2, a1, List.append_assoc], ?_⟩
  intro a ha
  rcases List.mem_append.1 ha with h | h
  · exact b1 a h
  · exact b2 a h

theorem runs_with_data_of_no_run (d : Nat) (f f1 : fsm_t) (h : appends_no_run f f1) :
    runs_with_data d f f1 := by
  obtain ⟨t, a, b⟩ := h
  exact ⟨t, a, fun x hx hk => absurd hk (b x hx)⟩

/-- Any `fsm_run` call that returns leaves `current_data` as it is and calls
run actions with that payload only. -/
theorem fsm_run_data (g : state_graph) (fuel : Nat) (fsm : fsm_t) (r : Int × fsm_t)
    (h : fsm_run g fuel fsm = some r) :
    r.2.current_data = fsm.current_data ∧ runs_with_data fsm.current_data fsm r.2 := by
  unfold fsm_run at h
  split at h
  · rw [← Option.some.inj h]
    exact ⟨rfl, runs_with_data_refl _ _⟩
  · cases hp : fsm_process_events g fuel fsm with
    | none => rw [hp] at h; simp at h
    | some x =>
      rw [hp] at h
      simp only [Option.some_bind] at h
      obtain ⟨a1, a2⟩ := fsm_process_events_loop_quiet g fuel fuel ⟨0, 0⟩ fsm x hp
      cases hc : x.2.current_state with
      | none => rw [hc] at h; simp at h
      | some c =>
        rw [hc] at h
        simp only [Option.some.injEq] at h
        rw [← h]
        obtain ⟨t1, t2, _, _⟩ := call_action_spec .ACTION_RUN c (deref g c).run_action
          x.2.current_data x.2
        refine ⟨t2.2.2.2.2.trans a2, ?_⟩
        refine runs_with_data_trans _ _ _ _ (runs_with_data_of_no_run _ _ _ a1) ?_
        refine ⟨_, t1, ?_⟩
        intro a ha _
        split at ha
        · simp at ha
          rw [ha]
          exact a2
        · simp at ha

theorem fsm_calls_data (g : state_graph) (fuel : Nat) (calls : List fsm_call) :
    ∀ (fsm : fsm_t) (x : List (Int × Option Int) × fsm_t),
      fsm_calls g fuel calls fsm = some x →
      x.2.current_data = fsm.current_data ∧ runs_with_data fsm.current_data fsm x.2 := by
  induction calls with
  | nil =>
    intro fsm x h
    simp only [fsm_calls, Option.some.injEq] at h
    rw [← h]
    exact ⟨rfl, runs_with_data_refl _ _⟩
  | cons call rest ih =>
    intro fsm x h
    cases call with
    | run =>
      simp only [fsm_calls] at h
      cases hr : fsm_run g fuel fsm with
      | none => rw [hr] at h; simp at h
      | some r =>
        rw [hr] at h
        simp only [Option.some_bind] at h
        cases hc : fsm_calls g fuel rest r.2 with
        | none => rw [hc] at h; simp at h
        | some y =>
          rw [hc] at h
          simp only [Option.map_some', Option.some.injEq] at h
          rw [← h]
          obtain ⟨a1, a2⟩ := fsm_run_data g fuel fsm r hr
          obtain ⟨b1, b2⟩ := ih r.2 y hc
          rw [a1] at b2
          exact ⟨b1.trans a1, runs_with_data_trans _ _ _ _ a2 b2⟩
    | dispatch e d =>
      simp only [fsm_calls] at h
      obtain ⟨b1, b2⟩ := ih (fsm_dispatch fsm e d) x h
      have hd : (fsm_dispatch fsm e d).current_data = fsm.current_data := rfl
      rw [hd] at b1 b2
      refine ⟨b1, ?_⟩
      obtain ⟨t, c1, c2⟩ := b2
      exact ⟨t, c1, c2⟩

theorem fsm_init_data (g : state_graph) (fuel : Nat) (f0 fsm : fsm_t)
    (trs : List fsm_transition_t) (initial : state_ptr) (d0 : Nat)
    (h : fsm_init g fuel f0 trs initial d0 = some fsm) : fsm.current_data = d0 := by
  unfold fsm_init at h
  cases hi : ringbuff_init f0.events_buff_addr FSM_MAX_EVENTS sizeof_fsm_events_t with
  | none => rw [hi] at h; simp at h
  | some q =>
    rw [hi] at h
    simp only [Option.some_bind] at h
    exact (enter_state_same_config g fuel _ fsm _ _ _ h).2.2.2.2

/-- C16 (as the code behaves): `current_data` is written by `fsm_init` only.
After `fsm_init` with payload `d0`, whatever is dispatched and run, with
whatever payloads, `current_data` stays `d0` and every run action is called
with `d0`. -/
theorem run_action_gets_init_data (g : state_graph) (fuel : Nat) (f0 fsm r : fsm_t)
    (trs : List fsm_transition_t) (initial : state_ptr) (d0 : Nat) (calls : List fsm_call)
    (rets : List (Int × Option Int))
    (hinit : fsm_init g fuel f0 trs initial d0 = some fsm)
    (hcalls : fsm_calls g fuel calls fsm = some (rets, r)) :
    fsm.current_data = d0 ∧ r.current_data = d0 ∧ runs_with_data d0 fsm r := by
  have h0 := fsm_init_data g fuel f0 fsm trs initial d0 hinit
  obtain ⟨a1, a2⟩ := fsm_calls_data g fuel calls fsm (rets, r) hcalls
  rw [h0] at a1 a2
  exact ⟨h0, a1, a2⟩

/-- Witness for C16: the media player initialised with payload `11` handles
`POWER` dispatched with payload `42`. -/
theorem run_action_gets_init_data_witness :
    music_player_started.current_data = 11 ∧ music_player_started_on.current_data = 11 ∧
      runs_with_data 11 music_player_started music_player_started_on :=
  run_action_gets_init_data music_player_states 10 fresh_fsm music_player_started
    music_player_started_on music_player_transitions (some ST_ROOT) 11
    [.dispatch EV_POWER 42, .run] [(0, some 8)] rfl rfl

/-! ## Termination stops the draining -/

theorem drop_cons_getElem? {α : Type} (vs : List α) (r : Nat) (x : α) (rest : List α)
    (h : vs.drop r = x :: rest) : r < vs.length ∧ vs[r]? = some x ∧ vs.drop (r + 1) = rest := by
  have hlt : r < vs.length := by
    by_contra hge
    rw [List.drop_eq_nil_of_le (by omega)] at h
    cases h
  rw [List.drop_eq_getElem_cons hlt] at h
  simp only [List.cons.injEq] at h
  exact ⟨hlt, by rw [List.getElem?_eq_getElem hlt, h.1], h.2⟩

/-- The event loop on a queue whose first unread records are `pre`, when the
loop body goes through `pre` without returning. -/
theorem drain_all (g : state_graph) (fuel : Nat) (mem : Nat → fsm_events_t)
    (vs : List fsm_events_t) (pre : List fsm_events_t) :
    ∀ (rest : List fsm_events_t) (r : Nat) (q : ringbuff) (f f1 : fsm_t),
      rb_rep q mem vs r → vs.drop r = pre ++ rest → process_all g fuel pre f = some f1 →
      ∃ q1, rb_rep q1 mem vs (r + pre.length) ∧
        ∀ n ce, ∃ ce1, fsm_process_events_loop g fuel (n + pre.length) ce (set_queue q mem f) =
          fsm_process_events_loop g fuel n ce1 (set_queue q1 mem f1) := by
  induction pre with
  | nil =>
    intro rest r q f f1 hrep _ hall
    simp only [process_all, Option.some.injEq] at hall
    subst hall
    exact ⟨q, hrep, fun n ce => ⟨ce, rfl⟩⟩
  | cons ev pre ih =>
    intro rest r q f f1 hrep hdrop hall
    obtain ⟨hlt, hev, hdrop1⟩ := drop_cons_getElem? vs r ev (pre ++ rest) hdrop
    simp only [process_all] at hall
    cases hp : fsm_process_event g fuel ev f with
    | none => rw [hp] at hall; simp at hall
    | some x =>
      rw [hp] at hall
      simp only [Option.some_bind] at hall
      cases hx : x.1 with
      | some v => rw [hx] at hall; simp at hall
      | none =>
        rw [hx] at hall
        simp only at hall
        have hp2 : fsm_process_event g fuel ev f = some (none, x.2) := by
          rw [hp, ← hx]
        obtain ⟨q1, hrep1, hloop1⟩ := drain_step g fuel f x.2 q mem vs r ev none hrep hlt hev hp2
        obtain ⟨q2, hrep2, hloop2⟩ := ih rest (r + 1) q1 x.2 f1 hrep1 hdrop1 hall
        refine ⟨q2, ?_, ?_⟩
        · have : r + (ev :: pre).length = r + 1 + pre.length := by simp; omega
          rw [this]; exact hrep2
        · intro n ce
          obtain ⟨ce1, h1⟩ := hloop2 n ev
          refine ⟨ce1, ?_⟩
          have : n + (ev :: pre).length = (n + pre.length) + 1 := by simp; omega
          rw [this, hloop1 (n + pre.length) ce]
          exact h1

theorem fsm_process_event_returns (g : state_graph) (fuel : Nat) (ev : fsm_events_t)
    (fsm f2 : fsm_t) (ret : Option Int) (h : fsm_process_event g fuel ev fsm = some (ret, f2))
    (ht : f2.terminate = true) : ret = some f2.terminate_val := by
  unfold fsm_process_event at h
  cases hw : walk_ancestors g fuel ev fuel fsm.current_state { fsm with handled := false } with
  | none => rw [hw] at h; simp at h
  | some r1 =>
    rw [hw] at h
    simp only [Option.some_bind] at h
    split at h
    · simp only [Option.some.injEq, Prod.mk.injEq] at h
      rw [← h.1, ← h.2]
    · split at h
      · simp only [Option.some.injEq, Prod.mk.injEq] at h
        rw [← h.1, ← h.2]
      · rename_i hnt
        simp only [Option.some.injEq, Prod.mk.injEq] at h
        rw [h.2] at hnt
        exact absurd ht hnt

theorem call_action_terminate (kind : fsm_action_e) (s : Nat) (cb : Option fsm_callback)
    (data : Nat) (fsm : fsm_t) (h : fsm.terminate = true) :
    (call_action kind s cb data fsm).terminate = true := by
  cases cb with
  | none => exact h
  | some c =>
    cases hc : c.terminate with
    | none => simp [call_action, hc, h]
    | some v => simp [call_action, hc, fsm_terminate]

/-- Processing one record in a well-formed tree when the nearest source state
has exactly one edge for the event. -/
theorem process_event_single_wf (g : state_graph) (D fuel : Nat) (fsm : fsm_t) (e : Int)
    (data c j s t : Nat) (tr : fsm_transition_t) (hwf : well_formed g D) (hD : 1 ≤ D)
    (hc : fsm.current_state = some c) (hnear : nearest_source g fsm.transitions c e j s)
    (hone : edges_of fsm.transitions s e = [tr]) (htr : tr.target_state = some t)
    (hf : 2 * D + 2 ≤ fuel) :
    ∃ ret f2 leaf L k, fsm_process_event g fuel ⟨e, data⟩ fsm = some (ret, f2) ∧
      default_leaf g t leaf ∧ find_lca g fuel (some c) (some t) = some L ∧
      up g k (some c) = L ∧ (∀ i, i < k → up g i (some c) ≠ L) ∧
      f2.current_state = some leaf ∧
      f2.trace = fsm.trace ++ exit_calls g data (chain g k (some c)) ++
        entry_calls g data (build_path g L MAX_HIERARCHY_DEPTH (some leaf)).reverse := by
  have hdc := well_formed_up_none g D hwf hD c
  have hdt := well_formed_up_none g D hwf hD t
  obtain ⟨la, hla, d1⟩ := has_depth_of_up_none g D _ hdc
  obtain ⟨lb, hlb, d2⟩ := has_depth_of_up_none g D _ hdt
  obtain ⟨L, hL, _⟩ := find_lca_spec g c t la lb fuel d1 d2 (by omega)
  obtain ⟨leaf, hleaf, _, hres⟩ := resolve_default_wf g D hwf hD t
  obtain ⟨k, ret, f2, hp, hk, hkmin, _, htrace, hcur, _⟩ :=
    process_event_single g D fuel fsm e data c j s t leaf tr L hc hdc hdt hnear hone htr hL
      (hres fuel (by omega)) hf
  exact ⟨ret, f2, leaf, L, k, hp, hleaf, hL, hk, hkmin, hcur, htrace⟩

/-- C20: in an `fsm_run` call on a running engine whose pending records are
`pre ++ ev :: post`, where the loop body of `fsm_process_events` goes through
`pre` without stopping and leaves termination requested after the record `ev`,
the draining stops after `ev`: `fsm_run` returns, the current state is the one
the loop body for `ev` left, termination stays requested, the only call after
those of the loop body for `ev` is the run action of that state (no exit or
entry action), and the records `post` are still in the queue, delivered in
order by the following `ringbuff_get` calls.  Moreover the transition in flight
is applied in full: in a well-formed tree, when the nearest state with an edge
for `ev` has exactly one such edge, every exit action from the current state up
to the least common ancestor and every entry action down to the default leaf of
the target are called, and that leaf is the current state. -/
theorem fsm_run_stops_draining (g : state_graph) (fuel : Nat) (fsm f1 f2 : fsm_t)
    (vs pre post : List fsm_events_t) (r0 : Nat) (ev : fsm_events_t) (ret : Option Int)
    (c2 : Nat)
    (hrep : rb_rep fsm.event_queue fsm.events_buff vs r0)
    (hpend : vs.drop r0 = pre ++ ev :: post)
    (hterm : fsm.terminate = false)
    (hpre : process_all g fuel pre fsm = some f1)
    (hproc : fsm_process_event g fuel ev f1 = some (ret, f2))
    (hreq : f2.terminate = true)
    (hc2 : f2.current_state = some c2)
    (hfuel : pre.length + 1 ≤ fuel) :
    (∃ r, fsm_run g fuel fsm = some (0, r) ∧ r.current_state = some c2 ∧
      r.terminate = true ∧ r.trace = f2.trace ++ run_calls g f2.current_data c2 ∧
      ∀ d n, post.length ≤ n →
        ∃ rb1, ringbuff_get_all r.events_buff d n r.event_queue = some (post, rb1)) ∧
    (∀ D c j s t tr, well_formed g D → 1 ≤ D → 2 * D + 2 ≤ fuel →
      f1.current_state = some c → nearest_source g f1.transitions c ev.event j s →
      edges_of f1.transitions s ev.event = [tr] → tr.target_state = some t →
      ∃ leaf L k, default_leaf g t leaf ∧ find_lca g fuel (some c) (some t) = some L ∧
        up g k (some c) = L ∧ (∀ i, i < k → up g i (some c) ≠ L) ∧
        f2.current_state = some leaf ∧
        f2.trace = f1.trace ++ exit_calls g ev.data (chain g k (some c)) ++
          entry_calls g ev.data (build_path g L MAX_HIERARCHY_DEPTH (some leaf)).reverse) := by
  constructor
  · obtain ⟨q1, hrep1, hloop1⟩ := drain_all g fuel fsm.events_buff vs pre (ev :: post) r0
      fsm.event_queue fsm f1 hrep hpend hpre
    have hd : vs.drop (r0 + pre.length) = ev :: post := by
      have := congrArg (List.drop pre.length) hpend
      rw [List.drop_drop, List.drop_left] at this
      exact this
    obtain ⟨hlt, hev, hdrop⟩ := drop_cons_getElem? vs (r0 + pre.length) ev post hd
    obtain ⟨q2, hrep2, hloop2⟩ := drain_step g fuel f1 f2 q1 fsm.events_buff vs
      (r0 + pre.length) ev ret hrep1 hlt hev hproc
    have hret := fsm_process_event_returns g fuel ev f1 f2 ret hproc hreq
    obtain ⟨n, hn⟩ : ∃ n, fuel = n + 1 + pre.length := ⟨fuel - 1 - pre.length, by omega⟩
    have hproc2 : fsm_process_events g fuel fsm =
        some (f2.terminate_val, set_queue q2 fsm.events_buff f2) := by
      have hfs : fsm = set_queue fsm.event_queue fsm.events_buff fsm := rfl
      unfold fsm_process_events
      obtain ⟨ce1, h1⟩ := hloop1 (n + 1) ⟨0, 0⟩
      rw [hfs]
      have h2 := hloop2 n ce1
      rw [hret] at h2
      conv => lhs; arg 3; rw [hn]
      rw [h1, h2]
      rfl
    obtain ⟨t1, _, t3, _⟩ := call_action_spec .ACTION_RUN c2 (deref g c2).run_action
      f2.current_data f2
    have hpost : vs.length - (r0 + pre.length + 1) = post.length := by
      rw [← hdrop, List.length_drop]
    refine ⟨set_queue q2 fsm.events_buff
      (call_action .ACTION_RUN c2 (deref g c2).run_action f2.current_data f2), ?_, ?_, ?_, ?_, ?_⟩
    · unfold fsm_run
      simp only [hterm, hproc2, Option.some_bind]
      have hcs : (set_queue q2 fsm.events_buff f2).current_state = some c2 := hc2
      simp only [hcs, Bool.false_eq_true, if_false]
      rw [call_action_set_queue]
      rfl
    · exact t3.trans hc2
    · exact call_action_terminate _ _ _ _ f2 hreq
    · exact t1
    · intro d n hle
      obtain ⟨rb1, hall, _⟩ := ringbuff_get_all_rep fsm.events_buff d vs post.length
        (r0 + pre.length + 1) q2 hrep2 hpost n hle
      rw [hdrop] at hall
      exact ⟨rb1, hall⟩
  · intro D c j s t tr hwf hD hf hc hnear hone htr
    obtain ⟨ret1, f3, leaf, L, k, hp, hleaf, hL, hk, hkmin, hcur, htrace⟩ :=
      process_event_single_wf g D fuel f1 ev.event ev.data c j s t tr hwf hD hc hnear hone htr hf
    have he : (⟨ev.event, ev.data⟩ : fsm_events_t) = ev := rfl
    rw [he, hproc] at hp
    have h23 : f2 = f3 := (Prod.mk.inj (Option.some.inj hp)).2
    subst h23
    exact ⟨leaf, L, k, hleaf, hL, hk, hkmin, hcur, htrace⟩

/-- The queue of `engine_with_events trs c evs` holds the records `evs`, none of
them consumed or overwritten, when they are fewer than its 64 slots. -/
theorem engine_with_events_rep (trs : List fsm_transition_t) (c : Nat)
    (evs : List fsm_events_t) (h : evs.length < 64) :
    rb_rep (engine_with_events trs c evs).event_queue (engine_with_events trs c evs).events_buff
      evs 0 := by
  have h0 := (ringbuff_put_list_rep evs ⟨4096, 64, 16, 4096, 4096⟩
    (fun _ => (⟨0, 0⟩ : fsm_events_t)) [] 0
    (rb_rep_init 4096 64 16 _ (by decide) (by decide) (by decide))).1
  have hm : max 0 (([] : List fsm_events_t).length + evs.length + 1 - 64) = 0 := by
    simp only [List.length_nil]; omega
  have hm2 : max 0 (([] : List fsm_events_t).length + evs.length + 1 -
      ({ buf := 4096, len := 64, data_size := 16, p_read := 4096, p_write := 4096 } :
        ringbuff).len) = 0 := hm
  rw [hm2, List.nil_append] at h0
  exact h0

theorem fsm_run_stops_draining_witness :
    (∃ r, fsm_run (flat_states (terminating 7)) 10
        (engine_with_events round_transitions 4 [⟨6, 0⟩, ⟨5, 0⟩, ⟨6, 0⟩]) = some (0, r) ∧
      r.current_state = some 3 ∧ r.terminate = true ∧
      r.trace = (round_after_second [⟨6, 0⟩, ⟨5, 0⟩, ⟨6, 0⟩]).trace ++
        run_calls (flat_states (terminating 7))
          (round_after_second [⟨6, 0⟩, ⟨5, 0⟩, ⟨6, 0⟩]).current_data 3 ∧
      ∀ d n, [(⟨6, 0⟩ : fsm_events_t)].length ≤ n →
        ∃ rb1, ringbuff_get_all r.events_buff d n r.event_queue = some ([⟨6, 0⟩], rb1)) ∧
    (∃ leaf L k, default_leaf (flat_states (terminating 7)) 3 leaf ∧
      find_lca (flat_states (terminating 7)) 10 (some 2) (some 3) = some L ∧
      up (flat_states (terminating 7)) k (some 2) = L ∧
      (∀ i, i < k → up (flat_states (terminating 7)) i (some 2) ≠ L) ∧
      (round_after_second [⟨6, 0⟩, ⟨5, 0⟩, ⟨6, 0⟩]).current_state = some leaf ∧
      (round_after_second [⟨6, 0⟩, ⟨5, 0⟩, ⟨6, 0⟩]).trace =
        (round_after_first [⟨6, 0⟩, ⟨5, 0⟩, ⟨6, 0⟩]).trace ++
          exit_calls (flat_states (terminating 7)) 0
            (chain (flat_states (terminating 7)) k (some 2)) ++
          entry_calls (flat_states (terminating 7)) 0
            (build_path (flat_states (terminating 7)) L MAX_HIERARCHY_DEPTH
              (some leaf)).reverse) :=
  ⟨(fsm_run_stops_draining (flat_states (terminating 7)) 10
      (engine_with_events round_transitions 4 [⟨6, 0⟩, ⟨5, 0⟩, ⟨6, 0⟩])
      (round_after_first [⟨6, 0⟩, ⟨5, 0⟩, ⟨6, 0⟩]) (round_after_second [⟨6, 0⟩, ⟨5, 0⟩, ⟨6, 0⟩])
      [⟨6, 0⟩, ⟨5, 0⟩, ⟨6, 0⟩] [⟨6, 0⟩] [⟨6, 0⟩] 0 ⟨5, 0⟩ (some 7) 3
      (engine_with_events_rep round_transitions 4 [⟨6, 0⟩, ⟨5, 0⟩, ⟨6, 0⟩] (by decide))
      rfl rfl rfl rfl rfl rfl (by decide)).1,
   (fsm_run_stops_draining (flat_states (terminating 7)) 10
      (engine_with_events round_transitions 4 [⟨6, 0⟩, ⟨5, 0⟩, ⟨6, 0⟩])
      (round_after_first [⟨6, 0⟩, ⟨5, 0⟩, ⟨6, 0⟩]) (round_after_second [⟨6, 0⟩, ⟨5, 0⟩, ⟨6, 0⟩])
      [⟨6, 0⟩, ⟨5, 0⟩, ⟨6, 0⟩] [⟨6, 0⟩] [⟨6, 0⟩] 0 ⟨5, 0⟩ (some 7) 3
      (engine_with_events_rep round_transitions 4 [⟨6, 0⟩, ⟨5, 0⟩, ⟨6, 0⟩] (by decide))
      rfl rfl rfl rfl rfl rfl (by decide)).2 2 2 0 2 3 (FSM_TRANSITION_CREATE 2 5 3)
      (by decide) (by decide) (by decide) rfl (by decide) rfl rfl⟩

/-! ## find_lca: number of loop steps -/

theorem find_lca_loop_mono (g : state_graph) (s1 s2 : state_ptr) (n : Nat) :
    ∀ (a b p : state_ptr), find_lca_loop g s1 s2 n a b = some p →
      ∀ m, n ≤ m → find_lca_loop g s1 s2 m a b = some p := by
  induction n with
  | zero =>
    intro a b p h m _
    by_cases hab : a = b
    · subst hab
      rw [find_lca_loop_eq] at h
      rw [find_lca_loop_eq]; exact h
    · simp [find_lca_loop, hab] at h
  | succ n ih =>
    intro a b p h m hm
    obtain ⟨m1, rfl⟩ : ∃ m1, m = m1 + 1 := ⟨m - 1, by omega⟩
    by_cases hab : a = b
    · subst hab
      rw [find_lca_loop_eq] at h
      rw [find_lca_loop_eq]; exact h
    · cases a with
      | none =>
        cases b with
        | none => exact absurd rfl hab
        | some y =>
          rw [find_lca_loop_reset_a] at h
          rw [find_lca_loop_reset_a]
          exact ih _ _ _ h m1 (by omega)
      | some x =>
        cases b with
        | none =>
          rw [find_lca_loop_reset_b] at h
          rw [find_lca_loop_reset_b]
          exact ih _ _ _ h m1 (by omega)
        | some y =>
          have hxy : x ≠ y := fun e => hab (by rw [e])
          rw [find_lca_loop_step g s1 s2 _ x y hxy] at h
          rw [find_lca_loop_step g s1 s2 _ x y hxy]
          exact ih _ _ _ h m1 (by omega)

/-- Exchanging the two arguments of the walk exchanges the two cursors. -/
theorem find_lca_loop_swap (g : state_graph) (s1 s2 : state_ptr) (n : Nat) :
    ∀ (a b : state_ptr), find_lca_loop g s1 s2 n a b = find_lca_loop g s2 s1 n b a := by
  induction n with
  | zero =>
    intro a b
    by_cases hab : a = b
    · subst hab; rw [find_lca_loop_eq, find_lca_loop_eq]
    · have hba : ¬ b = a := fun e => hab e.symm
      simp [find_lca_loop, hab, hba]
  | succ n ih =>
    intro a b
    by_cases hab : a = b
    · subst hab; rw [find_lca_loop_eq, find_lca_loop_eq]
    · cases a with
      | none =>
        cases b with
        | none => exact absurd rfl hab
        | some y =>
          rw [find_lca_loop_reset_a, find_lca_loop_reset_b]
          exact ih _ _
      | some x =>
        cases b with
        | none =>
          rw [find_lca_loop_reset_b, find_lca_loop_reset_a]
          exact ih _ _
        | some y =>
          have hxy : x ≠ y := fun e => hab (by rw [e])
          rw [find_lca_loop_step g s1 s2 _ x y hxy, find_lca_loop_step g s2 s1 _ y x hxy.symm]
          exact ih _ _

/-- Two cursors that are `k` steps below a common state meet within `k` steps. -/
theorem find_lca_loop_meet (g : state_graph) (s1 s2 : state_ptr) (k : Nat) :
    ∀ (a b : state_ptr) (fuel c : Nat), up g k a = some c → up g k b = some c → k ≤ fuel →
      ∃ p, find_lca_loop g s1 s2 fuel a b = some p := by
  induction k with
  | zero =>
    intro a b fuel c ha hb _
    have ea : a = some c := ha
    have eb : b = some c := hb
    rw [ea, eb]
    exact ⟨_, find_lca_loop_eq g s1 s2 _ fuel⟩
  | succ k ih =>
    intro a b fuel c ha hb hf
    by_cases hab : a = b
    · subst hab
      exact ⟨_, find_lca_loop_eq g s1 s2 _ fuel⟩
    · cases a with
      | none => rw [up_none] at ha; cases ha
      | some x =>
        cases b with
        | none => rw [up_none] at hb; cases hb
        | some y =>
          obtain ⟨f, rfl⟩ : ∃ f, fuel = f + 1 := ⟨fuel - 1, by omega⟩
          have hxy : x ≠ y := fun e => hab (by rw [e])
          rw [find_lca_loop_step g s1 s2 f x y hxy]
          exact ih _ _ f c ha hb (by omega)

/-- Two states of one tree with chains of `la < lb` states: the walk ends within
`la + lb + 1` steps. -/
theorem find_lca_terminates_lt (g : state_graph) (x1 x2 la lb fuel i j c : Nat)
    (h1 : has_depth g (some x1) la) (h2 : has_depth g (some x2) lb) (hlt : la < lb)
    (hi : up g i (some x1) = some c) (hj : up g j (some x2) = some c)
    (hf : la + lb + 1 ≤ fuel) :
    ∃ p, find_lca g fuel (some x1) (some x2) = some p := by
  have hla := has_depth_pos g x1 la h1
  have hin : i < la := up_lt_depth g _ la i c h1 hi
  have hjn : j < lb := up_lt_depth g _ lb j c h2 hj
  have c1 := has_depth_up g _ la i h1 (by omega)
  have c2 := has_depth_up g _ lb j h2 (by omega)
  rw [hi] at c1
  rw [hj] at c2
  have hij := has_depth_unique g _ _ _ c1 c2
  unfold find_lca
  obtain ⟨f, rfl⟩ : ∃ f, fuel = ((((f + (la - 1)) + 1) + (lb - la)) + 1) + la :=
    ⟨fuel - (la + lb + 1), by omega⟩
  rw [find_lca_loop_skip g _ _ la _ _ la lb _ h1 h2 (by omega) (by omega) (by omega)]
  rw [h1.1]
  have d2 := has_depth_up g (some x2) lb la h2 (by omega)
  obtain ⟨y, hy⟩ : ∃ y, up g la (some x2) = some y := by
    cases h : up g la (some x2) with
    | none => exact absurd h (h2.2 la hlt)
    | some y => exact ⟨y, rfl⟩
  rw [hy, find_lca_loop_reset_a]
  rw [hy] at d2
  rw [find_lca_loop_skip g _ _ (lb - la) _ _ lb (lb - la) _ h2 d2 (by omega) (by omega)
    (by omega)]
  have e1 : up g (lb - la) (some y) = none := by
    rw [← hy, ← up_add]
    have : la + (lb - la) = lb := by omega
    rw [this]; exact h2.1
  rw [e1]
  obtain ⟨z, hz⟩ : ∃ z, up g (lb - la) (some x2) = some z := by
    cases h : up g (lb - la) (some x2) with
    | none => exact absurd h (h2.2 (lb - la) (by omega))
    | some z => exact ⟨z, rfl⟩
  rw [hz, find_lca_loop_reset_b]
  refine find_lca_loop_meet g _ _ i (some z) (some x1) _ c ?_ hi (by omega)
  rw [← hz, ← up_add]
  have e : lb - la + i = j := by omega
  rw [e]; exact hj

theorem find_lca_swap (g : state_graph) (fuel : Nat) (s1 s2 : state_ptr) :
    find_lca g fuel s1 s2 = find_lca g fuel s2 s1 :=
  find_lca_loop_swap g s1 s2 fuel s1 s2

/-- Number of loop steps of `find_lca` for chains of `la` and `lb` states:
`la` steps suffice for chains of equal length, `la + lb + 2` steps in general,
`la + lb + 1` steps when the two states have a common ancestor. -/
theorem find_lca_steps (g : state_graph) (x1 x2 la lb fuel : Nat)
    (h1 : has_depth g (some x1) la) (h2 : has_depth g (some x2) lb) :
    (la = lb → la ≤ fuel → ∃ p, find_lca g fuel (some x1) (some x2) = some p) ∧
    (la + lb + 2 ≤ fuel → ∃ p, find_lca g fuel (some x1) (some x2) = some p) ∧
    (la ≠ lb → (∃ c, is_ancestor_or_self g c x1 ∧ is_ancestor_or_self g c x2) →
      la + lb + 1 ≤ fuel → ∃ p, find_lca g fuel (some x1) (some x2) = some p) := by
  refine ⟨?_, ?_, ?_⟩
  · intro he hf
    subst he
    obtain ⟨k, hk, _⟩ := find_lca_loop_lockstep g (some x1) (some x2) la (some x1) (some x2)
      fuel h1 h2 hf
    exact ⟨_, hk⟩
  · intro hf
    obtain ⟨p, hp, _⟩ := find_lca_spec g x1 x2 la lb fuel h1 h2 hf
    exact ⟨p, hp⟩
  · rintro hne ⟨c, ⟨i, hi⟩, ⟨j, hj⟩⟩ hf
    rcases Nat.lt_or_gt_of_ne hne with hlt | hgt
    · exact find_lca_terminates_lt g x1 x2 la lb fuel i j c h1 h2 hlt hi hj hf
    · rw [find_lca_swap]
      exact find_lca_terminates_lt g x2 x1 lb la fuel j i c h2 h1 hgt hj hi (by omega)

/-- The result of `find_lca` does not depend on the fuel, once it is enough. -/
theorem find_lca_is_lca (g : state_graph) (x1 x2 la lb fuel : Nat) (p : state_ptr)
    (h1 : has_depth g (some x1) la) (h2 : has_depth g (some x2) lb)
    (hp : find_lca g fuel (some x1) (some x2) = some p) : is_lca g x1 x2 p := by
  obtain ⟨q, hq, hlca⟩ := find_lca_spec g x1 x2 la lb (fuel + (la + lb + 2)) h1 h2 (by omega)
  have := find_lca_loop_mono g (some x1) (some x2) fuel _ _ p hp (fuel + (la + lb + 2))
    (by omega)
  have e : some p = some q := this.symm.trans hq
  rw [Option.some.inj e]
  exact hlca

/-- C21 (as the code behaves): in a graph whose ancestor chains have at most `D`
states (acyclic parent links, depth at most `D` counted in states), the
two-cursor walk of `find_lca` on any two states ends within `2 * D + 1` loop
steps and delivers the least common ancestor (`NULL` for states of different
trees); when the two states have a common ancestor, it ends within `2 * D`
steps. -/
theorem find_lca_terminates (g : state_graph) (D x1 x2 : Nat) (hD : chains_end g D)
    (hx1 : x1 < g.length) (hx2 : x2 < g.length) :
    (∃ p, find_lca g (2 * D + 1) (some x1) (some x2) = some p ∧ is_lca g x1 x2 p) ∧
    ((∃ c, is_ancestor_or_self g c x1 ∧ is_ancestor_or_self g c x2) →
      ∃ p, find_lca g (2 * D) (some x1) (some x2) = some p ∧ is_lca g x1 x2 p) := by
  obtain ⟨la, hla, h1⟩ := has_depth_of_up_none g D _ (hD x1 hx1)
  obtain ⟨lb, hlb, h2⟩ := has_depth_of_up_none g D _ (hD x2 hx2)
  obtain ⟨s1, s2, s3⟩ := find_lca_steps g x1 x2 la lb (2 * D + 1) h1 h2
  obtain ⟨t1, _, t3⟩ := find_lca_steps g x1 x2 la lb (2 * D) h1 h2
  constructor
  · by_cases he : la = lb
    · obtain ⟨p, hp⟩ := s1 he (by omega)
      exact ⟨p, hp, find_lca_is_lca g x1 x2 la lb _ p h1 h2 hp⟩
    · obtain ⟨p, hp⟩ := s2 (by omega)
      exact ⟨p, hp, find_lca_is_lca g x1 x2 la lb _ p h1 h2 hp⟩
  · intro hc
    by_cases he : la = lb
    · obtain ⟨p, hp⟩ := t1 he (by omega)
      exact ⟨p, hp, find_lca_is_lca g x1 x2 la lb _ p h1 h2 hp⟩
    · obtain ⟨p, hp⟩ := t3 he hc (by omega)
      exact ⟨p, hp, find_lca_is_lca g x1 x2 la lb _ p h1 h2 hp⟩

theorem find_lca_terminates_witness :
    chains_end side_branch 3 ∧ 4 < side_branch.length ∧ 3 < side_branch.length ∧
    (∃ p, find_lca side_branch (2 * 3 + 1) (some 4) (some 3) = some p ∧
      is_lca side_branch 4 3 p) ∧
    (∃ p, find_lca side_branch (2 * 3) (some 4) (some 3) = some p ∧
      is_lca side_branch 4 3 p) :=
  ⟨by decide, by decide, by decide,
    (find_lca_terminates side_branch 3 4 3 (by decide) (by decide) (by decide)).1,
    (find_lca_terminates side_branch 3 4 3 (by decide) (by decide) (by decide)).2
      ⟨1, ⟨1, rfl⟩, ⟨2, rfl⟩⟩⟩

/-- C21 as stated fails for states of different trees: in the graph `two_trees`
every ancestor chain has at most `2` states (and one has `2`), but the walk
of `find_lca` on the states `1` and `3` has not ended after `2 * 2` loop
steps; it ends with the fifth step, delivering `NULL`.  In one tree the bound
`2 * D` is attained: on `side_branch` (depth `3`) the states `4` and `3` need
six steps. -/
theorem find_lca_two_trees_counterexample :
    chains_end two_trees 2 ∧ ¬ chains_end two_trees 1 ∧
    find_lca two_trees (2 * 2) (some 1) (some 3) = none ∧
    find_lca two_trees (2 * 2 + 1) (some 1) (some 3) = some none ∧
    chains_end side_branch 3 ∧
    find_lca side_branch 5 (some 4) (some 3) = none ∧
    find_lca side_branch 6 (some 4) (some 3) = some (some 1) := by
  decide

/-! ## enter_state: the bounded path array -/

theorem build_path_length (g : state_graph) (L : state_ptr) (n : Nat) :
    ∀ p, (build_path g L n p).length ≤ n := by
  induction n with
  | zero => intro p; simp [build_path]
  | succ n ih =>
    intro p
    cases p with
    | none => simp [build_path]
    | some x =>
      by_cases h : some x = L
      · simp [build_path, h]
      · simp only [build_path, if_neg h, List.length_cons]
        have := ih (deref g x).parent
        omega

/-- When the walk does not reach `L` within `n` steps, the path array is filled
with the first `n` states of the ancestor chain. -/
theorem build_path_full (g : state_graph) (L : state_ptr) (n : Nat) :
    ∀ p, (∀ i, i < n → up g i p ≠ L) → build_path g L n p = chain g n p := by
  induction n with
  | zero => intro p _; simp [build_path, chain]
  | succ n ih =>
    intro p hmin
    cases p with
    | none => simp [build_path, chain]
    | some x =>
      have hne : some x ≠ L := hmin 0 (by omega)
      simp only [build_path, if_neg hne, chain]
      rw [ih (deref g x).parent (fun i hi => hmin (i + 1) (by omega))]

theorem chain_take (g : state_graph) (n : Nat) :
    ∀ (m : Nat) (p : state_ptr), n ≤ m → (chain g m p).take n = chain g n p := by
  induction n with
  | zero => intro m p _; simp [chain]
  | succ n ih =>
    intro m p hm
    obtain ⟨m1, rfl⟩ : ∃ m1, m = m1 + 1 := ⟨m - 1, by omega⟩
    cases p with
    | none => simp [chain]
    | some x =>
      simp only [chain, List.take_succ_cons]
      rw [ih m1 _ (by omega)]

theorem chain_length (g : state_graph) (m : Nat) :
    ∀ p, (∀ i, i < m → up g i p ≠ none) → (chain g m p).length = m := by
  induction m with
  | zero => intro p _; simp [chain]
  | succ m ih =>
    intro p h
    cases p with
    | none => exact absurd rfl (h 0 (by omega))
    | some x =>
      simp only [chain, List.length_cons]
      rw [ih (deref g x).parent (fun i hi => h (i + 1) (by omega))]

/-- The path array of `enter_state` for a path of `m` states from the leaf up to
`L` (exclusive): the first `MAX_HIERARCHY_DEPTH` states of that path. -/
theorem build_path_truncated (g : state_graph) (L : state_ptr) (m : Nat) (p : state_ptr)
    (hm : up g m p = L) (hmin : ∀ i, i < m → up g i p ≠ L) :
    build_path g L MAX_HIERARCHY_DEPTH p = (chain g m p).take MAX_HIERARCHY_DEPTH := by
  by_cases hle : m ≤ MAX_HIERARCHY_DEPTH
  · rw [build_path_spec g L m p MAX_HIERARCHY_DEPTH hm hmin hle]
    have hlen : (chain g m p).length ≤ MAX_HIERARCHY_DEPTH := by
      have : ∀ (k : Nat) (q : state_ptr), (chain g k q).length ≤ k := by
        intro k
        induction k with
        | zero => intro q; simp [chain]
        | succ k ih =>
          intro q
          cases q with
          | none => simp [chain]
          | some x =>
            simp only [chain, List.length_cons]
            have := ih (deref g x).parent
            omega
      have := this m p
      omega
    rw [List.take_of_length_le hlen]
  · rw [build_path_full g L MAX_HIERARCHY_DEPTH p (fun i hi => hmin i (by omega))]
    rw [chain_take g MAX_HIERARCHY_DEPTH m p (by omega)]

/-- C22: `enter_state` on a well-formed tree of any depth.  With `leaf` the
default leaf of the target and a path of `m` states from `leaf` up to `lca`
(exclusive; `lca` may be `NULL`), the path array holds at most
`MAX_HIERARCHY_DEPTH` states, namely the first `MAX_HIERARCHY_DEPTH` states of
that path counted from the leaf; the entry actions of exactly these states are
called, outermost first and the leaf last, so for `m > MAX_HIERARCHY_DEPTH`
the entry actions of the `m - MAX_HIERARCHY_DEPTH` states nearest `lca` are
left out; `current_state` is the leaf in every case. -/
theorem enter_state_truncates (g : state_graph) (D fuel : Nat) (fsm : fsm_t) (lca : state_ptr)
    (t leaf data m : Nat) (hwf : well_formed g D) (hD : 1 ≤ D) (hf : D ≤ fuel)
    (hleaf : default_leaf g t leaf) (hm : up g m (some leaf) = lca)
    (hmin : ∀ i, i < m → up g i (some leaf) ≠ lca) :
    ∃ f1, enter_state g fuel fsm lca (some t) data = some f1 ∧
      f1.current_state = some leaf ∧
      (build_path g lca MAX_HIERARCHY_DEPTH (some leaf)).length ≤ MAX_HIERARCHY_DEPTH ∧
      build_path g lca MAX_HIERARCHY_DEPTH (some leaf) =
        (chain g m (some leaf)).take MAX_HIERARCHY_DEPTH ∧
      (chain g m (some leaf)).length = m ∧
      ((chain g m (some leaf)).take MAX_HIERARCHY_DEPTH).length = min MAX_HIERARCHY_DEPTH m ∧
      f1.trace = fsm.trace ++
        entry_calls g data ((chain g m (some leaf)).take MAX_HIERARCHY_DEPTH).reverse := by
  obtain ⟨leaf1, hleaf1, _, hres⟩ := resolve_default_wf g D hwf hD t
  have e : leaf1 = leaf := default_leaf_unique g t leaf1 leaf hleaf1 hleaf
  subst e
  obtain ⟨f1, hf1, htrace, _, hcur, _⟩ :=
    enter_state_spec g fuel fsm lca t leaf1 data (hres fuel hf)
  have hpath := build_path_truncated g lca m (some leaf1) hm hmin
  have hlen : (chain g m (some leaf1)).length = m := by
    apply chain_length
    intro i hi hnone
    have hmn : up g m (some leaf1) = none := up_none_of_le g i m _ hnone (by omega)
    exact hmin i hi (by rw [hnone, ← hm, hmn])
  refine ⟨f1, hf1, hcur, build_path_length g lca _ _, hpath, hlen, ?_, ?_⟩
  · rw [List.length_take, hlen]
  · rw [htrace, hpath]

theorem enter_state_truncates_witness :
    ∃ f1, enter_state deep_states 10 fresh_fsm (some 1) (some 1) 0 = some f1 ∧
      f1.current_state = some 10 ∧
      (build_path deep_states (some 1) MAX_HIERARCHY_DEPTH (some 10)).length
        ≤ MAX_HIERARCHY_DEPTH ∧
      build_path deep_states (some 1) MAX_HIERARCHY_DEPTH (some 10) =
        (chain deep_states 9 (some 10)).take MAX_HIERARCHY_DEPTH ∧
      (chain deep_states 9 (some 10)).length = 9 ∧
      ((chain deep_states 9 (some 10)).take MAX_HIERARCHY_DEPTH).length
        = min MAX_HIERARCHY_DEPTH 9 ∧
      f1.trace = fresh_fsm.trace ++
        entry_calls deep_states 0
          ((chain deep_states 9 (some 10)).take MAX_HIERARCHY_DEPTH).reverse :=
  enter_state_truncates deep_states 10 10 fresh_fsm (some 1) 1 10 0 9 (by decide) (by decide)
    (by decide)
    (.step 1 2 10 rfl (.step 2 3 10 rfl (.step 3 4 10 rfl (.step 4 5 10 rfl
      (.step 5 6 10 rfl (.step 6 7 10 rfl (.step 7 8 10 rfl (.step 8 9 10 rfl
        (.step 9 10 10 rfl (.leaf 10 rfl))))))))))
    rfl (by decide)

/-! ## Ring buffer: what a sequence of puts leaves -/

/-- C23 (as the code behaves): on a ring buffer freshly initialised with `len`
slots of `data_size >= 1` bytes, with `data_size * len < 2 ^ 32`, after the
puts of `vs` (any number of values) exactly `min vs.length (len - 1)` of the
following `ringbuff_get` calls succeed; they deliver the last
`min vs.length (len - 1)` values of `vs` in the order they were put, and the
next `ringbuff_get` fails, leaving the buffer and the output record
unchanged. -/
theorem ringbuff_keeps_last {α : Type} (buf len ds n : Nat) (mem : Nat → α) (d : α)
    (vs : List α) (hbuf : buf ≠ 0) (hlen : 1 ≤ len) (hds : 1 ≤ ds) (hov : ds * len < 2 ^ 32)
    (hn : min vs.length (len - 1) ≤ n) :
    ∃ rb0 rb1, ringbuff_init buf len ds = some (0, rb0) ∧
      ringbuff_get_all (ringbuff_put_list vs rb0 mem).2 d n (ringbuff_put_list vs rb0 mem).1 =
        some (vs.drop (vs.length - min vs.length (len - 1)), rb1) ∧
      (vs.drop (vs.length - min vs.length (len - 1))).length = min vs.length (len - 1) ∧
      ∀ d1, ringbuff_get rb1 (ringbuff_put_list vs rb0 mem).2 d1 = (-1, rb1, d1) := by
  have hinit : ringbuff_init buf len ds = some (0,
      { buf := buf, len := len, data_size := ds, p_read := buf, p_write := buf }) := by
    have : ¬ (buf = 0 ∨ len = 0) := by omega
    simp [ringbuff_init, this]
  have h0 := rb_rep_init buf len ds mem hds hlen hov
  have h1 := (ringbuff_put_list_rep vs _ mem [] 0 h0).1
  have hr : max 0 (([] : List α).length + vs.length + 1 -
      ({ buf := buf, len := len, data_size := ds, p_read := buf, p_write := buf } :
        ringbuff).len) = vs.length - min vs.length (len - 1) := by
    simp only [List.length_nil]; omega
  rw [hr, List.nil_append] at h1
  obtain ⟨rb1, hall, hrep1⟩ := ringbuff_get_all_rep _ d vs (min vs.length (len - 1))
    (vs.length - min vs.length (len - 1)) _ h1 (by omega) n hn
  refine ⟨_, rb1, hinit, hall, ?_, ?_⟩
  · rw [List.length_drop]; omega
  · intro d1
    exact ringbuff_get_empty rb1 _ vs vs.length d1 hrep1 rfl

theorem ringbuff_keeps_last_witness :
    ∃ rb0 rb1, ringbuff_init 100 4 2 = some (0, rb0) ∧
      ringbuff_get_all (ringbuff_put_list [1, 2, 3, 4, 5] rb0 (fun _ => 0)).2 0 3
          (ringbuff_put_list [1, 2, 3, 4, 5] rb0 (fun _ => 0)).1 =
        some ([1, 2, 3, 4, 5].drop ([1, 2, 3, 4, 5].length - min [1, 2, 3, 4, 5].length (4 - 1)),
          rb1) ∧
      ([1, 2, 3, 4, 5].drop
        ([1, 2, 3, 4, 5].length - min [1, 2, 3, 4, 5].length (4 - 1))).length =
        min [1, 2, 3, 4, 5].length (4 - 1) ∧
      ∀ d1, ringbuff_get rb1 (ringbuff_put_list [1, 2, 3, 4, 5] rb0 (fun _ => 0)).2 d1 =
        (-1, rb1, d1) :=
  ringbuff_keeps_last 100 4 2 3 (fun _ => 0) 0 [1, 2, 3, 4, 5]
    (by decide) (by decide) (by decide) (by decide) (by decide)

/-! ## Ring buffer: the cursors stay on slots of the storage -/

/-- Advancing a cursor that points at a slot gives a cursor that points at a
slot, whether or not the product `data_size * len` wraps in `uint32_t`. -/
theorem at_slot_advance (rb : ringbuff) (p : Nat) (hlen : 1 ≤ rb.len) (h : at_slot rb p) :
    at_slot rb (if p + rb.data_size ≥ ringbuff_end rb then rb.buf else p + rb.data_size) := by
  obtain ⟨i, hi, hp⟩ := h
  by_cases hge : p + rb.data_size ≥ ringbuff_end rb
  · rw [if_pos hge]
    exact ⟨0, by omega, by simp⟩
  · rw [if_neg hge]
    refine ⟨i + 1, ?_, ?_⟩
    · unfold ringbuff_end at hge
      have hmod : (rb.data_size * rb.len) % 2 ^ 32 ≤ rb.data_size * rb.len := Nat.mod_le _ _
      have hlt : (i + 1) * rb.data_size < rb.data_size * rb.len := by
        have : (i + 1) * rb.data_size = i * rb.data_size + rb.data_size := by ring
        omega
      by_contra hnot
      have hle : rb.len ≤ i + 1 := by omega
      have := Nat.mul_le_mul_left rb.data_size hle
      rw [Nat.mul_comm rb.data_size (i + 1)] at this
      omega
    · rw [hp]; ring

/-- The cursors of the ring buffer after `ringbuff_put`. -/
theorem ringbuff_put_cursors {α : Type} (rb : ringbuff) (mem : Nat → α) (v : α) :
    (ringbuff_put rb mem v).2.1 =
      { rb with
        p_write :=
          if rb.p_write + rb.data_size ≥ ringbuff_end rb then rb.buf
          else rb.p_write + rb.data_size,
        p_read :=
          if (if rb.p_write + rb.data_size ≥ ringbuff_end rb then rb.buf
              else rb.p_write + rb.data_size) = rb.p_read then
            (if rb.p_read + rb.data_size ≥ ringbuff_end rb then rb.buf
              else rb.p_read + rb.data_size)
          else rb.p_read } := by
  unfold ringbuff_put
  simp only
  split <;> split <;> rfl

/-- The cursors of the ring buffer after `ringbuff_get`. -/
theorem ringbuff_get_cursors {α : Type} (rb : ringbuff) (mem : Nat → α) (d : α) :
    (ringbuff_get rb mem d).2.1 =
      { rb with
        p_read :=
          if rb.p_write ≠ rb.p_read then
            (if rb.p_read + rb.data_size ≥ ringbuff_end rb then rb.buf
              else rb.p_read + rb.data_size)
          else rb.p_read } := by
  unfold ringbuff_get
  split <;> rfl

/-- Invariant of the reachable ring buffers: there is at least one slot and both
cursors point at slots. -/
theorem rb_states_inv {α : Type} (rb : ringbuff) (h : rb_states α rb) :
    1 ≤ rb.len ∧ at_slot rb rb.p_read ∧ at_slot rb rb.p_write := by
  induction h with
  | init buf len ds rb hlen _ hinit =>
    unfold ringbuff_init at hinit
    split at hinit
    · cases hinit
    · simp only [Option.some.injEq, Prod.mk.injEq, true_and] at hinit
      subst hinit
      exact ⟨hlen, ⟨0, hlen, by simp⟩, ⟨0, hlen, by simp⟩⟩
  | put rb mem v _ ih =>
    obtain ⟨hlen, hr, hw⟩ := ih
    have hw1 := at_slot_advance rb rb.p_write hlen hw
    have hr1 := at_slot_advance rb rb.p_read hlen hr
    rw [ringbuff_put_cursors]
    refine ⟨hlen, ?_, hw1⟩
    show at_slot rb
      (if (if rb.p_write + rb.data_size ≥ ringbuff_end rb then rb.buf
            else rb.p_write + rb.data_size) = rb.p_read then
          (if rb.p_read + rb.data_size ≥ ringbuff_end rb then rb.buf
            else rb.p_read + rb.data_size)
        else rb.p_read)
    by_cases he : (if rb.p_write + rb.data_size ≥ ringbuff_end rb then rb.buf
        else rb.p_write + rb.data_size) = rb.p_read
    · rw [if_pos he]; exact hr1
    · rw [if_neg he]; exact hr
  | get rb mem d _ ih =>
    obtain ⟨hlen, hr, hw⟩ := ih
    have hr1 := at_slot_advance rb rb.p_read hlen hr
    rw [ringbuff_get_cursors]
    refine ⟨hlen, ?_, hw⟩
    show at_slot rb
      (if rb.p_write ≠ rb.p_read then
          (if rb.p_read + rb.data_size ≥ ringbuff_end rb then rb.buf
            else rb.p_read + rb.data_size)
        else rb.p_read)
    by_cases he : rb.p_write ≠ rb.p_read
    · rw [if_pos he]; exact hr1
    · rw [if_neg he]; exact hr
  | flush rb _ ih =>
    obtain ⟨hlen, _, hw⟩ := ih
    exact ⟨hlen, hw, hw⟩

/-- C24: in every ring buffer reachable from `ringbuff_init` (`len >= 1`,
`data_size >= 1`) by `ringbuff_put`, `ringbuff_get` and `ringbuff_flush`, the
read cursor and the write cursor are `buf + i * data_size` for slot numbers
`i < len`, so the `data_size` bytes that the next `ringbuff_get` reads and the
next `ringbuff_put` writes lie inside the `len * data_size` bytes of storage
that start at `buf`. -/
theorem ringbuff_cursors_in_storage {α : Type} (rb : ringbuff) (h : rb_states α rb) :
    (∃ i j, i < rb.len ∧ j < rb.len ∧ rb.p_read = rb.buf + i * rb.data_size ∧
      rb.p_write = rb.buf + j * rb.data_size) ∧
    rb.buf ≤ rb.p_read ∧ rb.p_read + rb.data_size ≤ rb.buf + rb.len * rb.data_size ∧
    rb.buf ≤ rb.p_write ∧ rb.p_write + rb.data_size ≤ rb.buf + rb.len * rb.data_size := by
  obtain ⟨_, ⟨i, hi, hr⟩, ⟨j, hj, hw⟩⟩ := rb_states_inv rb h
  have hb : ∀ k, k < rb.len → rb.buf + k * rb.data_size + rb.data_size
      ≤ rb.buf + rb.len * rb.data_size := by
    intro k hk
    have h1 : (k + 1) * rb.data_size ≤ rb.len * rb.data_size :=
      Nat.mul_le_mul_right rb.data_size (by omega)
    have h2 : (k + 1) * rb.data_size = k * rb.data_size + rb.data_size := by ring
    omega
  refine ⟨⟨i, j, hi, hj, hr, hw⟩, ?_, ?_, ?_, ?_⟩
  · rw [hr]; omega
  · rw [hr]; exact hb i hi
  · rw [hw]; omega
  · rw [hw]; exact hb j hj

theorem ringbuff_cursors_in_storage_witness :
    (∃ i j, i < three_puts.1.len ∧ j < three_puts.1.len ∧
      three_puts.1.p_read = three_puts.1.buf + i * three_puts.1.data_size ∧
      three_puts.1.p_write = three_puts.1.buf + j * three_puts.1.data_size) ∧
    three_puts.1.buf ≤ three_puts.1.p_read ∧
    three_puts.1.p_read + three_puts.1.data_size ≤
      three_puts.1.buf + three_puts.1.len * three_puts.1.data_size ∧
    three_puts.1.buf ≤ three_puts.1.p_write ∧
    three_puts.1.p_write + three_puts.1.data_size ≤
      three_puts.1.buf + three_puts.1.len * three_puts.1.data_size :=
  ringbuff_cursors_in_storage three_puts.1
    (rb_states.put _ _ (3 : Nat) (rb_states.put _ _ (2 : Nat) (rb_states.put _ _ (1 : Nat)
      (rb_states.init 100 2 3 ⟨100, 2, 3, 100, 100⟩ (by decide) (by decide) (by decide)))))

/-- On the chart `deep_states`, `fsm_init` at the root `1` makes the leaf `10`
current and calls the entry actions of the states `3` to `10`: the state `2`
did not fit into the path array and its entry action is left out. -/
theorem fsm_init_deep_states :
    (fsm_init deep_states 10 fresh_fsm [] (some 1) 0).map
      (fun f => (f.current_state, f.trace)) =
    some (some 10,
      [⟨.ACTION_ENTRY, 3, 0⟩, ⟨.ACTION_ENTRY, 4, 0⟩, ⟨.ACTION_ENTRY, 5, 0⟩,
        ⟨.ACTION_ENTRY, 6, 0⟩, ⟨.ACTION_ENTRY, 7, 0⟩, ⟨.ACTION_ENTRY, 8, 0⟩,
        ⟨.ACTION_ENTRY, 9, 0⟩, ⟨.ACTION_ENTRY, 10, 0⟩]) := by
  decide

/-- C23 as stated fails outside `data_size >= 1`, `data_size * len < 2 ^ 32`.
With `len = 65538` and `data_size = 65536` the product wraps in `uint32_t` to
two slots, so after the puts `1, 2, 3` only `3` is delivered (not `1, 2, 3`);
with `len = 4` and `data_size = 0` every put leaves the buffer empty and
nothing is delivered. -/
theorem ringbuff_keeps_last_counterexample :
    gets_after_puts 65538 65536 [1, 2, 3] = some (some [3]) ∧
    min [1, 2, 3].length (65538 - 1) = 3 ∧
    gets_after_puts 4 0 [1, 2, 3] = some (some []) ∧
    min [1, 2, 3].length (4 - 1) = 3 := by
  decide

end Fsm
